import Mathlib

/-!
# HwBloomRadixJoin: the Bloom filter, the hash functions, the command line and the CPU mapping

A shallow embedding of `src/bloom_filter.c`, `src/bloom_filter.h`, the hash
functions of `src/hash.c` and `src/spooky.c`, the option handling and the
dispatch of the join in `src/main.c`, `src/cpu_mapping.c`, and the key generator
of `src/unit_tests.c`.

Conventions of the embedding:

* machine integers are natural numbers; every place where C truncates to a
  narrower unsigned type is written with `u8`, `u32` or `u64`;
* a key (`intkey_t`, a 32-bit integer) is represented by its 32-bit pattern,
  which is what `(uint32_t) key` and the unsigned sum `key + seed` see;
* an `unsigned char *` is a byte store (`bytes_t`) together with a byte offset;
  an access outside the allocated bytes has no defined result (`none`);
* the loop counter `int i` of the probe loops is a natural number: the loops run
  `k` times, and `y + i + 1` is reduced to 32 bits as in C;
* static variables are passed and returned explicitly; what the program reads from
  its environment (the results of `getopt_long`, the mapping file, the number of
  processors) is an argument.
-/

namespace HwBloomRadixJoin

/-! ## Machine integers -/

/-- Conversion to `unsigned char`. -/
def u8 (x : Nat) : Nat := x % 2 ^ 8

/-- Conversion to `uint32_t`. -/
def u32 (x : Nat) : Nat := x % 2 ^ 32

/-- Conversion to `uint64_t`. -/
def u64 (x : Nat) : Nat := x % 2 ^ 64

/-- Size in bytes of `intkey_t`. Modelled from the spec: `types.h` is not part of
the sources; the spec fixes the key to a 32-bit integer. -/
def sizeof_intkey_t : Nat := 4

/-! ## hash.c -/

/-- One bit step of the reflected CRC-32C division (polynomial `0x11EDC6F41`,
reflected `0x82F63B78`). -/
def crc32c_step (crc : Nat) : Nat :=
  if crc % 2 = 1 then (crc >>> 1) ^^^ 0x82F63B78 else crc >>> 1

/-- The SSE4.2 intrinsic `_mm_crc32_u32(crc, v)`: the CRC-32C accumulation of the
four bytes of `v` into `crc`, as the processor manual defines the `CRC32`
instruction (no initial or final inversion). -/
def mm_crc32_u32 (crc v : Nat) : Nat :=
  crc32c_step^[32] (u32 crc ^^^ u32 v)

/-- The function `hash_crc` of hash.c. -/
def hash_crc (seed key : Nat) : Nat :=
  mm_crc32_u32 seed key

/-- The macro `cwfold(a, b, lo, hi)` of hash.c: `p = (uint32_t) a * (uint64_t) b`,
then `lo ^= (uint32_t) p` and `hi ^= (uint32_t) (p >> 32)`. Returns `(lo, hi)`. -/
def cwfold (a b lo hi : Nat) : Nat × Nat :=
  let p := u64 (u32 a * u64 b)
  (lo ^^^ u32 p, hi ^^^ u32 (p >>> 32))

/-- The function `hash_crapwow` of hash.c; `cwmixb(in)` is `cwfold(in, n, h, k)`. -/
def hash_crapwow (seed key : Nat) : Nat :=
  let n := 0x5052acdb
  let h := sizeof_intkey_t
  let k := u32 (h + seed + n)
  let (h, k) := cwfold key n h k
  let (h, k) := cwfold (h ^^^ u32 (k + n)) n h k
  k ^^^ h

/-! ## bloom_filter.h -/

/-- The enumeration `bloom_filter_variant_t` of bloom_filter.h. -/
inductive bloom_filter_variant_t where
  | BASIC
  | BLOCKED
  deriving DecidableEq

/-- The bytes behind an `unsigned char *`: `len` allocated bytes, `byte a` the
content of the byte at offset `a`. -/
structure bytes_t where
  len : Nat
  byte : Nat → Nat

/-- The structure `bloom_filter_t` of bloom_filter.h. -/
structure bloom_filter_t where
  variant : bloom_filter_variant_t
  bitmap : bytes_t
  seed : Nat
  m : Nat
  k : Nat
  B : Nat
  nblocks : Nat

/-- The structure `bloom_filter_args_t` of bloom_filter.h. -/
structure bloom_filter_args_t where
  variant : bloom_filter_variant_t
  m : Nat
  k : Nat
  B : Nat

/-! ## bloom_filter.c: memory accesses -/

/-- The call `atomic_fetch_or_explicit(p + addr, v, memory_order_relaxed)` on an
`unsigned char`: the byte becomes `byte | (unsigned char) v`. -/
def atomic_fetch_or (mem : bytes_t) (addr v : Nat) : Option bytes_t :=
  if addr < mem.len then
    some { mem with
      byte := fun a => if a = addr then u8 (mem.byte addr ||| v) else mem.byte a }
  else none

/-- The read `p[addr]` of an `unsigned char`. -/
def load (mem : bytes_t) (addr : Nat) : Option Nat :=
  if addr < mem.len then some (mem.byte addr) else none

/-! ## bloom_filter.c: the filter -/

/-- The function `mod_m(uint32_t val, uint64_t m)` of bloom_filter.c: `val & (m - 1)`, the
subtraction in 64 bits, the result returned as `uint32_t`. -/
def mod_m (val m : Nat) : Nat :=
  u32 (val &&& u64 (m + 2 ^ 64 - 1))

/-- The loop of `add_generic`: `n` iterations are left, `i` is the loop counter,
`off` the byte offset of `bitmap` inside `mem`. -/
def add_generic_loop (size off : Nat) : Nat → Nat → Nat → Nat → bytes_t → Option bytes_t
  | 0, _, _, _, mem => some mem
  | n + 1, i, h, y, mem =>
    match atomic_fetch_or mem (off + (h >>> 3)) (1 <<< (h &&& 7)) with
    | none => none
    | some mem1 =>
      add_generic_loop size off n (i + 1) (mod_m (u32 (h + y)) size)
        (mod_m (u32 (y + i + 1)) size) mem1

/-- The function `add_generic` of bloom_filter.c; the pointer `bitmap` is `mem` at byte offset
`off`, `size` is its `uint32_t` parameter. -/
def add_generic (filter : bloom_filter_t) (key : Nat) (mem : bytes_t) (off size : Nat) :
    Option bytes_t :=
  let h := hash_crapwow filter.seed key
  let y := u32 (key + filter.seed)
  let h := mod_m h size
  let y := mod_m y size
  add_generic_loop size off filter.k 0 h y mem

/-- The loop of `contains_generic`. -/
def contains_generic_loop (size off : Nat) (mem : bytes_t) : Nat → Nat → Nat → Nat → Option Bool
  | 0, _, _, _ => some true
  | n + 1, i, h, y =>
    match load mem (off + (h >>> 3)) with
    | none => none
    | some b =>
      if b &&& (1 <<< (h &&& 7)) = 0 then some false
      else
        contains_generic_loop size off mem n (i + 1) (mod_m (u32 (h + y)) size)
          (mod_m (u32 (y + i + 1)) size)

/-- The function `contains_generic` of bloom_filter.c. -/
def contains_generic (filter : bloom_filter_t) (key : Nat) (mem : bytes_t) (off size : Nat) :
    Option Bool :=
  let h := hash_crapwow filter.seed key
  let y := u32 (key + filter.seed)
  let h := mod_m h size
  let y := mod_m y size
  contains_generic_loop size off mem filter.k 0 h y

/-- The function `add_basic` of bloom_filter.c; the `uint64_t` field `m` is passed for the
`uint32_t` parameter `size`. The result is the filter with the new bitmap. -/
def add_basic (filter : bloom_filter_t) (key : Nat) : Option bloom_filter_t :=
  (add_generic filter key filter.bitmap 0 (u32 filter.m)).map
    fun mem => { filter with bitmap := mem }

/-- The function `contains_basic` of bloom_filter.c. -/
def contains_basic (filter : bloom_filter_t) (key : Nat) : Option Bool :=
  contains_generic filter key filter.bitmap 0 (u32 filter.m)

/-- Byte offset of the block of `key`: `block_idx * (filter->B / 8)` with
`block_idx = mod_m(hash_crc(seed, key), nblocks)`. -/
def block_offset (filter : bloom_filter_t) (key : Nat) : Nat :=
  let block_idx := mod_m (hash_crc filter.seed key) filter.nblocks
  u64 (block_idx * (filter.B / 8))

/-- The function `add_blocked` of bloom_filter.c. -/
def add_blocked (filter : bloom_filter_t) (key : Nat) : Option bloom_filter_t :=
  (add_generic filter key filter.bitmap (block_offset filter key) (u32 filter.B)).map
    fun mem => { filter with bitmap := mem }

/-- The function `contains_blocked` of bloom_filter.c. -/
def contains_blocked (filter : bloom_filter_t) (key : Nat) : Option Bool :=
  contains_generic filter key filter.bitmap (block_offset filter key) (u32 filter.B)

/-- The call `strategy->add(filter, key)`: the function pointer that
`bloom_filter_create` stores for the filter's variant. -/
def strategy_add (filter : bloom_filter_t) (key : Nat) : Option bloom_filter_t :=
  match filter.variant with
  | .BASIC => add_basic filter key
  | .BLOCKED => add_blocked filter key

/-- The call `strategy->contains(filter, key)`. -/
def strategy_contains (filter : bloom_filter_t) (key : Nat) : Option Bool :=
  match filter.variant with
  | .BASIC => contains_basic filter key
  | .BLOCKED => contains_blocked filter key

/-- A fresh region of `size` bytes after `memset(ret, 0, size)`. -/
def zero_bytes (size : Nat) : bytes_t :=
  { len := size, byte := fun _ => 0 }

/-- The null pointer as a region of memory: it holds no byte, so every access
through it has no result. -/
def null_region : bytes_t :=
  { len := 0, byte := fun _ => 0 }

/-- The function `calloc_aligned(size)` of bloom_filter.c. The argument
`posix_memalign` is the library call `posix_memalign(&ret, CACHE_LINE_SIZE, size)`
as a function of `size`: its value is the return value `rv`, 0 when `ret` points
to `size` fresh bytes and an error number when nothing was allocated (how much
memory is left is the environment's, not the program's). With `rv` not 0 the
function prints its message and returns the null pointer; otherwise it returns
the region filled with zeros. -/
def calloc_aligned (posix_memalign : Nat → Int) (size : Nat) : bytes_t :=
  let rv := posix_memalign size
  if rv ≠ 0 then null_region
  else zero_bytes size

/-- The function `bloom_filter_create` of bloom_filter.c, reduced to the filter it builds (the
strategy's function pointers are `strategy_add` and `strategy_contains`). The
division `args->m / args->B` has no defined result for `B = 0`. The bitmap is
what `calloc_aligned` returns; the function stores it without a test, the null
pointer included. The two structures that the function obtains from `malloc`
are the value that it returns. -/
def bloom_filter_create (posix_memalign : Nat → Int) (args : bloom_filter_args_t)
    (seed : Nat) : Option bloom_filter_t :=
  if args.B = 0 then none
  else some
    { variant := args.variant
      m := args.m
      k := args.k
      B := args.B
      nblocks := args.m / args.B
      seed := seed
      bitmap := calloc_aligned posix_memalign (args.m / 8) }

/-! ## bloom_filter.c: argument validation -/

/-- How a call ends: it returns, the process exits with a status, or the C
standard gives the execution no meaning. -/
inductive outcome_t where
  | returns
  | exit (status : Nat)
  | undefined
  deriving DecidableEq

/-- The static `assert(cond, msg)` of bloom_filter.c: prints `msg` and calls
`exit(1)` when `cond` is false, otherwise the caller goes on with `next`. -/
def assert (cond : Bool) (next : outcome_t) : outcome_t :=
  if !cond then outcome_t.exit 1 else next

/-- Halving `n` at most `fuel` times: the position of the highest set bit. -/
def floor_log2_fuel : Nat → Nat → Nat
  | 0, _ => 0
  | fuel + 1, n => if n < 2 then 0 else floor_log2_fuel fuel (n / 2) + 1

/-- The integer part of the binary logarithm of `n`, for `1 ≤ n ≤ 2 ^ 64`. -/
def floor_log2 (n : Nat) : Nat := floor_log2_fuel 65 n

/-- The value of `(double) B` for a `uint64_t` `B`: the nearest number with a
53-bit significand, ties to even. The value is an integer. -/
def u64_to_double (B : Nat) : Nat :=
  if B < 2 ^ 53 then B
  else
    let e := floor_log2 B - 52
    let q := B / 2 ^ e
    let r := B % 2 ^ e
    let half := 2 ^ (e - 1)
    if r < half then q * 2 ^ e
    else if half < r then (q + 1) * 2 ^ e
    else if q % 2 = 0 then q * 2 ^ e
    else (q + 1) * 2 ^ e

/-- The test `pow(2, (int) log2(B)) == B` for `B ≠ 0`, both sides in `double`.
`pow(2, n)` is the exact power; `log2` is exact on powers of two and lies between
the neighbouring integers otherwise, so the test holds exactly when `(double) B`
is a power of two. -/
def pow2_log2_eq (B : Nat) : Bool :=
  2 ^ floor_log2 (u64_to_double B) == u64_to_double B

/-- The function `assert_args` of bloom_filter.c. For `B = 0` the conversion
`(int) log2(0)` of an infinite value has no defined result. -/
def assert_args (args : bloom_filter_args_t) : outcome_t :=
  assert (args.m &&& u64 (args.m + 2 ^ 64 - 1) == 0) <|
    if args.variant ≠ bloom_filter_variant_t.BASIC then
      if args.B = 0 then outcome_t.undefined
      else
        assert (pow2_log2_eq args.B) <|
          assert (args.m % args.B == 0) outcome_t.returns
    else outcome_t.returns

/-- The last statement of `parse_args` in main.c:
`if (cmd_params->bloom_enable) assert_args(&cmd_params->bloom_filter_args);`. -/
def parse_args_validate (bloom_enable : Bool) (args : bloom_filter_args_t) : outcome_t :=
  if bloom_enable then assert_args args else outcome_t.returns

/-! ## unit_tests.c: filling and querying a filter -/

/-- A tuple. Modelled from the spec: `types.h` is not part of the sources; the
spec gives a tuple a key and a payload. -/
structure tuple_t where
  key : Nat
  payload : Nat

/-- The insertion loop of `test_bloom_fpr`:
`filter_strat->add(filter, R->tuples[i].key)` for every tuple of `R` in order. -/
def add_relation (filter : bloom_filter_t) : List tuple_t → Option bloom_filter_t
  | [] => some filter
  | r :: R =>
    match strategy_add filter r.key with
    | none => none
    | some filter1 => add_relation filter1 R

/-! ## Vocabulary of the specification -/

/-- The number `n` is a power of two. -/
def is_pow2 (n : Nat) : Prop := ∃ a, n = 2 ^ a

/-- The preconditions of the basic filter: `m` is a power of two and a multiple
of 8, it fits its `uint64_t` field, and the bitmap has `m / 8` bytes. -/
structure valid_basic (f : bloom_filter_t) : Prop where
  m_pow2 : is_pow2 f.m
  m_mod8 : f.m % 8 = 0
  m_u64 : f.m < 2 ^ 64
  len : f.bitmap.len = f.m / 8

/-- The preconditions of the blocked filter: those of the basic filter, `B` is a
power of two that divides `m`, and `nblocks` is `m / B`. -/
structure valid_blocked (f : bloom_filter_t) : Prop where
  basic : valid_basic f
  B_pow2 : is_pow2 f.B
  B_dvd : f.m % f.B = 0
  nblocks : f.nblocks = f.m / f.B

/-- The preconditions for the variant that the filter was created with. -/
def valid (f : bloom_filter_t) : Prop :=
  match f.variant with
  | .BASIC => valid_basic f
  | .BLOCKED => valid_blocked f

/-- The preconditions on the arguments of `bloom_filter_create`: `m` is a power
of two and a multiple of 8 that fits its `uint64_t` field, and in blocked mode
`B` is a power of two that divides `m`. -/
structure valid_args (args : bloom_filter_args_t) : Prop where
  m_pow2 : is_pow2 args.m
  m_mod8 : args.m % 8 = 0
  m_u64 : args.m < 2 ^ 64
  blocked : args.variant = bloom_filter_variant_t.BLOCKED →
    is_pow2 args.B ∧ args.m % args.B = 0

/-- The S-side pre-filter of the Bloom joins: the tuples of `S` for which
`contains` returns true. Modelled from the spec: the join kernels are not part
of the sources; the spec drops an S-tuple when `contains(key)` is false. -/
def bloom_prefilter (filter : bloom_filter_t) (S : List tuple_t) : List tuple_t :=
  S.filter fun s => strategy_contains filter s.key == some true

/-- The number of pairs `(r, s)` of `R × S` with `r.key = s.key`. -/
def match_count (R S : List tuple_t) : Nat :=
  ((List.product R S).filter fun p => p.1.key == p.2.key).length

/-! ## The bits of the bitmap and the probe sequence -/

/-- Bit `j` of a byte store: bit `j & 7` of byte `j >> 3`, tested as
`contains_generic` tests it. -/
def bit_set (mem : bytes_t) (j : Nat) : Bool :=
  mem.byte (j >>> 3) &&& (1 <<< (j &&& 7)) != 0

/-- The values that `h` takes in the loops of `add_generic` and
`contains_generic`: `n` iterations left, loop counter `i`, current `h` and `y`. -/
def probe_loop (size : Nat) : Nat → Nat → Nat → Nat → List Nat
  | 0, _, _, _ => []
  | n + 1, i, h, y =>
    h :: probe_loop size n (i + 1) (mod_m (u32 (h + y)) size) (mod_m (u32 (y + i + 1)) size)

/-- The probe indices of `key` in a bitmap of `size` bits, as `add_generic` and
`contains_generic` compute them before and inside their loops. -/
def probes (filter : bloom_filter_t) (key size : Nat) : List Nat :=
  probe_loop size filter.k 0 (mod_m (hash_crapwow filter.seed key) size)
    (mod_m (u32 (key + filter.seed)) size)

/-- The pair `(h, y)` at the start of iteration `i` of the loops of
`add_generic` and `contains_generic`, from the initial pair `(h0, y0)`. -/
def probe_state (size h0 y0 : Nat) : Nat → Nat × Nat
  | 0 => (h0, y0)
  | i + 1 =>
    let s := probe_state size h0 y0 i
    (mod_m (u32 (s.1 + s.2)) size, mod_m (u32 (s.2 + i + 1)) size)

/-- The recurrence of the specification: `(p_0, y_0) = (p0, y0)`,
`p_{i+1} = (p_i + y_i) mod m` and `y_{i+1} = (y_i + i + 1) mod m`. -/
def spec_probe_state (m p0 y0 : Nat) : Nat → Nat × Nat
  | 0 => (p0, y0)
  | i + 1 =>
    let s := spec_probe_state m p0 y0 i
    ((s.1 + s.2) % m, (s.2 + i + 1) % m)

/-- The probe index `p_i` of the specification for a basic filter:
`p_0 = hash_crapwow(seed, key) mod m` and `y_0 = (key + seed) mod m`. -/
def spec_probe (f : bloom_filter_t) (key i : Nat) : Nat :=
  (spec_probe_state f.m (hash_crapwow f.seed key % f.m) ((key + f.seed) % f.m) i).1

/-- Bit `j` lies in block `idx` of a filter with blocks of `B` bits. -/
def in_block (B idx j : Nat) : Prop :=
  idx * B ≤ j ∧ j < (idx + 1) * B

/-- The block index of the specification: `hash_crc(seed, key) mod (m / B)`. -/
def spec_block_idx (f : bloom_filter_t) (key : Nat) : Nat :=
  hash_crc f.seed key % (f.m / f.B)

/-! ## Example filters and relations -/

/-- The smallest configuration: `m = 8`, `k = 1`, one block of 8 bits, empty. -/
def filter_m8 : bloom_filter_t :=
  { variant := bloom_filter_variant_t.BASIC, bitmap := zero_bytes 1, seed := 0,
    m := 8, k := 1, B := 8, nblocks := 1 }

/-- A blocked filter of 64 bits in 4 blocks of 16 bits, `k = 3`, empty. -/
def filter_m64 : bloom_filter_t :=
  { variant := bloom_filter_variant_t.BLOCKED, bitmap := zero_bytes 8, seed := 7,
    m := 64, k := 3, B := 16, nblocks := 4 }

/-- The arguments from which `bloom_filter_create` builds `filter_m64`. -/
def args_m64 : bloom_filter_args_t :=
  { variant := bloom_filter_variant_t.BLOCKED, m := 64, k := 3, B := 16 }

/-- A `posix_memalign` that always finds memory. -/
def memalign_succeeds : Nat → Int := fun _ => 0

/-- The error number `ENOMEM`. -/
def ENOMEM : Int := 12

/-- A `posix_memalign` that finds memory for requests of up to `2 ^ 30` bytes. -/
def memalign_limited : Nat → Int := fun size => if size ≤ 2 ^ 30 then 0 else ENOMEM

/-- Valid arguments for a basic filter of `2 ^ 63` bits, a bitmap of `2 ^ 60` bytes. -/
def args_m63 : bloom_filter_args_t :=
  { variant := bloom_filter_variant_t.BASIC, m := 2 ^ 63, k := 8, B := 1024 }

/-- The blocked filter of 64 bits after `add` of the key 5. -/
def filter_m64_five : bloom_filter_t :=
  (strategy_add filter_m64 5).getD filter_m64

/-- A basic filter of 64 bits with `k = 3` in which the bits 0, 7 and 42 are set. -/
def filter_k3 : bloom_filter_t :=
  { variant := bloom_filter_variant_t.BASIC
    bitmap := { len := 8, byte := fun i => if i = 0 then 129 else if i = 5 then 4 else 0 }
    seed := 7, m := 64, k := 3, B := 64, nblocks := 1 }

/-- A build relation with the keys 5 and 9. -/
def relation_R : List tuple_t := [⟨5, 50⟩, ⟨9, 90⟩]

/-- A probe relation with the keys 9, 6, 9 and 11. -/
def relation_S : List tuple_t := [⟨9, 1⟩, ⟨6, 2⟩, ⟨9, 3⟩, ⟨11, 4⟩]

/-- A basic filter of `2 ^ 33` bits with `k = 2`, empty. -/
def filter_m33 : bloom_filter_t :=
  { variant := bloom_filter_variant_t.BASIC, bitmap := zero_bytes (2 ^ 30), seed := 0,
    m := 2 ^ 33, k := 2, B := 1024, nblocks := 2 ^ 23 }

/-- A blocked filter of 8 bits in 2 blocks of 4 bits, `k = 1`, empty. -/
def filter_b4 : bloom_filter_t :=
  { variant := bloom_filter_variant_t.BLOCKED, bitmap := zero_bytes 1, seed := 0,
    m := 8, k := 1, B := 4, nblocks := 2 }

/-! ## main.c: the algorithm table and the command line -/

/-- The functions that the field `joinAlgo` of the table `algos` points to. -/
inductive join_fn_t where
  | PRO
  | RJ
  | PRH
  | PRHO
  | NPO
  | NPO_st
  deriving DecidableEq

/-- The functions that the field `joinAlgoBloom` of the table `algos` points to. -/
inductive join_bloom_fn_t where
  | BPRO
  | BRJ
  | BPRH
  | BPRHO
  | B_NPO
  | B_NPO_st
  deriving DecidableEq

/-- The structure `algo_t` of main.c; a function pointer is the name of its target. -/
structure algo_t where
  name : String
  joinAlgo : join_fn_t
  joinAlgoBloom : join_bloom_fn_t
  deriving DecidableEq

/-- The table `algos` of main.c, up to the terminating entry with a null `joinAlgo`. -/
def algos : List algo_t :=
  [ { name := "PRO", joinAlgo := join_fn_t.PRO, joinAlgoBloom := join_bloom_fn_t.BPRO },
    { name := "RJ", joinAlgo := join_fn_t.RJ, joinAlgoBloom := join_bloom_fn_t.BRJ },
    { name := "PRH", joinAlgo := join_fn_t.PRH, joinAlgoBloom := join_bloom_fn_t.BPRH },
    { name := "PRHO", joinAlgo := join_fn_t.PRHO, joinAlgoBloom := join_bloom_fn_t.BPRHO },
    { name := "NPO", joinAlgo := join_fn_t.NPO, joinAlgoBloom := join_bloom_fn_t.B_NPO },
    { name := "NPO_st", joinAlgo := join_fn_t.NPO_st,
      joinAlgoBloom := join_bloom_fn_t.B_NPO_st } ]

/-- The structure `param_t` of main.c. A `double` field keeps the text that `atof`
converted; a `char *` field is a string or null. -/
structure param_t where
  algo : algo_t
  nthreads : Nat
  r_size : Nat
  s_size : Nat
  r_seed : Nat
  s_seed : Nat
  skew : String
  selectivity : String
  nonunique_keys : Int
  verbose : Int
  fullrange_keys : Int
  basic_numa : Int
  perfconf : Option String
  perfout : Option String
  loadfileR : Option String
  loadfileS : Option String
  bloom_enable : Bool
  bloom_filter_args : bloom_filter_args_t

/-- The values that `main` gives `cmd_params` before it calls `parse_args`. -/
def default_params : param_t :=
  { algo := { name := "PRO", joinAlgo := join_fn_t.PRO, joinAlgoBloom := join_bloom_fn_t.BPRO }
    nthreads := 2
    r_size := 128000000
    s_size := 128000000
    r_seed := 12345
    s_seed := 54321
    skew := "0.0"
    selectivity := "1.0"
    nonunique_keys := 0
    verbose := 0
    fullrange_keys := 0
    basic_numa := 0
    perfconf := none
    perfout := none
    loadfileR := none
    loadfileS := none
    bloom_enable := false
    bloom_filter_args :=
      { variant := bloom_filter_variant_t.BASIC, m := 256 <<< 20, k := 8, B := 1024 } }

/-- The static flags of `parse_args` that the long options without argument set. -/
structure flags_t where
  verbose_flag : Int
  nonunique_flag : Int
  fullrange_flag : Int
  basic_numa : Int

/-- What one call of `getopt_long` in `parse_args` yields: a long option that
stores into its flag (the call returns 0), or an option character with its
argument (`optarg`; empty for an option without argument). The character `?`
stands for an option that `getopt_long` rejects. -/
inductive getopt_t where
  | verbose
  | brief
  | non_unique
  | full_range
  | basic_numa
  | opt (c : Char) (optarg : String)

/-- The value of the decimal digits at the start of `cs`, after the digits `acc`. -/
def digits_value : List Char → Nat → Nat
  | [], acc => acc
  | c :: cs, acc =>
    if 48 ≤ c.toNat ∧ c.toNat ≤ 57 then digits_value cs (10 * acc + (c.toNat - 48)) else acc

/-- The number that the text `s` denotes for `strtol` of the C library: white
space is skipped, then an optional sign and the decimal digits that follow are
read. This is the mathematical value, of any size. -/
def ascii_to_int (s : String) : Int :=
  match s.toList.dropWhile fun c => c.toNat = 32 ∨ (9 ≤ c.toNat ∧ c.toNat ≤ 13) with
  | [] => 0
  | c :: cs =>
    if c.toNat = 45 then -(digits_value cs 0 : Int)
    else if c.toNat = 43 then (digits_value cs 0 : Int)
    else (digits_value (c :: cs) 0 : Int)

/-- The constant `LONG_MAX` of the C library, for a `long` of 64 bits. -/
def LONG_MAX : Int := 2 ^ 63 - 1

/-- The constant `LONG_MIN` of the C library, for a `long` of 64 bits. -/
def LONG_MIN : Int := -2 ^ 63

/-- The call `strtol(nptr, NULL, 10)` of the C library: the number that the
text denotes, and `LONG_MAX` or `LONG_MIN` when that number is above or below
the range of `long`. -/
def strtol (nptr : String) : Int :=
  if LONG_MAX < ascii_to_int nptr then LONG_MAX
  else if ascii_to_int nptr < LONG_MIN then LONG_MIN
  else ascii_to_int nptr

/-- The function `atol` of the C library: `strtol(nptr, NULL, 10)`. -/
def atol (nptr : String) : Int := strtol nptr

/-- The function `atoll` of the C library; `long long` has the 64 bits of `long`,
so the result is that of `strtol`. -/
def atoll (nptr : String) : Int := strtol nptr

/-- Conversion of a `long` to `int`: the low 32 bits, read as a signed number. -/
def long_to_int (x : Int) : Int := (x + 2 ^ 31) % 2 ^ 32 - 2 ^ 31

/-- The function `atoi` of the C library: `(int) strtol(nptr, NULL, 10)`. -/
def atoi (nptr : String) : Int := long_to_int (strtol nptr)

/-- Conversion of a signed value to `uint32_t`. -/
def int_to_u32 (x : Int) : Nat := (x % 2 ^ 32).toNat

/-- Conversion of a signed value to `uint64_t`. -/
def int_to_u64 (x : Int) : Nat := (x % 2 ^ 64).toNat

/-- The loop of `case 'a'` in `parse_args`: the first entry of the table whose
name `strcmp` finds equal to `optarg`. -/
def find_algo (optarg : String) : List algo_t → Option algo_t
  | [] => none
  | a :: rest => if optarg = a.name then some a else find_algo optarg rest

/-- How the body of the option loop of `parse_args` ends: the loop continues
with new flags and parameters, or the process exits. -/
inductive step_t where
  | continue (flags : flags_t) (params : param_t)
  | exit (status : Nat)

/-- The body of the option loop of `parse_args` for one result of `getopt_long`.
`EXIT_SUCCESS` is 0. -/
def parse_option (o : getopt_t) (fl : flags_t) (p : param_t) : step_t :=
  match o with
  | getopt_t.verbose => step_t.continue { fl with verbose_flag := 1 } p
  | getopt_t.brief => step_t.continue { fl with verbose_flag := 0 } p
  | getopt_t.non_unique => step_t.continue { fl with nonunique_flag := 1 } p
  | getopt_t.full_range => step_t.continue { fl with fullrange_flag := 1 } p
  | getopt_t.basic_numa => step_t.continue { fl with basic_numa := 1 } p
  | getopt_t.opt c optarg =>
    if c = 'a' then
      match find_algo optarg algos with
      | some a => step_t.continue fl { p with algo := a }
      | none => step_t.exit 0
    else if c = 'h' ∨ c = '?' then step_t.exit 0
    else if c = 'v' then step_t.exit 0
    else if c = 'n' then step_t.continue fl { p with nthreads := int_to_u32 (atoi optarg) }
    else if c = 'p' then step_t.continue fl { p with perfconf := some optarg }
    else if c = 'q' then step_t.continue fl { p with selectivity := optarg }
    else if c = 'r' then step_t.continue fl { p with r_size := int_to_u64 (atol optarg) }
    else if c = 's' then step_t.continue fl { p with s_size := int_to_u64 (atol optarg) }
    else if c = 'o' then step_t.continue fl { p with perfout := some optarg }
    else if c = 'x' then step_t.continue fl { p with r_seed := int_to_u32 (atoi optarg) }
    else if c = 'y' then step_t.continue fl { p with s_seed := int_to_u32 (atoi optarg) }
    else if c = 'z' then step_t.continue fl { p with skew := optarg }
    else if c = 'R' then step_t.continue fl { p with loadfileR := some optarg }
    else if c = 'S' then step_t.continue fl { p with loadfileS := some optarg }
    else if c = 'b' then
      step_t.continue fl
        { p with
          bloom_enable := optarg != "no"
          bloom_filter_args :=
            if optarg = "basic" then
              { p.bloom_filter_args with variant := bloom_filter_variant_t.BASIC }
            else if optarg = "blocked" then
              { p.bloom_filter_args with variant := bloom_filter_variant_t.BLOCKED }
            else p.bloom_filter_args }
    else if c = 'm' then
      step_t.continue fl
        { p with bloom_filter_args :=
            { p.bloom_filter_args with m := int_to_u64 (atoll optarg) } }
    else if c = 'k' then
      step_t.continue fl
        { p with bloom_filter_args :=
            { p.bloom_filter_args with k := int_to_u64 (atoi optarg) } }
    else if c = 'B' then
      step_t.continue fl
        { p with bloom_filter_args :=
            { p.bloom_filter_args with B := int_to_u64 (atoi optarg) } }
    else step_t.continue fl p

/-- The option loop of `parse_args` over the results of `getopt_long`, until it
returns -1. -/
def parse_args_loop : List getopt_t → flags_t → param_t → step_t
  | [], fl, p => step_t.continue fl p
  | o :: rest, fl, p =>
    match parse_option o fl p with
    | step_t.continue fl1 p1 => parse_args_loop rest fl1 p1
    | step_t.exit status => step_t.exit status

/-- The function `parse_args` of main.c on the results of `getopt_long`: how the
call ends, and the parameters when it returns. The static flags start at 0. -/
def parse_args (opts : List getopt_t) (cmd_params : param_t) : outcome_t × param_t :=
  match parse_args_loop opts
      { verbose_flag := 0, nonunique_flag := 0, fullrange_flag := 0, basic_numa := 0 }
      cmd_params with
  | step_t.exit status => (outcome_t.exit status, cmd_params)
  | step_t.continue fl p =>
    let p1 : param_t :=
      { p with
        nonunique_keys := fl.nonunique_flag
        verbose := fl.verbose_flag
        fullrange_keys := fl.fullrange_flag
        basic_numa := fl.basic_numa }
    (parse_args_validate p1.bloom_enable p1.bloom_filter_args, p1)

/-! ## main.c: running the selected join -/

/-- A relation. Modelled from the spec: `types.h` is not part of the sources; the
spec gives a relation as its tuples in order. -/
abbrev relation_t := List tuple_t

/-- The join functions that main.c takes from `no_partitioning_join.h`,
`parallel_radix_join.h` and `parallel_radix_join_bloom.h`. These files are not
part of the sources, so the functions are parameters; `ρ` is what a join yields. -/
structure join_kernels_t (ρ : Type) where
  PRO : relation_t → relation_t → Int → ρ
  RJ : relation_t → relation_t → Int → ρ
  PRH : relation_t → relation_t → Int → ρ
  PRHO : relation_t → relation_t → Int → ρ
  NPO : relation_t → relation_t → Int → ρ
  NPO_st : relation_t → relation_t → Int → ρ
  BPRO : relation_t → relation_t → Int → bloom_filter_args_t → ρ
  BRJ : relation_t → relation_t → Int → bloom_filter_args_t → ρ
  BPRH : relation_t → relation_t → Int → bloom_filter_args_t → ρ
  BPRHO : relation_t → relation_t → Int → bloom_filter_args_t → ρ

/-- The wrapper `B_NPO` of main.c. -/
def B_NPO {ρ : Type} (K : join_kernels_t ρ) (relR relS : relation_t) (nthreads : Int)
    (_bloom_args : bloom_filter_args_t) : ρ :=
  K.NPO relR relS nthreads

/-- The wrapper `B_NPO_st` of main.c. -/
def B_NPO_st {ρ : Type} (K : join_kernels_t ρ) (relR relS : relation_t) (nthreads : Int)
    (_bloom_args : bloom_filter_args_t) : ρ :=
  K.NPO_st relR relS nthreads

/-- The call through the function pointer `joinAlgo`. -/
def call_joinAlgo {ρ : Type} (K : join_kernels_t ρ) :
    join_fn_t → relation_t → relation_t → Int → ρ
  | join_fn_t.PRO => K.PRO
  | join_fn_t.RJ => K.RJ
  | join_fn_t.PRH => K.PRH
  | join_fn_t.PRHO => K.PRHO
  | join_fn_t.NPO => K.NPO
  | join_fn_t.NPO_st => K.NPO_st

/-- The call through the function pointer `joinAlgoBloom`. -/
def call_joinAlgoBloom {ρ : Type} (K : join_kernels_t ρ) :
    join_bloom_fn_t → relation_t → relation_t → Int → bloom_filter_args_t → ρ
  | join_bloom_fn_t.BPRO => K.BPRO
  | join_bloom_fn_t.BRJ => K.BRJ
  | join_bloom_fn_t.BPRH => K.BPRH
  | join_bloom_fn_t.BPRHO => K.BPRHO
  | join_bloom_fn_t.B_NPO => B_NPO K
  | join_bloom_fn_t.B_NPO_st => B_NPO_st K

/-- Conversion of a `uint32_t` to `int`. -/
def u32_to_int (x : Nat) : Int :=
  if x < 2 ^ 31 then (x : Int) else (x : Int) - 2 ^ 32

/-- The dispatch of `main`: `joinAlgoBloom` of the selected algorithm when
`bloom_enable` is set, `joinAlgo` otherwise. -/
def run_join {ρ : Type} (K : join_kernels_t ρ) (cmd_params : param_t)
    (relR relS : relation_t) : ρ :=
  if cmd_params.bloom_enable then
    call_joinAlgoBloom K cmd_params.algo.joinAlgoBloom relR relS
      (u32_to_int cmd_params.nthreads) cmd_params.bloom_filter_args
  else
    call_joinAlgo K cmd_params.algo.joinAlgo relR relS (u32_to_int cmd_params.nthreads)

/-! ## cpu_mapping.c -/

/-- The constant `MAX_NODES` of cpu_mapping.c. -/
def MAX_NODES : Nat := 512

/-- The static variables `inited`, `max_cpus` and `node_mapping` of cpu_mapping.c. -/
structure cpu_mapping_t where
  inited : Int
  max_cpus : Int
  node_mapping : Nat → Int

/-- The static variables at program start: all zero. -/
def cpu_mapping_start : cpu_mapping_t :=
  { inited := 0, max_cpus := 0, node_mapping := fun _ => 0 }

/-- What cpu_mapping.c reads from its environment: the integers that
`fscanf(cfg, "%d", ..)` can read from the start of the mapping file (`none` when
`fopen` fails), and the value of `sysconf(_SC_NPROCESSORS_ONLN)`. -/
structure cpu_env_t where
  mapping_file : Option (List Int)
  nprocessors_onln : Int

/-- The store `node_mapping[i] = v`; outside of the array it has no defined result. -/
def set_node_mapping (st : cpu_mapping_t) (i : Nat) (v : Int) : Option cpu_mapping_t :=
  if i < MAX_NODES then
    some { st with node_mapping := fun j => if j = i then v else st.node_mapping j }
  else none

/-- The loop of `init_mappings_from_file`: `n` iterations are left, `i` is the
loop counter, the list holds the integers not yet read. When `fscanf` reads
nothing, only `perror` is called. -/
def read_mappings : Nat → Nat → List Int → cpu_mapping_t → Option cpu_mapping_t
  | 0, _, _, st => some st
  | n + 1, i, [], st => read_mappings n (i + 1) [] st
  | n + 1, i, v :: rest, st =>
    match set_node_mapping st i v with
    | none => none
    | some st1 => read_mappings n (i + 1) rest st1

/-- The function `init_mappings_from_file` of cpu_mapping.c: its return value and
the new static variables. -/
def init_mappings_from_file (env : cpu_env_t) (st : cpu_mapping_t) :
    Option (Int × cpu_mapping_t) :=
  match env.mapping_file with
  | none => some (0, st)
  | some [] =>
    (read_mappings st.max_cpus.toNat 0 [] st).map fun st1 => (1, st1)
  | some (v :: rest) =>
    (read_mappings v.toNat 0 rest { st with max_cpus := v }).map fun st1 => (1, st1)

/-- The loop of `init_mappings`: `node_mapping[i] = i`. -/
def fill_round_robin : Nat → Nat → cpu_mapping_t → Option cpu_mapping_t
  | 0, _, st => some st
  | n + 1, i, st =>
    match set_node_mapping st i (i : Int) with
    | none => none
    | some st1 => fill_round_robin n (i + 1) st1

/-- The function `init_mappings` of cpu_mapping.c. -/
def init_mappings (env : cpu_env_t) (st : cpu_mapping_t) : Option cpu_mapping_t :=
  match init_mappings_from_file env st with
  | none => none
  | some (r, st1) =>
    if r = 0 then
      fill_round_robin env.nprocessors_onln.toNat 0
        { st1 with max_cpus := env.nprocessors_onln }
    else some st1

/-- The function `get_cpu_id` of cpu_mapping.c: its return value and the new
static variables. The remainder `thread_id % max_cpus` truncates towards zero;
it has no defined result for `max_cpus = 0` and for `INT_MIN % -1`, and the read
of `node_mapping` has none outside of the array. -/
def get_cpu_id (env : cpu_env_t) (st : cpu_mapping_t) (thread_id : Int) :
    Option (Int × cpu_mapping_t) :=
  match
    (if st.inited = 0 then (init_mappings env st).map fun s => { s with inited := 1 }
     else some st) with
  | none => none
  | some st1 =>
    if st1.max_cpus = 0 ∨ (st1.max_cpus = -1 ∧ thread_id = -2 ^ 31) then none
    else if 0 ≤ Int.tmod thread_id st1.max_cpus ∧
        Int.tmod thread_id st1.max_cpus < (MAX_NODES : Int) then
      some (st1.node_mapping (Int.tmod thread_id st1.max_cpus).toNat, st1)
    else none

/-- Successive calls of `get_cpu_id` for the thread ids of a list: the values
returned, in order, and the static variables at the end. -/
def get_cpu_ids (env : cpu_env_t) : cpu_mapping_t → List Int → Option (List Int × cpu_mapping_t)
  | st, [] => some ([], st)
  | st, t :: ts =>
    match get_cpu_id env st t with
    | none => none
    | some (c, st1) =>
      match get_cpu_ids env st1 ts with
      | none => none
      | some (cs, st2) => some (c :: cs, st2)

/-- The mapping file of the documentation in main.c, `8 0 1 2 3 8 9 10 11`, on a
machine with 16 processors online. -/
def cpu_env_l5520 : cpu_env_t :=
  { mapping_file := some [8, 0, 1, 2, 3, 8, 9, 10, 11], nprocessors_onln := 16 }

/-- A machine without mapping file and with 4 processors online. -/
def cpu_env_four : cpu_env_t :=
  { mapping_file := none, nprocessors_onln := 4 }

/-- Join functions that all count the matching pairs. -/
def counting_kernels : join_kernels_t Nat :=
  { PRO := fun R S _ => match_count R S
    RJ := fun R S _ => match_count R S
    PRH := fun R S _ => match_count R S
    PRHO := fun R S _ => match_count R S
    NPO := fun R S _ => match_count R S
    NPO_st := fun R S _ => match_count R S
    BPRO := fun R S _ _ => match_count R S
    BRJ := fun R S _ _ => match_count R S
    BPRH := fun R S _ _ => match_count R S
    BPRHO := fun R S _ _ => match_count R S }

/-- The static flags of `parse_args` at program start. -/
def flags_start : flags_t :=
  { verbose_flag := 0, nonunique_flag := 0, fullrange_flag := 0, basic_numa := 0 }

/-! ## bloom_filter.c: the strategy -/

/-- The structure `bloom_filter_strategy_t` of bloom_filter.h. -/
structure bloom_filter_strategy_t where
  variant : bloom_filter_variant_t
  filter : bloom_filter_t
  add : bloom_filter_t → Nat → Option bloom_filter_t
  contains : bloom_filter_t → Nat → Option Bool

/-- The function `bloom_filter_create` of bloom_filter.c with the strategy that it
returns: the filter of `bloom_filter_create` and the function pointers that the
`switch` on `args->variant` stores. -/
def bloom_filter_create_strategy (posix_memalign : Nat → Int) (args : bloom_filter_args_t)
    (seed : Nat) : Option bloom_filter_strategy_t :=
  match bloom_filter_create posix_memalign args seed with
  | none => none
  | some filter =>
    match args.variant with
    | bloom_filter_variant_t.BASIC =>
      some { variant := args.variant, filter := filter, add := add_basic,
             contains := contains_basic }
    | bloom_filter_variant_t.BLOCKED =>
      some { variant := args.variant, filter := filter, add := add_blocked,
             contains := contains_blocked }

/-! ## Vocabulary for the CPU mapping -/

/-- The static variables after initialisation with `n` CPUs and the mapping `c`. -/
def cpu_mapping_ready (n : Nat) (c : Nat → Int) (st : cpu_mapping_t) : Prop :=
  st.inited = 1 ∧ st.max_cpus = (n : Int) ∧ ∀ j, j < n → st.node_mapping j = c j

/-! ## Vocabulary for the bytes of the bitmap -/

/-- The byte offset that `add` and `contains` of the filter's variant pass to
`add_generic` and `contains_generic` for `key`. -/
def probe_offset (f : bloom_filter_t) (key : Nat) : Nat :=
  match f.variant with
  | bloom_filter_variant_t.BASIC => 0
  | bloom_filter_variant_t.BLOCKED => block_offset f key

/-- The size that `add` and `contains` of the filter's variant pass to
`add_generic` and `contains_generic`. -/
def probe_size (f : bloom_filter_t) : Nat :=
  match f.variant with
  | bloom_filter_variant_t.BASIC => u32 f.m
  | bloom_filter_variant_t.BLOCKED => u32 f.B

/-- The byte at offset `x` holds a probe bit of `key`. -/
def touched_by (f : bloom_filter_t) (key x : Nat) : Prop :=
  ∃ p ∈ probes f key (probe_size f), probe_offset f key + p >>> 3 = x

/-- Bit `b` of the byte at offset `x` is a probe bit of `key`. -/
def hit_by (f : bloom_filter_t) (key x b : Nat) : Prop :=
  ∃ p ∈ probes f key (probe_size f), probe_offset f key + p >>> 3 = x ∧ p &&& 7 = b

/-- Bit `b` of a byte after fetch-or operations: in a byte that an operation
touched, the bit is one of the low 8 bits and was set before or by an operation;
in any other byte it is as before. -/
def byte_after (touched hit : Prop) (b : Nat) (old : Bool) : Prop :=
  (touched ∧ b < 8 ∧ (old = true ∨ hit)) ∨ (¬ touched ∧ old = true)

/-- The keys of `relation_R` in another order, the key 9 twice. -/
def relation_R_again : List tuple_t := [⟨9, 1⟩, ⟨5, 2⟩, ⟨9, 3⟩]

/-! ## hash.c: the byte-wise hash functions -/

/-- The value that `char byte = v & 0xFF` contributes to a `uint32_t` expression.
Plain `char` is signed on x86 and unsigned on ARM, the two targets of the sources
(`immintrin.h` or `sse2neon.h`); with a signed `char` a byte from 128 on is
negative and is sign-extended. -/
def char_to_u32 (char_signed : Bool) (b : Nat) : Nat :=
  if char_signed = true ∧ 128 ≤ b then b + 0xFFFFFF00 else b

/-- The expression `(key >> (i * 8)) & 0xFF` of the hash loops. -/
def key_byte (key i : Nat) : Nat :=
  (key >>> (i * 8)) &&& 0xFF

/-- The function `hash_FNV` of hash.c. -/
def hash_FNV (char_signed : Bool) (seed key : Nat) : Nat :=
  (List.range sizeof_intkey_t).foldl
    (fun h i => u32 ((h ^^^ char_to_u32 char_signed (key_byte key i)) * 16777619))
    (u32 (seed ^^^ 2166136261))

/-- The function `_rotl32` of hash.c. -/
def rotl32 (x bits : Nat) : Nat :=
  u32 (x <<< bits) ||| (x >>> (32 - bits))

/-- The function `hash_Coffin` of hash.c. -/
def hash_Coffin (char_signed : Bool) (_seed key : Nat) : Nat :=
  (List.range sizeof_intkey_t).foldl
    (fun result i => rotl32 (result ^^^ char_to_u32 char_signed (key_byte key i)) 5)
    0x55555555

/-- The function `hash_DJB2` of hash.c. -/
def hash_DJB2 (char_signed : Bool) (_seed key : Nat) : Nat :=
  (List.range sizeof_intkey_t).foldl
    (fun hash i =>
      u32 (u32 (u32 (hash <<< 5) + hash) + char_to_u32 char_signed (key_byte key i)))
    5381

/-- The FNV hash of smhasher in the words of the specification: `h` starts at
`seed XOR 2166136261`, and for each of the four bytes of the key, least
significant first and as a value `0 .. 255`, `h := (h XOR byte) * 16777619 mod 2^32`. -/
def fnv_reference (seed key : Nat) : Nat :=
  [key % 256, key / 256 % 256, key / 65536 % 256, key / 16777216 % 256].foldl
    (fun h byte => (h ^^^ byte) * 16777619 % 2 ^ 32)
    (seed ^^^ 2166136261)

/-! ## spooky.h and spooky.c -/

/-- The function `Rot64` of spooky.h. -/
def Rot64 (x k : Nat) : Nat :=
  u64 (x <<< k) ||| (x >>> (64 - k))

/-- The constant `sc_const` of spooky.h. -/
def sc_const : Nat := 0xdeadbeefdeadbeef

/-- The function `ShortEnd` of spooky.h on the values behind its four pointers;
the result is the new `(h0, h1, h2, h3)`. -/
def ShortEnd (h0 h1 h2 h3 : Nat) : Nat × Nat × Nat × Nat :=
  let h3 := h3 ^^^ h2
  let h2 := Rot64 h2 15
  let h3 := u64 (h3 + h2)
  let h0 := h0 ^^^ h3
  let h3 := Rot64 h3 52
  let h0 := u64 (h0 + h3)
  let h1 := h1 ^^^ h0
  let h0 := Rot64 h0 26
  let h1 := u64 (h1 + h0)
  let h2 := h2 ^^^ h1
  let h1 := Rot64 h1 51
  let h2 := u64 (h2 + h1)
  let h3 := h3 ^^^ h2
  let h2 := Rot64 h2 28
  let h3 := u64 (h3 + h2)
  let h0 := h0 ^^^ h3
  let h3 := Rot64 h3 9
  let h0 := u64 (h0 + h3)
  let h1 := h1 ^^^ h0
  let h0 := Rot64 h0 47
  let h1 := u64 (h1 + h0)
  let h2 := h2 ^^^ h1
  let h1 := Rot64 h1 54
  let h2 := u64 (h2 + h1)
  let h3 := h3 ^^^ h2
  let h2 := Rot64 h2 32
  let h3 := u64 (h3 + h2)
  let h0 := h0 ^^^ h3
  let h3 := Rot64 h3 25
  let h0 := u64 (h0 + h3)
  let h1 := h1 ^^^ h0
  let h0 := Rot64 h0 63
  let h1 := u64 (h1 + h0)
  (h0, h1, h2, h3)

/-- Conversion of an `intkey_t`, given by its 32-bit pattern, to `uint64_t`: the
sign is extended. -/
def intkey_to_u64 (key : Nat) : Nat :=
  if key < 2 ^ 31 then key else key + (2 ^ 64 - 2 ^ 32)

/-- The function `Short` of spooky.c on the values behind `hash1` and `hash2`;
the result is the new `(hash1, hash2)`. -/
def Short (message hash1 hash2 : Nat) : Nat × Nat :=
  let c := u64 (sc_const + intkey_to_u64 message)
  let d := u64 (sizeof_intkey_t <<< 56)
  let r := ShortEnd hash1 hash2 c d
  (r.1, r.2.1)

/-- The function `hash_spooky128` of spooky.c. -/
def hash_spooky128 (message hash1 hash2 : Nat) : Nat × Nat :=
  Short message hash1 hash2

/-- The function `hash_spooky64` of spooky.c: `hash1` starts as the seed, and
`&seed` is passed for `hash2`. -/
def hash_spooky64 (message seed : Nat) : Nat :=
  (hash_spooky128 message seed seed).1

/-- The function `hash_spooky32` of spooky.c. -/
def hash_spooky32 (message seed : Nat) : Nat :=
  u32 (hash_spooky128 message seed seed).1

/-- The function `hash_Spooky` of hash.c. -/
def hash_Spooky (seed key : Nat) : Nat :=
  hash_spooky32 key seed

/-! ## Vocabulary for the closed form of the probe sequence -/

/-- The closed form of the specification for the probe index `i`:
`p_0 + i * y_0 + (i ^ 3 - i) / 6` modulo `size`. -/
def probe_closed_form (size p0 y0 i : Nat) : Nat :=
  (p0 + i * y0 + (i ^ 3 - i) / 6) % size

/-! ## unit_tests.c: the key generator -/

/-- The two stores `arr[idx].key = v; arr[idx].payload = v`, with `v` the 32-bit
pattern of the value. -/
def store_tuple (arr : Nat → tuple_t) (idx v : Nat) : Nat → tuple_t :=
  fun j => if j = idx then { key := v, payload := v } else arr j

/-- The loop of `random_unique_gen_range`: at most `fuel` iterations are left,
`i` is the loop counter, `m_options` its bound as `uint32_t`, `rnd i` the value
that `rand()` returns in iteration `i`. The result is `inserted` and the array. -/
def random_unique_gen_loop (rnd : Nat → Int) (n : Nat) (min : Int) (m_options : Nat) :
    Nat → Nat → Nat → (Nat → tuple_t) → Nat × (Nat → tuple_t)
  | 0, _, inserted, arr => (inserted, arr)
  | fuel + 1, i, inserted, arr =>
    if i < m_options ∧ inserted < n then
      if Int.tmod (rnd i) (u32_to_int (u32 (m_options - i))) <
          u32_to_int (u32 (n - inserted)) then
        random_unique_gen_loop rnd n min m_options fuel (i + 1) (inserted + 1)
          (store_tuple arr inserted (u32 (int_to_u32 min + i)))
      else random_unique_gen_loop rnd n min m_options fuel (i + 1) inserted arr
    else (inserted, arr)

/-- The function `random_unique_gen_range` of unit_tests.c for a relation of `n`
tuples with the array `tuples`: the array after the call. The difference
`max - min` is an `intkey_t`; outside of 32 bits the subtraction has no defined
result. The `assert` of unit_tests.c only prints its message. -/
def random_unique_gen_range (rnd : Nat → Int) (n : Nat) (tuples : Nat → tuple_t)
    (min max : Int) : Option (Nat → tuple_t) :=
  if -2 ^ 31 ≤ max - min ∧ max - min < 2 ^ 31 then
    some (random_unique_gen_loop rnd n min (int_to_u32 (max - min))
      (int_to_u32 (max - min)) 0 0 tuples).2
  else none

/-- The key of a tuple as the signed value of its 32-bit pattern. -/
def signed_key (t : tuple_t) : Int := u32_to_int t.key

/-- The values of `rand()` used in the examples. -/
def example_rand (j : Nat) : Int := (7 * j + 3 : Nat)

/-- An array of tuples that are all zero. -/
def zero_tuples : Nat → tuple_t := fun _ => { key := 0, payload := 0 }

/-! ## Bits and bytes -/

theorem and_one_shiftLeft_eq_zero (b i : Nat) :
    b &&& (1 <<< i) = 0 ↔ b.testBit i = false := by
  rw [Nat.one_shiftLeft, Nat.and_two_pow]
  cases b.testBit i <;> simp

theorem bit_set_iff (mem : bytes_t) (j : Nat) :
    bit_set mem j = true ↔ (mem.byte (j >>> 3)).testBit (j &&& 7) = true := by
  unfold bit_set
  have h := and_one_shiftLeft_eq_zero (mem.byte (j >>> 3)) (j &&& 7)
  cases hb : (mem.byte (j >>> 3)).testBit (j &&& 7)
  · simp [h.2 hb]
  · have : mem.byte (j >>> 3) &&& 1 <<< (j &&& 7) ≠ 0 := by
      intro h0; rw [h.1 h0] at hb; cases hb
    simp [this]

theorem and_seven_lt (h : Nat) : h &&& 7 < 8 := by
  have := Nat.and_pow_two_sub_one_eq_mod h 3
  norm_num at this
  rw [this]; omega

theorem bit_index_split (off h : Nat) :
    (8 * off + h) >>> 3 = off + h >>> 3 ∧ (8 * off + h) &&& 7 = h &&& 7 := by
  have h1 := Nat.and_pow_two_sub_one_eq_mod h 3
  have h2 := Nat.and_pow_two_sub_one_eq_mod (8 * off + h) 3
  norm_num at h1 h2
  rw [h1, h2, Nat.shiftRight_eq_div_pow, Nat.shiftRight_eq_div_pow]
  constructor <;> omega

theorem bit_index_eq (off h j : Nat) :
    j = 8 * off + h ↔ (j >>> 3 = off + h >>> 3 ∧ j &&& 7 = h &&& 7) := by
  have h1 := Nat.and_pow_two_sub_one_eq_mod h 3
  have h2 := Nat.and_pow_two_sub_one_eq_mod j 3
  norm_num at h1 h2
  rw [h1, h2, Nat.shiftRight_eq_div_pow, Nat.shiftRight_eq_div_pow]
  constructor
  · intro e; subst e; constructor <;> omega
  · rintro ⟨e1, e2⟩; norm_num at e1; omega

theorem atomic_fetch_or_len (mem mem1 : bytes_t) (addr v : Nat)
    (h : atomic_fetch_or mem addr v = some mem1) : mem1.len = mem.len ∧ addr < mem.len := by
  unfold atomic_fetch_or at h
  split at h
  · cases h; exact ⟨rfl, by assumption⟩
  · cases h

theorem atomic_fetch_or_bit (mem mem1 : bytes_t) (off h j : Nat)
    (hm : atomic_fetch_or mem (off + h >>> 3) (1 <<< (h &&& 7)) = some mem1) :
    bit_set mem1 j = true ↔ (bit_set mem j = true ∨ j = 8 * off + h) := by
  unfold atomic_fetch_or at hm
  split at hm
  · cases hm
    rw [bit_set_iff, bit_set_iff, bit_index_eq]
    have hlt := and_seven_lt j
    by_cases ha : j >>> 3 = off + h >>> 3
    · simp only [ha, if_true, true_and]
      unfold u8
      rw [Nat.testBit_mod_two_pow, Nat.testBit_or, Nat.one_shiftLeft, Nat.testBit_two_pow]
      simp only [hlt, decide_True, Bool.true_and, Bool.or_eq_true, decide_eq_true_eq]
      constructor
      · rintro (h1 | h1)
        · exact Or.inl h1
        · exact Or.inr h1.symm
      · rintro (h1 | h1)
        · exact Or.inl h1
        · exact Or.inr h1.symm
    · simp [ha]
  · cases hm

theorem add_generic_loop_spec (size off : Nat) :
    ∀ (n i h y : Nat) (mem mem1 : bytes_t),
      add_generic_loop size off n i h y mem = some mem1 →
      mem1.len = mem.len ∧
      (∀ p ∈ probe_loop size n i h y, off + p >>> 3 < mem.len) ∧
      (∀ j, bit_set mem1 j = true ↔
        (bit_set mem j = true ∨ ∃ p ∈ probe_loop size n i h y, j = 8 * off + p)) := by
  intro n
  induction n with
  | zero =>
    intro i h y mem mem1 hm
    simp only [add_generic_loop, Option.some.injEq] at hm
    subst hm
    simp [probe_loop]
  | succ n ih =>
    intro i h y mem mem1 hm
    simp only [add_generic_loop] at hm
    cases hf : atomic_fetch_or mem (off + h >>> 3) (1 <<< (h &&& 7)) with
    | none => rw [hf] at hm; cases hm
    | some mem2 =>
      rw [hf] at hm
      obtain ⟨hl, hb, hbits⟩ := ih _ _ _ mem2 mem1 hm
      obtain ⟨hl2, hin⟩ := atomic_fetch_or_len _ _ _ _ hf
      refine ⟨hl.trans hl2, ?_, ?_⟩
      · intro p hp
        simp only [probe_loop, List.mem_cons] at hp
        rcases hp with rfl | hp
        · exact hin
        · rw [← hl2]; exact hb p hp
      · intro j
        rw [hbits j, atomic_fetch_or_bit mem mem2 off h j hf]
        simp only [probe_loop, List.mem_cons, exists_eq_or_imp]
        tauto

theorem add_generic_loop_total (size off : Nat) :
    ∀ (n i h y : Nat) (mem : bytes_t),
      (∀ p ∈ probe_loop size n i h y, off + p >>> 3 < mem.len) →
      ∃ mem1, add_generic_loop size off n i h y mem = some mem1 := by
  intro n
  induction n with
  | zero => intro i h y mem _; exact ⟨mem, rfl⟩
  | succ n ih =>
    intro i h y mem hb
    have h0 : off + h >>> 3 < mem.len := hb h (by simp [probe_loop])
    simp only [add_generic_loop, atomic_fetch_or, h0, if_true]
    apply ih
    intro p hp
    exact hb p (by simp [probe_loop, hp])

theorem contains_generic_loop_true (size off : Nat) (mem : bytes_t) :
    ∀ (n i h y : Nat),
      contains_generic_loop size off mem n i h y = some true ↔
      ∀ p ∈ probe_loop size n i h y,
        off + p >>> 3 < mem.len ∧ bit_set mem (8 * off + p) = true := by
  intro n
  induction n with
  | zero => intro i h y; simp [contains_generic_loop, probe_loop]
  | succ n ih =>
    intro i h y
    simp only [contains_generic_loop, load, probe_loop, List.mem_cons, forall_eq_or_imp]
    have hbit : bit_set mem (8 * off + h) = true ↔
        ¬ (mem.byte (off + h >>> 3) &&& (1 <<< (h &&& 7)) = 0) := by
      unfold bit_set
      rw [(bit_index_split off h).1, (bit_index_split off h).2]
      simp
    by_cases h0 : off + h >>> 3 < mem.len
    · simp only [h0, if_true, true_and]
      by_cases hz : mem.byte (off + h >>> 3) &&& (1 <<< (h &&& 7)) = 0
      · simp only [hz, if_true]
        constructor
        · intro hc; cases hc
        · intro hc; exact absurd hz (hbit.1 hc.1)
      · simp only [hz, if_false]
        rw [ih]
        constructor
        · intro hc; exact ⟨hbit.2 hz, hc⟩
        · intro hc; exact hc.2
    · simp [h0]

theorem contains_generic_loop_total (size off : Nat) (mem : bytes_t) :
    ∀ (n i h y : Nat),
      (∀ p ∈ probe_loop size n i h y, off + p >>> 3 < mem.len) →
      ∃ b, contains_generic_loop size off mem n i h y = some b := by
  intro n
  induction n with
  | zero => intro i h y _; exact ⟨true, rfl⟩
  | succ n ih =>
    intro i h y hb
    have h0 : off + h >>> 3 < mem.len := hb h (by simp [probe_loop])
    simp only [contains_generic_loop, load, h0, if_true]
    split
    · exact ⟨false, rfl⟩
    · apply ih
      intro p hp
      exact hb p (by simp [probe_loop, hp])

/-! ## `mod_m` on powers of two -/

theorem u64_pow2_sub_one (a : Nat) (ha : a < 64) : u64 (2 ^ a + 2 ^ 64 - 1) = 2 ^ a - 1 := by
  have h1 : 0 < 2 ^ a := Nat.two_pow_pos a
  have h2 : 2 ^ a < 2 ^ 64 := Nat.pow_lt_pow_right (by norm_num) ha
  have h3 : 2 ^ a + 2 ^ 64 - 1 = (2 ^ a - 1) + 2 ^ 64 := by omega
  unfold u64
  rw [h3, Nat.add_mod_right, Nat.mod_eq_of_lt (by omega)]

theorem mod_m_pow2 (v a : Nat) (ha : a < 64) : mod_m v (2 ^ a) = u32 (v % 2 ^ a) := by
  unfold mod_m
  rw [u64_pow2_sub_one a ha, Nat.and_pow_two_sub_one_eq_mod]

theorem mod_m_zero (v : Nat) : mod_m v 0 = u32 v := by
  unfold mod_m u64 u32
  have h : (0 + 2 ^ 64 - 1) % 2 ^ 64 = 2 ^ 64 - 1 := by norm_num
  rw [h, Nat.and_pow_two_sub_one_eq_mod]
  exact Nat.mod_mod_of_dvd v (by norm_num)

theorem u32_pow2_small (a : Nat) (ha : a < 32) : u32 (2 ^ a) = 2 ^ a := by
  unfold u32
  exact Nat.mod_eq_of_lt (Nat.pow_lt_pow_right (by norm_num) ha)

theorem u32_pow2_large (a : Nat) (ha : 32 ≤ a) : u32 (2 ^ a) = 0 := by
  unfold u32
  exact Nat.mod_eq_zero_of_dvd (Nat.pow_dvd_pow 2 ha)

/-- With a `uint32_t` size parameter that received the power of two `2 ^ a`,
`mod_m` reduces modulo `2 ^ min a 32`. -/
theorem mod_m_u32_pow2 (v a : Nat) (ha : a < 64) :
    mod_m v (u32 (2 ^ a)) = v % 2 ^ min a 32 := by
  by_cases h : a < 32
  · rw [u32_pow2_small a h, mod_m_pow2 v a ha, Nat.min_eq_left (by omega)]
    unfold u32
    have h1 : v % 2 ^ a < 2 ^ a := Nat.mod_lt _ (Nat.two_pow_pos a)
    have h2 : 2 ^ a < 2 ^ 32 := Nat.pow_lt_pow_right (by norm_num) h
    exact Nat.mod_eq_of_lt (by omega)
  · rw [u32_pow2_large a (by omega), mod_m_zero, Nat.min_eq_right (by omega)]
    rfl

theorem mod_m_u32_pow2_lt (v a : Nat) (ha : a < 64) : mod_m v (u32 (2 ^ a)) < 2 ^ a := by
  rw [mod_m_u32_pow2 v a ha]
  have h1 : v % 2 ^ min a 32 < 2 ^ min a 32 := Nat.mod_lt _ (Nat.two_pow_pos _)
  have h2 : 2 ^ min a 32 ≤ 2 ^ a := Nat.pow_le_pow_right (by norm_num) (Nat.min_le_left a 32)
  omega

theorem mod_m_pow2_lt (v a : Nat) (ha : a < 64) : mod_m v (2 ^ a) < 2 ^ a := by
  rw [mod_m_pow2 v a ha]
  unfold u32
  have h1 : v % 2 ^ a < 2 ^ a := Nat.mod_lt _ (Nat.two_pow_pos a)
  have h2 := Nat.mod_le (v % 2 ^ a) (2 ^ 32)
  omega

theorem pow2_lt_exp (a : Nat) (h : 2 ^ a < 2 ^ 64) : a < 64 :=
  (Nat.pow_lt_pow_iff_right (by norm_num)).1 h

/-! ## The probe indices stay inside the bitmap -/

theorem probe_loop_lt (size M : Nat) (hM : ∀ v, mod_m v size < M) :
    ∀ (n i h y : Nat), h < M → ∀ p ∈ probe_loop size n i h y, p < M := by
  intro n
  induction n with
  | zero => intro i h y _ p hp; simp [probe_loop] at hp
  | succ n ih =>
    intro i h y hh p hp
    simp only [probe_loop, List.mem_cons] at hp
    rcases hp with rfl | hp
    · exact hh
    · exact ih _ _ _ (hM _) p hp

theorem probes_lt (f : bloom_filter_t) (key a : Nat) (ha : a < 64) :
    ∀ p ∈ probes f key (u32 (2 ^ a)), p < 2 ^ a :=
  probe_loop_lt _ _ (fun v => mod_m_u32_pow2_lt v a ha) _ _ _ _ (mod_m_u32_pow2_lt _ a ha)

theorem valid_basic_in_bounds (f : bloom_filter_t) (hv : valid_basic f) (key : Nat) :
    ∀ p ∈ probes f key (u32 f.m), 0 + p >>> 3 < f.bitmap.len := by
  obtain ⟨a, ha⟩ := hv.m_pow2
  have hm := hv.m_u64
  have h8 := hv.m_mod8
  rw [hv.len]
  intro p hp
  rw [ha] at hm hp
  have hlt := probes_lt f key a (pow2_lt_exp a hm) p hp
  rw [← ha] at hlt
  rw [Nat.shiftRight_eq_div_pow]
  omega

theorem pow2_small_or_mod8 (b : Nat) : 2 ^ b < 8 ∨ 2 ^ b % 8 = 0 := by
  by_cases h : b < 3
  · left
    calc 2 ^ b < 2 ^ 3 := Nat.pow_lt_pow_right (by norm_num) h
      _ = 8 := by norm_num
  · right
    have : (2 : Nat) ^ 3 ∣ 2 ^ b := Nat.pow_dvd_pow 2 (by omega)
    exact Nat.mod_eq_zero_of_dvd this

/-- In a valid blocked filter, `nblocks` is a power of two below `2 ^ 64`. -/
theorem valid_blocked_nblocks (f : bloom_filter_t) (hv : valid_blocked f) :
    ∃ c, c < 64 ∧ f.nblocks = 2 ^ c ∧ f.m = f.nblocks * f.B := by
  obtain ⟨a, ha⟩ := hv.basic.m_pow2
  obtain ⟨b, hb⟩ := hv.B_pow2
  have hm := hv.basic.m_u64
  have hd := hv.B_dvd
  have hn := hv.nblocks
  rw [ha, hb] at hd hn
  rw [ha] at hm
  have ha64 := pow2_lt_exp a hm
  have hba : b ≤ a := by
    by_contra hlt
    have h1 : 2 ^ a < 2 ^ b := Nat.pow_lt_pow_right (by norm_num) (by omega)
    rw [Nat.mod_eq_of_lt h1] at hd
    exact absurd hd (Nat.two_pow_pos a).ne'
  have hdiv : 2 ^ a / 2 ^ b = 2 ^ (a - b) := Nat.pow_div hba (by norm_num)
  refine ⟨a - b, by omega, by rw [hn, hdiv], ?_⟩
  rw [hn, hdiv, ha, hb, ← Nat.pow_add]
  congr 1
  omega

/-- The block index is below `nblocks`, and the byte offset of the block is
`block_idx * (B / 8)` without wrap-around. -/
theorem block_offset_eq (f : bloom_filter_t) (hv : valid_blocked f) (key : Nat) :
    mod_m (hash_crc f.seed key) f.nblocks < f.nblocks ∧
    block_offset f key = mod_m (hash_crc f.seed key) f.nblocks * (f.B / 8) := by
  obtain ⟨c, hc, hn, hmn⟩ := valid_blocked_nblocks f hv
  have hidx : mod_m (hash_crc f.seed key) f.nblocks < f.nblocks := by
    rw [hn]; exact mod_m_pow2_lt _ c hc
  refine ⟨hidx, ?_⟩
  unfold block_offset u64
  apply Nat.mod_eq_of_lt
  have hm := hv.basic.m_u64
  have h1 : mod_m (hash_crc f.seed key) f.nblocks * (f.B / 8) ≤ f.nblocks * (f.B / 8) :=
    Nat.mul_le_mul_right _ hidx.le
  have h2 : f.nblocks * (f.B / 8) ≤ f.nblocks * f.B :=
    Nat.mul_le_mul_left _ (Nat.div_le_self _ _)
  omega

theorem valid_blocked_in_bounds (f : bloom_filter_t) (hv : valid_blocked f) (key : Nat) :
    ∀ p ∈ probes f key (u32 f.B), block_offset f key + p >>> 3 < f.bitmap.len := by
  obtain ⟨c, hc, hn, hmn⟩ := valid_blocked_nblocks f hv
  obtain ⟨b, hb⟩ := hv.B_pow2
  obtain ⟨hidx, hoff⟩ := block_offset_eq f hv key
  have hm := hv.basic.m_u64
  have h8 := hv.basic.m_mod8
  have hBpos : 0 < f.B := by rw [hb]; exact Nat.two_pow_pos b
  have hnpos : 0 < f.nblocks := by rw [hn]; exact Nat.two_pow_pos c
  have hBm : f.B ≤ f.m := by rw [hmn]; exact Nat.le_mul_of_pos_left _ hnpos
  have hb64 : b < 64 := pow2_lt_exp b (by rw [← hb]; omega)
  intro p hp
  rw [hb] at hp
  have hlt := probes_lt f key b hb64 p hp
  rw [← hb] at hlt
  rw [hv.basic.len, hoff, Nat.shiftRight_eq_div_pow]
  have hmpos : 0 < f.m := by omega
  rcases pow2_small_or_mod8 b with hs | hs
  · rw [← hb] at hs
    have h0 : f.B / 8 = 0 := by omega
    rw [h0, Nat.mul_zero]
    omega
  · rw [← hb] at hs
    obtain ⟨d, hd⟩ : ∃ d, f.B = 8 * d := ⟨f.B / 8, by omega⟩
    have hd8 : f.B / 8 = d := by omega
    have hp8 : p / 2 ^ 3 < d := by omega
    have hm8 : f.m / 8 = f.nblocks * d := by
      rw [hmn, hd, ← Nat.mul_assoc, Nat.mul_comm f.nblocks 8, Nat.mul_assoc]
      exact Nat.mul_div_cancel_left _ (by norm_num)
    rw [hd8, hm8]
    calc mod_m (hash_crc f.seed key) f.nblocks * d + p / 2 ^ 3
        < mod_m (hash_crc f.seed key) f.nblocks * d + d := by omega
      _ = (mod_m (hash_crc f.seed key) f.nblocks + 1) * d := by ring
      _ ≤ f.nblocks * d := Nat.mul_le_mul_right _ hidx

/-! ## `add_generic` and `contains_generic` in terms of the probe indices -/

theorem add_generic_spec (f : bloom_filter_t) (key : Nat) (mem mem1 : bytes_t) (off size : Nat)
    (h : add_generic f key mem off size = some mem1) :
    mem1.len = mem.len ∧
    (∀ p ∈ probes f key size, off + p >>> 3 < mem.len) ∧
    (∀ j, bit_set mem1 j = true ↔
      (bit_set mem j = true ∨ ∃ p ∈ probes f key size, j = 8 * off + p)) :=
  add_generic_loop_spec size off _ _ _ _ mem mem1 h

theorem add_generic_total (f : bloom_filter_t) (key : Nat) (mem : bytes_t) (off size : Nat)
    (hb : ∀ p ∈ probes f key size, off + p >>> 3 < mem.len) :
    ∃ mem1, add_generic f key mem off size = some mem1 :=
  add_generic_loop_total size off _ _ _ _ mem hb

theorem contains_generic_true (f : bloom_filter_t) (key : Nat) (mem : bytes_t) (off size : Nat) :
    contains_generic f key mem off size = some true ↔
    ∀ p ∈ probes f key size, off + p >>> 3 < mem.len ∧ bit_set mem (8 * off + p) = true :=
  contains_generic_loop_true size off mem _ _ _ _

theorem contains_generic_total (f : bloom_filter_t) (key : Nat) (mem : bytes_t) (off size : Nat)
    (hb : ∀ p ∈ probes f key size, off + p >>> 3 < mem.len) :
    ∃ b, contains_generic f key mem off size = some b :=
  contains_generic_loop_total size off mem _ _ _ _ hb

/-- What was added is found: on the memory that `add_generic` returns,
`contains_generic` with the same arguments returns true. -/
theorem generic_added_found (f g : bloom_filter_t) (key : Nat) (mem mem1 : bytes_t)
    (off size : Nat) (hs : g.seed = f.seed) (hk : g.k = f.k)
    (h : add_generic f key mem off size = some mem1) :
    contains_generic g key mem1 off size = some true := by
  obtain ⟨hl, hb, hbits⟩ := add_generic_spec f key mem mem1 off size h
  have hp : probes g key size = probes f key size := by unfold probes; rw [hs, hk]
  rw [contains_generic_true, hp]
  intro p hp
  refine ⟨by rw [hl]; exact hb p hp, ?_⟩
  exact (hbits _).2 (Or.inr ⟨p, hp, rfl⟩)

/-- A `contains_generic` that holds keeps holding on a memory of the same length
in which every bit that was set is still set. -/
theorem contains_generic_mono (f g : bloom_filter_t) (key : Nat) (mem mem1 : bytes_t)
    (off size : Nat) (hs : g.seed = f.seed) (hk : g.k = f.k) (hl : mem1.len = mem.len)
    (hm : ∀ j, bit_set mem j = true → bit_set mem1 j = true)
    (h : contains_generic f key mem off size = some true) :
    contains_generic g key mem1 off size = some true := by
  have hp : probes g key size = probes f key size := by unfold probes; rw [hs, hk]
  rw [contains_generic_true] at h ⊢
  rw [hp]
  intro p hp
  exact ⟨by rw [hl]; exact (h p hp).1, hm _ (h p hp).2⟩

theorem add_basic_some (f f1 : bloom_filter_t) (key : Nat) (h : add_basic f key = some f1) :
    ∃ mem1, add_generic f key f.bitmap 0 (u32 f.m) = some mem1 ∧
      f1 = { f with bitmap := mem1 } := by
  unfold add_basic at h
  cases hg : add_generic f key f.bitmap 0 (u32 f.m) with
  | none => rw [hg] at h; cases h
  | some mem1 => rw [hg] at h; cases h; exact ⟨mem1, rfl, rfl⟩

theorem add_blocked_some (f f1 : bloom_filter_t) (key : Nat) (h : add_blocked f key = some f1) :
    ∃ mem1, add_generic f key f.bitmap (block_offset f key) (u32 f.B) = some mem1 ∧
      f1 = { f with bitmap := mem1 } := by
  unfold add_blocked at h
  cases hg : add_generic f key f.bitmap (block_offset f key) (u32 f.B) with
  | none => rw [hg] at h; cases h
  | some mem1 => rw [hg] at h; cases h; exact ⟨mem1, rfl, rfl⟩

theorem add_basic_total (f : bloom_filter_t) (key : Nat) (hv : valid_basic f) :
    ∃ f1, add_basic f key = some f1 := by
  obtain ⟨mem1, h⟩ := add_generic_total f key f.bitmap 0 (u32 f.m)
    (valid_basic_in_bounds f hv key)
  exact ⟨{ f with bitmap := mem1 }, by simp [add_basic, h]⟩

theorem add_blocked_total (f : bloom_filter_t) (key : Nat) (hv : valid_blocked f) :
    ∃ f1, add_blocked f key = some f1 := by
  obtain ⟨mem1, h⟩ := add_generic_total f key f.bitmap (block_offset f key) (u32 f.B)
    (valid_blocked_in_bounds f hv key)
  exact ⟨{ f with bitmap := mem1 }, by simp [add_blocked, h]⟩

theorem block_offset_congr (f g : bloom_filter_t) (key : Nat) (hs : g.seed = f.seed)
    (hB : g.B = f.B) (hn : g.nblocks = f.nblocks) : block_offset g key = block_offset f key := by
  unfold block_offset; rw [hs, hB, hn]

theorem add_basic_found (f f1 : bloom_filter_t) (key : Nat) (h : add_basic f key = some f1) :
    contains_basic f1 key = some true := by
  obtain ⟨mem1, hg, rfl⟩ := add_basic_some f f1 key h
  exact generic_added_found f _ key f.bitmap mem1 0 (u32 f.m) rfl rfl hg

theorem add_blocked_found (f f1 : bloom_filter_t) (key : Nat) (h : add_blocked f key = some f1) :
    contains_blocked f1 key = some true := by
  obtain ⟨mem1, hg, rfl⟩ := add_blocked_some f f1 key h
  exact generic_added_found f _ key f.bitmap mem1 (block_offset f key) (u32 f.B) rfl rfl hg

/-- One `add` of either variant: the filter keeps its parameters and the length
of its bitmap, and no bit is cleared. -/
theorem strategy_add_frame (f f1 : bloom_filter_t) (key : Nat)
    (h : strategy_add f key = some f1) :
    f1.variant = f.variant ∧ f1.seed = f.seed ∧ f1.m = f.m ∧ f1.k = f.k ∧ f1.B = f.B ∧
    f1.nblocks = f.nblocks ∧ f1.bitmap.len = f.bitmap.len ∧
    ∀ j, bit_set f.bitmap j = true → bit_set f1.bitmap j = true := by
  unfold strategy_add at h
  cases hvar : f.variant with
  | BASIC =>
    rw [hvar] at h
    obtain ⟨mem1, hg, rfl⟩ := add_basic_some f f1 key h
    obtain ⟨hl, _, hbits⟩ := add_generic_spec f key f.bitmap mem1 0 (u32 f.m) hg
    exact ⟨hvar, rfl, rfl, rfl, rfl, rfl, hl, fun j hj => (hbits j).2 (Or.inl hj)⟩
  | BLOCKED =>
    rw [hvar] at h
    obtain ⟨mem1, hg, rfl⟩ := add_blocked_some f f1 key h
    obtain ⟨hl, _, hbits⟩ := add_generic_spec f key f.bitmap mem1 _ (u32 f.B) hg
    exact ⟨hvar, rfl, rfl, rfl, rfl, rfl, hl, fun j hj => (hbits j).2 (Or.inl hj)⟩

/-- The same for the insertion of a whole relation. -/
theorem add_relation_frame (R : List tuple_t) :
    ∀ (f f1 : bloom_filter_t), add_relation f R = some f1 →
    f1.variant = f.variant ∧ f1.seed = f.seed ∧ f1.m = f.m ∧ f1.k = f.k ∧ f1.B = f.B ∧
    f1.nblocks = f.nblocks ∧ f1.bitmap.len = f.bitmap.len ∧
    ∀ j, bit_set f.bitmap j = true → bit_set f1.bitmap j = true := by
  induction R with
  | nil =>
    intro f f1 h
    simp only [add_relation, Option.some.injEq] at h
    subst h
    exact ⟨rfl, rfl, rfl, rfl, rfl, rfl, rfl, fun _ hj => hj⟩
  | cons r R ih =>
    intro f f1 h
    simp only [add_relation] at h
    cases hs : strategy_add f r.key with
    | none => rw [hs] at h; cases h
    | some f2 =>
      rw [hs] at h
      obtain ⟨a1, a2, a3, a4, a5, a6, a7, a8⟩ := strategy_add_frame f f2 r.key hs
      obtain ⟨b1, b2, b3, b4, b5, b6, b7, b8⟩ := ih f2 f1 h
      exact ⟨b1.trans a1, b2.trans a2, b3.trans a3, b4.trans a4, b5.trans a5, b6.trans a6,
        b7.trans a7, fun j hj => b8 j (a8 j hj)⟩

/-- A `contains` that holds keeps holding on a filter with the same parameters
whose bitmap has the same length and every earlier bit. -/
theorem strategy_contains_mono (f f1 : bloom_filter_t) (a : Nat)
    (hvar : f1.variant = f.variant) (hs : f1.seed = f.seed) (hm : f1.m = f.m)
    (hk : f1.k = f.k) (hB : f1.B = f.B) (hn : f1.nblocks = f.nblocks)
    (hl : f1.bitmap.len = f.bitmap.len)
    (hbits : ∀ j, bit_set f.bitmap j = true → bit_set f1.bitmap j = true)
    (h : strategy_contains f a = some true) : strategy_contains f1 a = some true := by
  unfold strategy_contains at h ⊢
  rw [hvar]
  cases hv : f.variant with
  | BASIC =>
    rw [hv] at h
    simp only at h ⊢
    unfold contains_basic at h ⊢
    rw [hm]
    exact contains_generic_mono f f1 a _ _ 0 _ hs hk hl hbits h
  | BLOCKED =>
    rw [hv] at h
    simp only at h ⊢
    unfold contains_blocked at h ⊢
    rw [hB, block_offset_congr f f1 a hs hB hn]
    exact contains_generic_mono f f1 a _ _ _ _ hs hk hl hbits h

theorem valid_of_frame (f f1 : bloom_filter_t)
    (hvar : f1.variant = f.variant) (hm : f1.m = f.m) (hB : f1.B = f.B)
    (hn : f1.nblocks = f.nblocks) (hl : f1.bitmap.len = f.bitmap.len) (hv : valid f) :
    valid f1 := by
  unfold valid at hv ⊢
  rw [hvar]
  cases hvr : f.variant with
  | BASIC =>
    rw [hvr] at hv
    exact ⟨hm ▸ hv.m_pow2, hm ▸ hv.m_mod8, hm ▸ hv.m_u64, by rw [hl, hm]; exact hv.len⟩
  | BLOCKED =>
    rw [hvr] at hv
    exact ⟨⟨hm ▸ hv.basic.m_pow2, hm ▸ hv.basic.m_mod8, hm ▸ hv.basic.m_u64,
      by rw [hl, hm]; exact hv.basic.len⟩, hB ▸ hv.B_pow2, by rw [hm, hB]; exact hv.B_dvd,
      by rw [hn, hm, hB]; exact hv.nblocks⟩

theorem strategy_add_total (f : bloom_filter_t) (key : Nat) (hv : valid f) :
    ∃ f1, strategy_add f key = some f1 := by
  unfold valid at hv
  unfold strategy_add
  cases hvr : f.variant with
  | BASIC => rw [hvr] at hv; exact add_basic_total f key hv
  | BLOCKED => rw [hvr] at hv; exact add_blocked_total f key hv

theorem add_relation_total (R : List tuple_t) :
    ∀ f : bloom_filter_t, valid f → ∃ f1, add_relation f R = some f1 := by
  induction R with
  | nil => intro f _; exact ⟨f, rfl⟩
  | cons r R ih =>
    intro f hv
    obtain ⟨f2, h2⟩ := strategy_add_total f r.key hv
    obtain ⟨a1, _, a3, _, a5, a6, a7, _⟩ := strategy_add_frame f f2 r.key h2
    obtain ⟨f1, h1⟩ := ih f2 (valid_of_frame f f2 a1 a3 a5 a6 a7 hv)
    exact ⟨f1, by simp only [add_relation, h2, h1]⟩

/-! ## Matches and the pre-filter -/

theorem strategy_add_found (f f1 : bloom_filter_t) (key : Nat)
    (h : strategy_add f key = some f1) : strategy_contains f1 key = some true := by
  have hvar := (strategy_add_frame f f1 key h).1
  unfold strategy_add at h
  unfold strategy_contains
  rw [hvar]
  cases hv : f.variant with
  | BASIC => rw [hv] at h; exact add_basic_found f f1 key h
  | BLOCKED => rw [hv] at h; exact add_blocked_found f f1 key h

theorem add_relation_found (R : List tuple_t) :
    ∀ (f f1 : bloom_filter_t), add_relation f R = some f1 →
    ∀ r ∈ R, strategy_contains f1 r.key = some true := by
  induction R with
  | nil => intro f f1 _ r hr; cases hr
  | cons r0 R ih =>
    intro f f1 h r hr
    simp only [add_relation] at h
    cases hs : strategy_add f r0.key with
    | none => rw [hs] at h; cases h
    | some f2 =>
      rw [hs] at h
      rcases List.mem_cons.1 hr with rfl | hr
      · obtain ⟨b1, b2, b3, b4, b5, b6, b7, b8⟩ := add_relation_frame R f2 f1 h
        exact strategy_contains_mono f2 f1 r.key b1 b2 b3 b4 b5 b6 b7 b8
          (strategy_add_found f f2 r.key hs)
      · exact ih f2 f1 h r hr

theorem match_count_cons (r : tuple_t) (R S : List tuple_t) :
    match_count (r :: R) S = (S.filter fun s => r.key == s.key).length + match_count R S := by
  unfold match_count
  rw [show (r :: R).product S = S.map (fun s => (r, s)) ++ R.product S from
    List.product_cons r R S, List.filter_append, List.length_append, List.filter_map,
    List.length_map]
  rfl

theorem match_count_filter (q : tuple_t → Bool) (S : List tuple_t) :
    ∀ R : List tuple_t, (∀ r ∈ R, ∀ s ∈ S, r.key = s.key → q s = true) →
    match_count R (S.filter q) = match_count R S := by
  intro R
  induction R with
  | nil => intro _; rfl
  | cons r R ih =>
    intro h
    rw [match_count_cons, match_count_cons, ih (fun r1 hr1 => h r1 (List.mem_cons_of_mem _ hr1)),
      List.filter_filter]
    congr 2
    apply List.filter_congr
    intro s hs
    by_cases hk : r.key = s.key
    · simp [hk, h r (List.mem_cons_self _ _) s hs hk]
    · simp [hk]

theorem filter_m8_valid_basic : valid_basic filter_m8 :=
  ⟨⟨3, rfl⟩, rfl, by decide, rfl⟩

theorem filter_m8_valid_blocked : valid_blocked filter_m8 :=
  ⟨filter_m8_valid_basic, ⟨3, rfl⟩, rfl, rfl⟩

theorem filter_m64_valid : valid filter_m64 :=
  ⟨⟨⟨6, rfl⟩, rfl, by decide, rfl⟩, ⟨4, rfl⟩, rfl, rfl⟩

theorem args_m64_valid : valid_args args_m64 :=
  ⟨⟨6, rfl⟩, rfl, by decide, fun _ => ⟨⟨4, rfl⟩, rfl⟩⟩

theorem calloc_aligned_ok (pm : Nat → Int) (size : Nat) (h : pm size = 0) :
    calloc_aligned pm size = zero_bytes size := by
  unfold calloc_aligned
  simp [h]

theorem calloc_aligned_null (pm : Nat → Int) (size : Nat) (h : pm size ≠ 0) :
    calloc_aligned pm size = null_region := by
  unfold calloc_aligned
  simp [h]

theorem calloc_aligned_zero (pm : Nat → Int) :
    calloc_aligned pm 0 = zero_bytes 0 ∨ calloc_aligned pm 0 = null_region := by
  by_cases h : pm 0 = 0
  · exact Or.inl (calloc_aligned_ok pm 0 h)
  · exact Or.inr (calloc_aligned_null pm 0 h)

theorem create_valid (pm : Nat → Int) (args : bloom_filter_args_t) (seed : Nat)
    (f : bloom_filter_t) (hc : bloom_filter_create pm args seed = some f)
    (ha : valid_args args) (halloc : pm (args.m / 8) = 0) : valid f := by
  unfold bloom_filter_create at hc
  split at hc
  · cases hc
  · simp only [Option.some.injEq] at hc
    rw [calloc_aligned_ok pm _ halloc] at hc
    subst hc
    unfold valid
    cases hv : args.variant with
    | BASIC => exact ⟨ha.m_pow2, ha.m_mod8, ha.m_u64, rfl⟩
    | BLOCKED =>
      exact ⟨⟨ha.m_pow2, ha.m_mod8, ha.m_u64, rfl⟩, (ha.blocked hv).1, (ha.blocked hv).2, rfl⟩

/-! ## The claims -/

/-- C1: no false negatives. In a filter that satisfies the preconditions, for every
`k`, seed, bitmap content and key, `add_basic` returns a filter on which
`contains_basic` of the same key is true, and (with the preconditions on `B`)
`add_blocked` returns a filter on which `contains_blocked` of the same key is true. -/
theorem no_false_negatives (f : bloom_filter_t) (key : Nat) (hv : valid_basic f) :
    (∃ f1, add_basic f key = some f1 ∧ contains_basic f1 key = some true) ∧
    (valid_blocked f →
      ∃ f1, add_blocked f key = some f1 ∧ contains_blocked f1 key = some true) := by
  constructor
  · obtain ⟨f1, h⟩ := add_basic_total f key hv
    exact ⟨f1, h, add_basic_found f f1 key h⟩
  · intro hb
    obtain ⟨f1, h⟩ := add_blocked_total f key hb
    exact ⟨f1, h, add_blocked_found f f1 key h⟩

/-- C1 at the smallest configuration `m = 8`, `k = 1`, for the key 5. -/
theorem no_false_negatives_smallest :
    valid_basic filter_m8 ∧ valid_blocked filter_m8 ∧ filter_m8.m = 8 ∧ filter_m8.k = 1 ∧
    (∃ f1, add_basic filter_m8 5 = some f1 ∧ contains_basic f1 5 = some true) ∧
    (∃ f1, add_blocked filter_m8 5 = some f1 ∧ contains_blocked f1 5 = some true) :=
  ⟨filter_m8_valid_basic, filter_m8_valid_blocked, rfl, rfl,
    (no_false_negatives filter_m8 5 filter_m8_valid_basic).1,
    (no_false_negatives filter_m8 5 filter_m8_valid_basic).2 filter_m8_valid_blocked⟩

/-- C2: the pre-filter never drops a true match. Let `f` be the filter that
`bloom_filter_create` returns for valid arguments of either variant when the
allocation of its bitmap succeeded (`posix_memalign` returned 0). After `f`
received `add` for every tuple of `R`, `contains` is true for every tuple of `S`
whose key is the key of a tuple of `R`, and the number of matching pairs of `R`
with the tuples of `S` that pass `contains` is the number of matching pairs of
`R` with `S`. -/
theorem prefilter_keeps_matches (pm : Nat → Int) (args : bloom_filter_args_t) (seed : Nat)
    (f : bloom_filter_t) (R S : List tuple_t)
    (hc : bloom_filter_create pm args seed = some f) (ha : valid_args args)
    (halloc : pm (args.m / 8) = 0) :
    ∃ f1, add_relation f R = some f1 ∧
      (∀ s ∈ S, (∃ r ∈ R, r.key = s.key) → strategy_contains f1 s.key = some true) ∧
      match_count R (bloom_prefilter f1 S) = match_count R S := by
  obtain ⟨f1, h1⟩ := add_relation_total R f (create_valid pm args seed f hc ha halloc)
  have hfound := add_relation_found R f f1 h1
  refine ⟨f1, h1, ?_, ?_⟩
  · rintro s _ ⟨r, hr, hk⟩
    rw [← hk]
    exact hfound r hr
  · unfold bloom_prefilter
    apply match_count_filter
    intro r hr s _ hk
    rw [← hk, hfound r hr]
    rfl

/-- C2 on the blocked filter of 64 bits, the build keys 5 and 9 and the probe keys
9, 6, 9 and 11. -/
theorem prefilter_keeps_matches_example :
    bloom_filter_create memalign_succeeds args_m64 7 = some filter_m64 ∧
    valid_args args_m64 ∧ memalign_succeeds (args_m64.m / 8) = 0 ∧
    ∃ f1, add_relation filter_m64 relation_R = some f1 ∧
      (∀ s ∈ relation_S, (∃ r ∈ relation_R, r.key = s.key) →
        strategy_contains f1 s.key = some true) ∧
      match_count relation_R (bloom_prefilter f1 relation_S) =
        match_count relation_R relation_S :=
  ⟨rfl, args_m64_valid, rfl,
    prefilter_keeps_matches memalign_succeeds args_m64 7 filter_m64 relation_R relation_S rfl
      args_m64_valid rfl⟩

/-- C3: `add` is monotonic. When the insertion of the tuples of `R` (one tuple for
a single `add`, either variant) turns the filter `f` into `f1`, every bit that
is set in `f` is set in `f1`, and every key for which `contains` is true on `f`
still has `contains` true on `f1`. -/
theorem add_monotonic (f f1 : bloom_filter_t) (R : List tuple_t)
    (h : add_relation f R = some f1) :
    (∀ j, bit_set f.bitmap j = true → bit_set f1.bitmap j = true) ∧
    (∀ a, strategy_contains f a = some true → strategy_contains f1 a = some true) := by
  obtain ⟨b1, b2, b3, b4, b5, b6, b7, b8⟩ := add_relation_frame R f f1 h
  exact ⟨b8, fun a ha => strategy_contains_mono f f1 a b1 b2 b3 b4 b5 b6 b7 b8 ha⟩

/-- C3 on the blocked filter of 64 bits that already holds the key 5 (the bits
18, 21 and 25 are set, bit 10 is clear, `contains(5)` is true): the insertion of
the keys 5 and 9 sets bit 10, keeps every bit that was set, among them bit 18,
and keeps `contains(5)` true. -/
theorem add_monotonic_example :
    strategy_add filter_m64 5 = some filter_m64_five ∧
    bit_set filter_m64_five.bitmap 18 = true ∧ bit_set filter_m64_five.bitmap 21 = true ∧
    bit_set filter_m64_five.bitmap 25 = true ∧ bit_set filter_m64_five.bitmap 10 = false ∧
    strategy_contains filter_m64_five 5 = some true ∧
    ∃ f1, add_relation filter_m64_five relation_R = some f1 ∧
      bit_set f1.bitmap 10 = true ∧
      (∀ j, bit_set filter_m64_five.bitmap j = true → bit_set f1.bitmap j = true) ∧
      (∀ a, strategy_contains filter_m64_five a = some true →
        strategy_contains f1 a = some true) ∧
      bit_set f1.bitmap 18 = true ∧ strategy_contains f1 5 = some true :=
  ⟨rfl, rfl, rfl, rfl, rfl, rfl, _, rfl, rfl,
    (add_monotonic filter_m64_five _ relation_R rfl).1,
    (add_monotonic filter_m64_five _ relation_R rfl).2,
    (add_monotonic filter_m64_five _ relation_R rfl).1 18 rfl,
    (add_monotonic filter_m64_five _ relation_R rfl).2 5 rfl⟩

/-! ## The probe sequence, index by index -/

theorem probe_loop_mem (size h0 y0 : Nat) :
    ∀ (n i p : Nat),
      p ∈ probe_loop size n i (probe_state size h0 y0 i).1 (probe_state size h0 y0 i).2 ↔
      ∃ t, t < n ∧ p = (probe_state size h0 y0 (i + t)).1 := by
  intro n
  induction n with
  | zero => intro i p; simp [probe_loop]
  | succ n ih =>
    intro i p
    simp only [probe_loop, List.mem_cons]
    have hstep := ih (i + 1) p
    simp only [probe_state] at hstep
    rw [hstep]
    constructor
    · rintro (rfl | ⟨t, ht, rfl⟩)
      · exact ⟨0, by omega, rfl⟩
      · exact ⟨t + 1, by omega, by rw [show i + (t + 1) = i + 1 + t by omega]⟩
    · rintro ⟨t, ht, rfl⟩
      cases t with
      | zero => left; rfl
      | succ t => right; exact ⟨t, by omega, by rw [show i + (t + 1) = i + 1 + t by omega]⟩

theorem probes_mem (f : bloom_filter_t) (key size p : Nat) :
    p ∈ probes f key size ↔
    ∃ i, i < f.k ∧ p = (probe_state size (mod_m (hash_crapwow f.seed key) size)
      (mod_m (u32 (key + f.seed)) size) i).1 := by
  have h := probe_loop_mem size (mod_m (hash_crapwow f.seed key) size)
    (mod_m (u32 (key + f.seed)) size) f.k 0 p
  simp only [Nat.zero_add] at h
  exact h

theorem u32_mod_pow2 (x a : Nat) (ha : a ≤ 32) : u32 x % 2 ^ a = x % 2 ^ a := by
  unfold u32
  exact Nat.mod_mod_of_dvd x (Nat.pow_dvd_pow 2 ha)

/-- For a power of two `m = 2 ^ a` up to `2 ^ 32`, `mod_m` with the truncated
size is the remainder modulo `m`. -/
theorem mod_m_u32_pow2_small (v a : Nat) (ha : a ≤ 32) :
    mod_m v (u32 (2 ^ a)) = v % 2 ^ a := by
  rw [mod_m_u32_pow2 v a (by omega), Nat.min_eq_left ha]

theorem probe_state_eq_spec (a h y : Nat) (ha : a ≤ 32) :
    ∀ i, probe_state (u32 (2 ^ a)) (mod_m h (u32 (2 ^ a))) (mod_m (u32 y) (u32 (2 ^ a))) i =
      spec_probe_state (2 ^ a) (h % 2 ^ a) (y % 2 ^ a) i := by
  intro i
  induction i with
  | zero =>
    simp only [probe_state, spec_probe_state]
    rw [mod_m_u32_pow2_small _ a ha, mod_m_u32_pow2_small _ a ha, u32_mod_pow2 _ a ha]
  | succ i ih =>
    simp only [probe_state, spec_probe_state]
    rw [ih, mod_m_u32_pow2_small _ a ha, mod_m_u32_pow2_small _ a ha, u32_mod_pow2 _ a ha,
      u32_mod_pow2 _ a ha]

/-! ## The claims on the probe sequence -/

/-- C4 as stated fails for `m = 2 ^ 33`: for the key 2000000000 and `k = 2` the
second probe index of the specification is `p_1 = 6076430147`, and `add_basic`
leaves that bit clear (the code adds in 32 bits and sets bit 1781462851). -/
theorem add_basic_postcondition_fails_above_u32 :
    valid_basic filter_m33 ∧ 1 < filter_m33.k ∧
    spec_probe filter_m33 2000000000 1 = 6076430147 ∧
    ∃ f1, add_basic filter_m33 2000000000 = some f1 ∧
      bit_set f1.bitmap (spec_probe filter_m33 2000000000 1) = false ∧
      bit_set f1.bitmap 1781462851 = true :=
  ⟨⟨⟨33, rfl⟩, rfl, by decide, rfl⟩, by decide, rfl, _, rfl, rfl, rfl⟩

/-- C4, amended: in a valid basic filter with `m ≤ 2 ^ 32` and `k ≤ INT_MAX` (the
loop of `add_generic` counts the probes in an `int`), `add_basic` returns a
filter in which bit `j` is set iff it was set before or `j` is one of the probe
indices `p_0 .. p_{k-1}` of the specification; no other bit changes. -/
theorem add_basic_postcondition (f : bloom_filter_t) (key : Nat) (hv : valid_basic f)
    (hm : f.m ≤ 2 ^ 32) (_hk : f.k < 2 ^ 31) :
    ∃ f1, add_basic f key = some f1 ∧
      ∀ j, bit_set f1.bitmap j = true ↔
        (bit_set f.bitmap j = true ∨ ∃ i, i < f.k ∧ j = spec_probe f key i) := by
  obtain ⟨f1, h⟩ := add_basic_total f key hv
  refine ⟨f1, h, ?_⟩
  obtain ⟨mem1, hg, rfl⟩ := add_basic_some f f1 key h
  obtain ⟨_, _, hbits⟩ := add_generic_spec f key f.bitmap mem1 0 (u32 f.m) hg
  obtain ⟨a, ha⟩ := hv.m_pow2
  have ha32 : a ≤ 32 := by
    rw [ha] at hm
    exact (Nat.pow_le_pow_iff_right (by norm_num)).1 hm
  intro j
  show bit_set mem1 j = true ↔ _
  rw [hbits j]
  simp only [probes_mem, Nat.mul_zero, Nat.zero_add]
  unfold spec_probe
  rw [ha]
  simp only [probe_state_eq_spec a _ _ ha32]
  constructor
  · rintro (h1 | ⟨p, ⟨i, hi, rfl⟩, rfl⟩)
    · exact Or.inl h1
    · exact Or.inr ⟨i, hi, rfl⟩
  · rintro (h1 | ⟨i, hi, rfl⟩)
    · exact Or.inl h1
    · exact Or.inr ⟨_, ⟨i, hi, rfl⟩, rfl⟩

theorem filter_k3_valid_basic : valid_basic filter_k3 :=
  ⟨⟨6, rfl⟩, rfl, by decide, rfl⟩

/-- C4, amended, on a basic filter of 64 bits with `k = 3` in which the bits 0, 7
and 42 are set, for the key 5: the probe indices are `p_0 = 9`, `p_1 = 9 + 12 = 21`
and `p_2 = 21 + 13 = 34`; after `add_basic` the bits 21 and 34 are set, bit 42 is
still set and bit 22 is still clear. -/
theorem add_basic_postcondition_example :
    valid_basic filter_k3 ∧ filter_k3.m ≤ 2 ^ 32 ∧ filter_k3.k = 3 ∧ filter_k3.k < 2 ^ 31 ∧
    (List.range 3).map (spec_probe filter_k3 5) = [9, 21, 34] ∧
    bit_set filter_k3.bitmap 21 = false ∧ bit_set filter_k3.bitmap 34 = false ∧
    bit_set filter_k3.bitmap 42 = true ∧
    ∃ f1, add_basic filter_k3 5 = some f1 ∧
      (∀ j, bit_set f1.bitmap j = true ↔
        (bit_set filter_k3.bitmap j = true ∨
          ∃ i, i < filter_k3.k ∧ j = spec_probe filter_k3 5 i)) ∧
      bit_set f1.bitmap 21 = true ∧ bit_set f1.bitmap 34 = true ∧
      bit_set f1.bitmap 42 = true ∧ bit_set f1.bitmap 22 = false :=
  ⟨filter_k3_valid_basic, by decide, rfl, by decide, by decide, rfl, rfl, rfl,
    Exists.imp
      (fun _ h => ⟨h.1, h.2, (h.2 21).2 (Or.inr ⟨1, by decide, by decide⟩),
        (h.2 34).2 (Or.inr ⟨2, by decide, by decide⟩), (h.2 42).2 (Or.inl rfl),
        Bool.eq_false_iff.2 (mt (h.2 22).1 (by decide))⟩)
      (add_basic_postcondition filter_k3 5 filter_k3_valid_basic (by decide) (by decide))⟩

/-! ## `contains` compared with `add` -/

theorem contains_generic_false (f : bloom_filter_t) (key : Nat) (mem : bytes_t) (off size : Nat)
    (hb : ∀ p ∈ probes f key size, off + p >>> 3 < mem.len) :
    contains_generic f key mem off size = some false ↔
    ∃ p ∈ probes f key size, bit_set mem (8 * off + p) = false := by
  obtain ⟨b, hc⟩ := contains_generic_total f key mem off size hb
  have ht := contains_generic_true f key mem off size
  cases b with
  | true =>
    rw [hc]
    constructor
    · intro h; cases h
    · rintro ⟨p, hp, hclear⟩
      rw [((ht.1 hc) p hp).2] at hclear
      cases hclear
  | false =>
    rw [hc]
    constructor
    · intro _
      by_contra hne
      have hall : ∀ p ∈ probes f key size,
          off + p >>> 3 < mem.len ∧ bit_set mem (8 * off + p) = true := by
        intro p hp
        refine ⟨hb p hp, ?_⟩
        cases hbit : bit_set mem (8 * off + p) with
        | true => rfl
        | false => exact absurd ⟨p, hp, hbit⟩ hne
      rw [ht.2 hall] at hc
      cases hc
    · intro _; rfl

/-- On a memory in which all probes are in bounds, `contains_generic` returns a
value; it is true iff the memory that `add_generic` returns has no bit that the
given memory lacks, and false iff it has one. -/
theorem generic_contains_exact (f : bloom_filter_t) (key : Nat) (mem mem1 : bytes_t)
    (off size : Nat) (h : add_generic f key mem off size = some mem1) :
    ∃ b, contains_generic f key mem off size = some b ∧
      (b = true ↔ ∀ j, bit_set mem1 j = true → bit_set mem j = true) ∧
      (b = false ↔ ∃ j, bit_set mem1 j = true ∧ bit_set mem j = false) := by
  obtain ⟨_, hb, hbits⟩ := add_generic_spec f key mem mem1 off size h
  have ht := contains_generic_true f key mem off size
  have hf := contains_generic_false f key mem off size hb
  obtain ⟨b, hc⟩ := contains_generic_total f key mem off size hb
  refine ⟨b, hc, ?_, ?_⟩
  · constructor
    · intro hbt j hj
      subst hbt
      rcases (hbits j).1 hj with h1 | ⟨p, hp, rfl⟩
      · exact h1
      · exact ((ht.1 hc) p hp).2
    · intro hall
      have : contains_generic f key mem off size = some true :=
        ht.2 fun p hp => ⟨hb p hp, hall _ ((hbits _).2 (Or.inr ⟨p, hp, rfl⟩))⟩
      rw [this] at hc
      cases hc; rfl
  · constructor
    · intro hbf
      subst hbf
      obtain ⟨p, hp, hclear⟩ := hf.1 hc
      exact ⟨8 * off + p, (hbits _).2 (Or.inr ⟨p, hp, rfl⟩), hclear⟩
    · rintro ⟨j, hj1, hj0⟩
      rcases (hbits j).1 hj1 with h1 | ⟨p, hp, rfl⟩
      · rw [h1] at hj0; cases hj0
      · have := hf.2 ⟨p, hp, hj0⟩
        rw [this] at hc
        cases hc; rfl

/-- C5: `contains` is exact on the probe sequence of `add`. In a valid filter of
either variant, `add` and `contains` of a key both return; `contains` is true
iff every bit that is set after the `add` (so every probe bit of the key) is set
in the given bitmap, and false iff one of them is clear. `contains` returns only
its answer: the bitmap is not changed. -/
theorem contains_exact (f : bloom_filter_t) (key : Nat) (hv : valid f) :
    ∃ f1 b, strategy_add f key = some f1 ∧ strategy_contains f key = some b ∧
      (b = true ↔ ∀ j, bit_set f1.bitmap j = true → bit_set f.bitmap j = true) ∧
      (b = false ↔ ∃ j, bit_set f1.bitmap j = true ∧ bit_set f.bitmap j = false) := by
  obtain ⟨f1, h⟩ := strategy_add_total f key hv
  refine ⟨f1, ?_⟩
  unfold strategy_add at h
  unfold strategy_add strategy_contains
  cases hvar : f.variant with
  | BASIC =>
    rw [hvar] at h
    obtain ⟨mem1, hg, rfl⟩ := add_basic_some f f1 key h
    obtain ⟨b, hc, h1, h2⟩ := generic_contains_exact f key f.bitmap mem1 0 (u32 f.m) hg
    exact ⟨b, h, hc, h1, h2⟩
  | BLOCKED =>
    rw [hvar] at h
    obtain ⟨mem1, hg, rfl⟩ := add_blocked_some f f1 key h
    obtain ⟨b, hc, h1, h2⟩ := generic_contains_exact f key f.bitmap mem1 _ (u32 f.B) hg
    exact ⟨b, h, hc, h1, h2⟩

/-- C5 on the empty blocked filter of 64 bits and the key 5. -/
theorem contains_exact_example :
    valid filter_m64 ∧
    ∃ f1 b, strategy_add filter_m64 5 = some f1 ∧ strategy_contains filter_m64 5 = some b ∧
      (b = true ↔ ∀ j, bit_set f1.bitmap j = true → bit_set filter_m64.bitmap j = true) ∧
      (b = false ↔ ∃ j, bit_set f1.bitmap j = true ∧ bit_set filter_m64.bitmap j = false) :=
  ⟨filter_m64_valid, contains_exact filter_m64 5 filter_m64_valid⟩

/-! ## The blocked variant -/

theorem crc32c_step_lt (crc : Nat) (h : crc < 2 ^ 32) : crc32c_step crc < 2 ^ 32 := by
  unfold crc32c_step
  have h1 : crc >>> 1 < 2 ^ 32 := by
    rw [Nat.shiftRight_eq_div_pow]
    omega
  split
  · exact Nat.xor_lt_two_pow h1 (by norm_num)
  · exact h1

theorem crc32c_iterate_lt (n crc : Nat) (h : crc < 2 ^ 32) : crc32c_step^[n] crc < 2 ^ 32 := by
  induction n generalizing crc with
  | zero => exact h
  | succ n ih => rw [Function.iterate_succ_apply]; exact ih _ (crc32c_step_lt crc h)

theorem hash_crc_lt (seed key : Nat) : hash_crc seed key < 2 ^ 32 := by
  unfold hash_crc mm_crc32_u32
  apply crc32c_iterate_lt
  apply Nat.xor_lt_two_pow <;> exact Nat.mod_lt _ (by norm_num)

/-- In a valid blocked filter the block index of the code is the one of the
specification. -/
theorem block_idx_eq_spec (f : bloom_filter_t) (hv : valid_blocked f) (key : Nat) :
    mod_m (hash_crc f.seed key) f.nblocks = spec_block_idx f key := by
  obtain ⟨c, hc, hn, _⟩ := valid_blocked_nblocks f hv
  unfold spec_block_idx
  rw [← hv.nblocks, hn, mod_m_pow2 _ c hc]
  unfold u32
  apply Nat.mod_eq_of_lt
  have h1 := Nat.mod_le (hash_crc f.seed key) (2 ^ c)
  have h2 := hash_crc_lt f.seed key
  omega

/-- With blocks of whole bytes, every probe bit of a key lies in the block of the key. -/
theorem probes_in_block (f : bloom_filter_t) (hv : valid_blocked f) (hB8 : f.B % 8 = 0)
    (key : Nat) :
    ∀ p ∈ probes f key (u32 f.B),
      in_block f.B (spec_block_idx f key) (8 * block_offset f key + p) := by
  obtain ⟨b, hb⟩ := hv.B_pow2
  obtain ⟨c, hc, hn, hmn⟩ := valid_blocked_nblocks f hv
  have hm := hv.basic.m_u64
  have hnpos : 0 < f.nblocks := by rw [hn]; exact Nat.two_pow_pos c
  have hBm : f.B ≤ f.m := by rw [hmn]; exact Nat.le_mul_of_pos_left _ hnpos
  have hb64 : b < 64 := pow2_lt_exp b (by rw [← hb]; omega)
  intro p hp
  rw [hb] at hp
  have hlt := probes_lt f key b hb64 p hp
  rw [← hb] at hlt
  rw [(block_offset_eq f hv key).2, block_idx_eq_spec f hv key]
  have h8 : 8 * (spec_block_idx f key * (f.B / 8)) = spec_block_idx f key * f.B := by
    have : 8 * (f.B / 8) = f.B := by omega
    calc 8 * (spec_block_idx f key * (f.B / 8))
        = spec_block_idx f key * (8 * (f.B / 8)) := by ring
      _ = spec_block_idx f key * f.B := by rw [this]
  unfold in_block
  rw [h8, Nat.add_mul, Nat.one_mul]
  omega

theorem contains_generic_loop_congr (size off : Nat) (mem mem2 : bytes_t)
    (hl : mem2.len = mem.len) :
    ∀ (n i h y : Nat),
      (∀ p ∈ probe_loop size n i h y,
        mem2.byte (off + p >>> 3) &&& (1 <<< (p &&& 7)) = 0 ↔
        mem.byte (off + p >>> 3) &&& (1 <<< (p &&& 7)) = 0) →
      contains_generic_loop size off mem2 n i h y = contains_generic_loop size off mem n i h y := by
  intro n
  induction n with
  | zero => intro i h y _; rfl
  | succ n ih =>
    intro i h y hagree
    have h0 := hagree h (by simp [probe_loop])
    have hrest := ih (i + 1) (mod_m (u32 (h + y)) size) (mod_m (u32 (y + i + 1)) size)
      (fun p hp => hagree p (by simp [probe_loop, hp]))
    simp only [contains_generic_loop, load, hl]
    by_cases hin : off + h >>> 3 < mem.len
    · simp only [hin, if_true]
      by_cases hz : mem.byte (off + h >>> 3) &&& (1 <<< (h &&& 7)) = 0
      · simp only [hz, h0.2 hz, if_true]
      · have hz2 : ¬ mem2.byte (off + h >>> 3) &&& (1 <<< (h &&& 7)) = 0 := fun e => hz (h0.1 e)
        simp only [hz, hz2, if_false]
        exact hrest
    · simp only [hin, if_false]

theorem bit_set_false_iff (mem : bytes_t) (off p : Nat) :
    bit_set mem (8 * off + p) = false ↔
    mem.byte (off + p >>> 3) &&& (1 <<< (p &&& 7)) = 0 := by
  unfold bit_set
  rw [(bit_index_split off p).1, (bit_index_split off p).2]
  simp

theorem in_block_disjoint (B idx idx2 j : Nat) (hne : idx2 ≠ idx) (h2 : in_block B idx2 j) :
    ¬ in_block B idx j := by
  intro h1
  unfold in_block at h1 h2
  rcases Nat.lt_or_gt_of_ne hne with hlt | hgt
  · have : (idx2 + 1) * B ≤ idx * B := Nat.mul_le_mul_right B hlt
    omega
  · have : (idx + 1) * B ≤ idx2 * B := Nat.mul_le_mul_right B hgt
    omega

/-- C6 as stated fails for a block size below 8: with `m = 8` and `B = 4` the key
2 has block index 1, the block of the bits 4 to 7, and `add_blocked` sets bit 3. -/
theorem blocked_locality_fails_small_block :
    valid_blocked filter_b4 ∧ spec_block_idx filter_b4 2 = 1 ∧
    ∃ f1, add_blocked filter_b4 2 = some f1 ∧
      bit_set filter_b4.bitmap 3 = false ∧ bit_set f1.bitmap 3 = true ∧
      ¬ in_block filter_b4.B (spec_block_idx filter_b4 2) 3 :=
  ⟨⟨⟨⟨3, rfl⟩, rfl, by decide, rfl⟩, ⟨2, rfl⟩, rfl, rfl⟩, rfl, _, rfl, rfl, rfl,
    fun h => absurd h.1 (by decide)⟩

/-- C6, amended: in a valid blocked filter whose block size is a multiple of 8,
with `idx = hash_crc(seed, key) mod (m / B)`: `add_blocked` returns a filter that
differs from the given one only at bits of block `idx`; `contains_blocked` gives
the same answer on every bitmap of the same length that agrees with the given
one on the bits of block `idx`; and no bit lies in two blocks. -/
theorem blocked_locality (f : bloom_filter_t) (key : Nat) (hv : valid_blocked f)
    (hB8 : f.B % 8 = 0) :
    (∃ f1, add_blocked f key = some f1 ∧
      ∀ j, ¬ in_block f.B (spec_block_idx f key) j →
        bit_set f1.bitmap j = bit_set f.bitmap j) ∧
    (∀ mem2 : bytes_t, mem2.len = f.bitmap.len →
      (∀ j, in_block f.B (spec_block_idx f key) j → bit_set mem2 j = bit_set f.bitmap j) →
      contains_blocked { f with bitmap := mem2 } key = contains_blocked f key) ∧
    (∀ idx2 j, idx2 ≠ spec_block_idx f key → in_block f.B idx2 j →
      ¬ in_block f.B (spec_block_idx f key) j) := by
  have hin := probes_in_block f hv hB8 key
  refine ⟨?_, ?_, ?_⟩
  · obtain ⟨f1, h⟩ := add_blocked_total f key hv
    refine ⟨f1, h, ?_⟩
    obtain ⟨mem1, hg, rfl⟩ := add_blocked_some f f1 key h
    obtain ⟨_, _, hbits⟩ := add_generic_spec f key f.bitmap mem1 _ (u32 f.B) hg
    intro j hj
    show bit_set mem1 j = bit_set f.bitmap j
    have hiff : bit_set mem1 j = true ↔ bit_set f.bitmap j = true := by
      rw [hbits j]
      constructor
      · rintro (h1 | ⟨p, hp, rfl⟩)
        · exact h1
        · exact absurd (hin p hp) hj
      · intro h1; exact Or.inl h1
    cases h1 : bit_set mem1 j <;> cases h0 : bit_set f.bitmap j <;> simp_all
  · intro mem2 hl hagree
    show contains_generic _ key mem2 (block_offset f key) (u32 f.B) =
      contains_generic f key f.bitmap (block_offset f key) (u32 f.B)
    apply contains_generic_loop_congr _ _ _ _ hl
    intro p hp
    rw [← bit_set_false_iff, ← bit_set_false_iff, hagree _ (hin p hp)]
  · intro idx2 j hne h2
    exact in_block_disjoint _ _ _ _ hne h2

/-- C6, amended, on the blocked filter of 64 bits and the key 5. -/
theorem blocked_locality_example :
    valid filter_m64 ∧ filter_m64.B % 8 = 0 ∧
    (∃ f1, add_blocked filter_m64 5 = some f1 ∧
      ∀ j, ¬ in_block filter_m64.B (spec_block_idx filter_m64 5) j →
        bit_set f1.bitmap j = bit_set filter_m64.bitmap j) ∧
    (∀ mem2 : bytes_t, mem2.len = filter_m64.bitmap.len →
      (∀ j, in_block filter_m64.B (spec_block_idx filter_m64 5) j →
        bit_set mem2 j = bit_set filter_m64.bitmap j) →
      contains_blocked { filter_m64 with bitmap := mem2 } 5 = contains_blocked filter_m64 5) ∧
    (∀ idx2 j, idx2 ≠ spec_block_idx filter_m64 5 → in_block filter_m64.B idx2 j →
      ¬ in_block filter_m64.B (spec_block_idx filter_m64 5) j) :=
  ⟨filter_m64_valid, rfl, blocked_locality filter_m64 5 filter_m64_valid rfl⟩

/-! ## Argument validation -/

theorem not_is_pow2_zero : ¬ is_pow2 0 := by
  rintro ⟨a, ha⟩
  exact absurd ha.symm (Nat.two_pow_pos a).ne'

theorem not_is_pow2_u64_max : ¬ is_pow2 (2 ^ 64 - 1) := by
  rintro ⟨a, ha⟩
  cases a with
  | zero => norm_num at ha
  | succ a =>
    rw [Nat.pow_succ] at ha
    norm_num at ha
    omega

/-- C7: `assert_args` lets `m = 0` pass, which is not a power of two: the test
`(m & (m - 1)) == 0` holds for 0. Both variants return normally. -/
theorem assert_args_accepts_m_zero :
    ¬ is_pow2 0 ∧
    assert_args { variant := bloom_filter_variant_t.BASIC, m := 0, k := 8, B := 1024 } =
      outcome_t.returns ∧
    assert_args { variant := bloom_filter_variant_t.BLOCKED, m := 0, k := 8, B := 1024 } =
      outcome_t.returns :=
  ⟨not_is_pow2_zero, rfl, by rfl⟩

/-- C8: `assert_args` lets `m = 4` pass, which is not a multiple of 8; the filter
created from these arguments has a bitmap of 0 bytes, whatever `posix_memalign`
returns, and `add_basic` then writes outside of it. -/
theorem assert_args_accepts_m_four :
    assert_args { variant := bloom_filter_variant_t.BASIC, m := 4, k := 8, B := 1024 } =
      outcome_t.returns ∧
    ∀ posix_memalign, ∃ f, bloom_filter_create posix_memalign
        { variant := bloom_filter_variant_t.BASIC, m := 4, k := 8, B := 1024 } 0 = some f ∧
      f.bitmap.len = 0 ∧ add_basic f 5 = none :=
  ⟨rfl, fun pm => by
    rcases calloc_aligned_zero pm with h | h <;>
      exact ⟨_, rfl, by show (calloc_aligned pm 0).len = 0; rw [h]; rfl, by
        show Option.map _ (add_generic _ 5 (calloc_aligned pm 0) 0 _) = none
        rw [h]; rfl⟩⟩

/-- C9: in blocked mode `assert_args` lets `B = 2 ^ 64 - 1` pass together with
`m = 0`: `B` is not a power of two, but `(double) B` is `2 ^ 64`, so the test in
`double` holds, and `0 % B == 0`. -/
theorem assert_args_accepts_rounded_B :
    ¬ is_pow2 (2 ^ 64 - 1) ∧ u64_to_double (2 ^ 64 - 1) = 2 ^ 64 ∧
    assert_args { variant := bloom_filter_variant_t.BLOCKED, m := 0, k := 8, B := 2 ^ 64 - 1 } =
      outcome_t.returns :=
  ⟨not_is_pow2_u64_max, by rfl, by rfl⟩

/-- C10 as stated fails: with `k = 0` and a valid `m`, `assert_args` returns
normally, and so does the validation at the end of `parse_args` with the filter
enabled. -/
theorem validation_accepts_k_zero :
    assert_args { variant := bloom_filter_variant_t.BASIC, m := 8, k := 0, B := 1024 } =
      outcome_t.returns ∧
    parse_args_validate true
      { variant := bloom_filter_variant_t.BASIC, m := 8, k := 0, B := 1024 } =
      outcome_t.returns :=
  ⟨rfl, rfl⟩

/-- C10, amended: the validation does not examine `k`. For every argument set and
every value `k`, `assert_args` and the validation at the end of `parse_args` end
the same way when `k` replaces the hash count. -/
theorem validation_ignores_k (args : bloom_filter_args_t) (k : Nat) (bloom_enable : Bool) :
    assert_args { args with k := k } = assert_args args ∧
    parse_args_validate bloom_enable { args with k := k } =
      parse_args_validate bloom_enable args :=
  ⟨rfl, rfl⟩

/-! ## The command line -/

/-- C11: for the algorithm name `FOO`, which is not in the table, `parse_args`
ends the process with exit status 0 (`EXIT_SUCCESS`); the lower-case `npo` is
treated the same way. Each of the six names of the table selects its entry. -/
theorem parse_args_unknown_algo_exits_zero :
    find_algo "FOO" algos = none ∧
    (parse_args [getopt_t.opt 'a' "FOO"] default_params).1 = outcome_t.exit 0 ∧
    (parse_args [getopt_t.opt 'a' "npo"] default_params).1 = outcome_t.exit 0 ∧
    algos.map (fun a => find_algo a.name algos) = algos.map some ∧
    algos.map (fun a => (parse_args [getopt_t.opt 'a' a.name] default_params).1) =
      algos.map (fun _ => outcome_t.returns) :=
  ⟨rfl, rfl, rfl, rfl, rfl⟩

theorem int_to_u64_cast (x : Int) : (int_to_u64 x : Int) = x % 2 ^ 64 := by
  unfold int_to_u64
  exact Int.toNat_of_nonneg (Int.emod_nonneg _ (by norm_num))

/-- The conversions of the option arguments at the edges of their types:
`atol` saturates at `LONG_MAX`, `atoi` keeps the low 32 bits as a signed number,
which the `uint64_t` fields `k` and `B` then extend with the sign. -/
theorem text_conversions_at_the_edges :
    (parse_args [getopt_t.opt 'r' "99999999999999999999"] default_params).2.r_size =
      9223372036854775807 ∧
    (parse_args [getopt_t.opt 'B' "4294967312"] default_params).2.bloom_filter_args.B = 16 ∧
    (parse_args [getopt_t.opt 'k' "2147483648"] default_params).2.bloom_filter_args.k =
      18446744071562067968 ∧
    (parse_args [getopt_t.opt 'm' "-1"] default_params).2.bloom_filter_args.m = 2 ^ 64 - 1 ∧
    (parse_args [getopt_t.opt 'n' "-1"] default_params).2.nthreads = 2 ^ 32 - 1 ∧
    atoi "12" = 12 ∧ atoi "-2147483649" = 2147483647 :=
  ⟨rfl, rfl, rfl, rfl, rfl, rfl, rfl⟩

/-- C12 as stated fails: with `--r-size=0` and with `--s-size=-1` `parse_args`
returns normally; the sizes are stored as 0 and as `2 ^ 64 - 1`. -/
theorem parse_args_accepts_nonpositive_sizes :
    ascii_to_int "0" = 0 ∧ ascii_to_int "-1" = -1 ∧
    (parse_args [getopt_t.opt 'r' "0"] default_params).1 = outcome_t.returns ∧
    (parse_args [getopt_t.opt 'r' "0"] default_params).2.r_size = 0 ∧
    (parse_args [getopt_t.opt 's' "-1"] default_params).1 = outcome_t.returns ∧
    (parse_args [getopt_t.opt 's' "-1"] default_params).2.s_size = 2 ^ 64 - 1 :=
  ⟨rfl, rfl, rfl, rfl, rfl, rfl⟩

/-- C12, amended: `parse_args` does not validate the sizes. For every argument
text of `--r-size` or `--s-size` the option loop stores the result of `atol`,
converted to `uint64_t`, and continues; given alone on the default parameters,
the option makes `parse_args` return normally. When `n` is the number that the
text denotes, the stored value is 0 for `n = 0`, `2 ^ 64 + n` for a negative `n`
down to `LONG_MIN`, `2 ^ 63` for an `n` below `LONG_MIN`, `n` for a positive `n`
up to `LONG_MAX`, and `LONG_MAX` for an `n` above it. -/
theorem parse_args_stores_sizes (v : String) (fl : flags_t) (p : param_t) :
    parse_option (getopt_t.opt 'r' v) fl p =
      step_t.continue fl { p with r_size := int_to_u64 (atol v) } ∧
    parse_option (getopt_t.opt 's' v) fl p =
      step_t.continue fl { p with s_size := int_to_u64 (atol v) } ∧
    parse_args [getopt_t.opt 'r' v] default_params =
      (outcome_t.returns, { default_params with r_size := int_to_u64 (atol v) }) ∧
    parse_args [getopt_t.opt 's' v] default_params =
      (outcome_t.returns, { default_params with s_size := int_to_u64 (atol v) }) ∧
    (ascii_to_int v = 0 → int_to_u64 (atol v) = 0) ∧
    (LONG_MIN ≤ ascii_to_int v → ascii_to_int v < 0 →
      (int_to_u64 (atol v) : Int) = 2 ^ 64 + ascii_to_int v) ∧
    (ascii_to_int v < LONG_MIN → int_to_u64 (atol v) = 2 ^ 63) ∧
    (0 < ascii_to_int v → ascii_to_int v ≤ LONG_MAX →
      (int_to_u64 (atol v) : Int) = ascii_to_int v) ∧
    (LONG_MAX < ascii_to_int v → int_to_u64 (atol v) = 2 ^ 63 - 1) := by
  refine ⟨rfl, rfl, rfl, rfl, ?_, ?_, ?_, ?_, ?_⟩
  · intro h
    unfold atol strtol
    rw [h]
    rfl
  · intro h1 h2
    rw [int_to_u64_cast]
    unfold atol strtol LONG_MAX LONG_MIN at *
    split_ifs <;> omega
  · intro h1
    apply Int.ofNat_inj.1
    rw [int_to_u64_cast]
    unfold atol strtol LONG_MAX LONG_MIN at *
    split_ifs
    all_goals omega
  · intro h1 h2
    rw [int_to_u64_cast]
    unfold atol strtol LONG_MAX LONG_MIN at *
    split_ifs <;> omega
  · intro h1
    apply Int.ofNat_inj.1
    rw [int_to_u64_cast]
    unfold atol strtol LONG_MAX LONG_MIN at *
    split_ifs
    all_goals omega

/-- C12, amended, for the texts `-5`, `0`, `-99999999999999999999`, `7` and
`99999999999999999999`: `--s-size=-5` alone makes `parse_args` return with
`s_size = 2 ^ 64 - 5`, and the two long texts are stored as `2 ^ 63` and as
`2 ^ 63 - 1`. -/
theorem parse_args_stores_sizes_example :
    ascii_to_int "-5" = -5 ∧ ascii_to_int "-99999999999999999999" = -99999999999999999999 ∧
    parse_args [getopt_t.opt 's' "-5"] default_params =
      (outcome_t.returns, { default_params with s_size := 2 ^ 64 - 5 }) ∧
    int_to_u64 (atol "0") = 0 ∧
    (int_to_u64 (atol "-5") : Int) = 2 ^ 64 + ascii_to_int "-5" ∧
    int_to_u64 (atol "-99999999999999999999") = 2 ^ 63 ∧
    (int_to_u64 (atol "7") : Int) = ascii_to_int "7" ∧
    int_to_u64 (atol "99999999999999999999") = 2 ^ 63 - 1 :=
  ⟨rfl, rfl,
    (parse_args_stores_sizes "-5" flags_start default_params).2.2.2.1,
    (parse_args_stores_sizes "0" flags_start default_params).2.2.2.2.1 rfl,
    (parse_args_stores_sizes "-5" flags_start default_params).2.2.2.2.2.1 (by decide)
      (by decide),
    (parse_args_stores_sizes "-99999999999999999999" flags_start
      default_params).2.2.2.2.2.2.1 (by decide),
    (parse_args_stores_sizes "7" flags_start default_params).2.2.2.2.2.2.2.1 (by decide)
      (by decide),
    (parse_args_stores_sizes "99999999999999999999" flags_start
      default_params).2.2.2.2.2.2.2.2 (by decide)⟩

/-- C13: for the no-partitioning algorithms the Bloom variant is the plain join.
`B_NPO` and `B_NPO_st` return what `NPO` and `NPO_st` return, and for parameters
whose algorithm is the table entry named `NPO` or `NPO_st` the dispatch of `main`
yields the same with `bloom_enable` set and not set. -/
theorem npo_ignores_bloom {ρ : Type} (K : join_kernels_t ρ) (relR relS : relation_t)
    (nthreads : Int) (bloom_args : bloom_filter_args_t) (p : param_t)
    (hmem : p.algo ∈ algos) (hname : p.algo.name = "NPO" ∨ p.algo.name = "NPO_st") :
    B_NPO K relR relS nthreads bloom_args = K.NPO relR relS nthreads ∧
    B_NPO_st K relR relS nthreads bloom_args = K.NPO_st relR relS nthreads ∧
    run_join K { p with bloom_enable := true } relR relS =
      run_join K { p with bloom_enable := false } relR relS := by
  refine ⟨rfl, rfl, ?_⟩
  simp only [algos, List.mem_cons, List.mem_singleton, List.not_mem_nil, or_false] at hmem
  rcases hmem with h | h | h | h | h | h <;> rw [h] at hname <;>
    first
    | (exfalso; revert hname; decide)
    | (simp only [run_join, h]; rfl)

/-- C13 for `--algo=NPO` on the default parameters, with join functions that
count the matching pairs. -/
theorem npo_ignores_bloom_example :
    (parse_args [getopt_t.opt 'a' "NPO"] default_params).2.algo ∈ algos ∧
    (parse_args [getopt_t.opt 'a' "NPO"] default_params).2.algo.name = "NPO" ∧
    B_NPO counting_kernels relation_R relation_S 2 args_m64 =
      counting_kernels.NPO relation_R relation_S 2 ∧
    B_NPO_st counting_kernels relation_R relation_S 2 args_m64 =
      counting_kernels.NPO_st relation_R relation_S 2 ∧
    run_join counting_kernels
        { (parse_args [getopt_t.opt 'a' "NPO"] default_params).2 with bloom_enable := true }
        relation_R relation_S =
      run_join counting_kernels
        { (parse_args [getopt_t.opt 'a' "NPO"] default_params).2 with bloom_enable := false }
        relation_R relation_S :=
  ⟨by decide, rfl,
    npo_ignores_bloom counting_kernels relation_R relation_S 2 args_m64
      (parse_args [getopt_t.opt 'a' "NPO"] default_params).2 (by decide) (Or.inl rfl)⟩

/-- C19: the option `--bloom-filter`. With the argument text `v` the option loop
continues with `bloom_enable` false iff `v` is `no`, with the variant `BASIC` for
`basic`, `BLOCKED` for `blocked` and unchanged for any other text, and with `m`,
`k` and `B` unchanged. When the option loop ends with the parameters `p2`,
`parse_args` ends as `assert_args` on the Bloom arguments of `p2` when
`bloom_enable` of `p2` is true, and returns normally without it otherwise. -/
theorem bloom_filter_option (v : String) (fl fl2 : flags_t) (p p2 : param_t)
    (opts : List getopt_t) (hloop : parse_args_loop opts flags_start p = step_t.continue fl2 p2) :
    (∃ p1, parse_option (getopt_t.opt 'b' v) fl p = step_t.continue fl p1 ∧
      (p1.bloom_enable = false ↔ v = "no") ∧
      (v = "basic" → p1.bloom_filter_args.variant = bloom_filter_variant_t.BASIC) ∧
      (v = "blocked" → p1.bloom_filter_args.variant = bloom_filter_variant_t.BLOCKED) ∧
      (v ≠ "basic" → v ≠ "blocked" →
        p1.bloom_filter_args.variant = p.bloom_filter_args.variant) ∧
      p1.bloom_filter_args.m = p.bloom_filter_args.m ∧
      p1.bloom_filter_args.k = p.bloom_filter_args.k ∧
      p1.bloom_filter_args.B = p.bloom_filter_args.B) ∧
    (parse_args opts p).2.bloom_enable = p2.bloom_enable ∧
    (parse_args opts p).2.bloom_filter_args = p2.bloom_filter_args ∧
    (p2.bloom_enable = true → (parse_args opts p).1 = assert_args p2.bloom_filter_args) ∧
    (p2.bloom_enable = false → (parse_args opts p).1 = outcome_t.returns) := by
  refine ⟨⟨_, rfl, ?_, ?_, ?_, ?_, ?_, ?_, ?_⟩, ?_, ?_, ?_, ?_⟩
  · simp
  · intro h; simp [h]
  · intro h; subst h; simp
  · intro h1 h2; simp [h1, h2]
  · dsimp only; split_ifs <;> rfl
  · dsimp only; split_ifs <;> rfl
  · dsimp only; split_ifs <;> rfl
  · simp only [parse_args, flags_start] at hloop ⊢; rw [hloop]
  · simp only [parse_args, flags_start] at hloop ⊢; rw [hloop]
  · intro h; simp only [parse_args, flags_start] at hloop ⊢; rw [hloop]
    simp [parse_args_validate, h]
  · intro h; simp only [parse_args, flags_start] at hloop ⊢; rw [hloop]
    simp [parse_args_validate, h]

/-- C19 for `--bloom-filter=blocked --bloom-size=64 --bloom-block-size=16` on the
default parameters. -/
theorem bloom_filter_option_example :
    ∃ fl2 p2,
      parse_args_loop
        [getopt_t.opt 'b' "blocked", getopt_t.opt 'm' "64", getopt_t.opt 'B' "16"]
        flags_start default_params = step_t.continue fl2 p2 ∧
      p2.bloom_enable = true ∧
      (parse_args
        [getopt_t.opt 'b' "blocked", getopt_t.opt 'm' "64", getopt_t.opt 'B' "16"]
        default_params).1 = assert_args p2.bloom_filter_args :=
  ⟨_, _, rfl, rfl,
    (bloom_filter_option "no" flags_start _ default_params _
      [getopt_t.opt 'b' "blocked", getopt_t.opt 'm' "64", getopt_t.opt 'B' "16"] rfl).2.2.2.1
      rfl⟩

/-! ## The CPU mapping -/

theorem read_mappings_spec (rest : List Int) :
    ∀ (cs : List Int) (i : Nat) (st : cpu_mapping_t), i + cs.length ≤ MAX_NODES →
    ∃ st1, read_mappings cs.length i (cs ++ rest) st = some st1 ∧
      st1.inited = st.inited ∧ st1.max_cpus = st.max_cpus ∧
      ∀ j, st1.node_mapping j =
        if i ≤ j ∧ j < i + cs.length then cs.getD (j - i) 0 else st.node_mapping j := by
  intro cs
  induction cs with
  | nil =>
    intro i st _
    refine ⟨st, rfl, rfl, rfl, ?_⟩
    intro j
    have : ¬ (i ≤ j ∧ j < i + ([] : List Int).length) := by simp
    rw [if_neg this]
  | cons c cs ih =>
    intro i st hlen
    simp only [List.length_cons] at hlen
    have hi : i < MAX_NODES := by omega
    obtain ⟨st1, h1, h2, h3, h4⟩ := ih (i + 1)
      { st with node_mapping := fun j => if j = i then c else st.node_mapping j } (by omega)
    refine ⟨st1, ?_, h2, h3, ?_⟩
    · simp only [List.length_cons, List.cons_append, read_mappings, set_node_mapping, hi,
        if_true]
      exact h1
    · intro j
      rw [h4 j]
      simp only [List.length_cons]
      by_cases hj : j = i
      · subst hj
        have h5 : ¬ (j + 1 ≤ j ∧ j < j + 1 + cs.length) := by omega
        have h6 : j ≤ j ∧ j < j + (cs.length + 1) := by omega
        rw [if_neg h5, if_pos h6]
        simp
      · by_cases hr : i + 1 ≤ j ∧ j < i + 1 + cs.length
        · have h6 : i ≤ j ∧ j < i + (cs.length + 1) := by omega
          rw [if_pos hr, if_pos h6]
          have h7 : j - i = (j - (i + 1)) + 1 := by omega
          rw [h7, List.getD_cons_succ]
        · have h6 : ¬ (i ≤ j ∧ j < i + (cs.length + 1)) := by omega
          rw [if_neg hr, if_neg h6]
          simp [hj]

theorem fill_round_robin_spec :
    ∀ (n i : Nat) (st : cpu_mapping_t), i + n ≤ MAX_NODES →
    ∃ st1, fill_round_robin n i st = some st1 ∧
      st1.inited = st.inited ∧ st1.max_cpus = st.max_cpus ∧
      ∀ j, st1.node_mapping j = if i ≤ j ∧ j < i + n then (j : Int) else st.node_mapping j := by
  intro n
  induction n with
  | zero =>
    intro i st _
    refine ⟨st, rfl, rfl, rfl, ?_⟩
    intro j
    have : ¬ (i ≤ j ∧ j < i + 0) := by omega
    rw [if_neg this]
  | succ n ih =>
    intro i st hlen
    have hi : i < MAX_NODES := by omega
    obtain ⟨st1, h1, h2, h3, h4⟩ := ih (i + 1)
      { st with node_mapping := fun j => if j = i then (i : Int) else st.node_mapping j }
      (by omega)
    refine ⟨st1, ?_, h2, h3, ?_⟩
    · simp only [fill_round_robin, set_node_mapping, hi, if_true]
      exact h1
    · intro j
      rw [h4 j]
      by_cases hj : j = i
      · subst hj
        have h5 : ¬ (j + 1 ≤ j ∧ j < j + 1 + n) := by omega
        have h6 : j ≤ j ∧ j < j + (n + 1) := by omega
        rw [if_neg h5, if_pos h6]
        simp
      · by_cases hr : i + 1 ≤ j ∧ j < i + 1 + n
        · have h6 : i ≤ j ∧ j < i + (n + 1) := by omega
          rw [if_pos hr, if_pos h6]
        · have h6 : ¬ (i ≤ j ∧ j < i + (n + 1)) := by omega
          rw [if_neg hr, if_neg h6]
          simp [hj]

theorem get_cpu_id_ready (env : cpu_env_t) (n : Nat) (c : Nat → Int) (st : cpu_mapping_t)
    (t : Int) (hn1 : 1 ≤ n) (hn : n ≤ MAX_NODES) (hr : cpu_mapping_ready n c st) (ht : 0 ≤ t) :
    get_cpu_id env st t = some (c (t % (n : Int)).toNat, st) := by
  obtain ⟨h1, h2, h3⟩ := hr
  have hnpos : (0 : Int) < (n : Int) := by omega
  have hmod0 : 0 ≤ t % (n : Int) := Int.emod_nonneg t (by omega)
  have hmodn : t % (n : Int) < (n : Int) := Int.emod_lt_of_pos t hnpos
  have htm : Int.tmod t (n : Int) = t % (n : Int) := Int.tmod_eq_emod ht (by omega)
  have hin : (t % (n : Int)).toNat < n := by omega
  have hmax : (n : Int) ≤ (MAX_NODES : Int) := by exact_mod_cast hn
  unfold get_cpu_id
  have hi : ¬ st.inited = 0 := by rw [h1]; decide
  rw [if_neg hi]
  simp only [h2, htm]
  have hz : ¬ ((n : Int) = 0 ∨ ((n : Int) = -1 ∧ t = -2 ^ 31)) := by omega
  have hb : 0 ≤ t % (n : Int) ∧ t % (n : Int) < (MAX_NODES : Int) := ⟨hmod0, by omega⟩
  rw [if_neg hz, if_pos hb, h3 _ hin]

theorem get_cpu_id_uninit (env : cpu_env_t) (st s : cpu_mapping_t) (t : Int)
    (h0 : st.inited = 0) (hinit : init_mappings env st = some s) :
    get_cpu_id env st t = get_cpu_id env { s with inited := 1 } t := by
  unfold get_cpu_id
  rw [if_pos h0, hinit]
  have h1 : ¬ ({ s with inited := 1 } : cpu_mapping_t).inited = 0 := by
    show ¬ (1 : Int) = 0
    decide
  rw [if_neg h1]
  rfl

theorem get_cpu_ids_ready (env : cpu_env_t) (n : Nat) (c : Nat → Int) (st : cpu_mapping_t)
    (hn1 : 1 ≤ n) (hn : n ≤ MAX_NODES) (hr : cpu_mapping_ready n c st) :
    ∀ ts : List Int, (∀ t ∈ ts, 0 ≤ t) →
    get_cpu_ids env st ts = some (ts.map fun t => c (t % (n : Int)).toNat, st) := by
  intro ts
  induction ts with
  | nil => intro _; rfl
  | cons t ts ih =>
    intro hts
    have h1 := get_cpu_id_ready env n c st t hn1 hn hr (hts t (List.mem_cons_self _ _))
    have h2 := ih fun u hu => hts u (List.mem_cons_of_mem _ hu)
    simp only [get_cpu_ids, h1, h2, List.map_cons]

/-- From program start: when `init_mappings` yields `n` CPUs with the mapping `c`,
successive calls of `get_cpu_id` return `c (t mod n)`. -/
theorem get_cpu_ids_start (env : cpu_env_t) (n : Nat) (c : Nat → Int) (s : cpu_mapping_t)
    (hn1 : 1 ≤ n) (hn : n ≤ MAX_NODES) (hinit : init_mappings env cpu_mapping_start = some s)
    (hmax : s.max_cpus = (n : Int)) (hmap : ∀ j, j < n → s.node_mapping j = c j)
    (ts : List Int) (hts : ∀ t ∈ ts, 0 ≤ t) :
    ∃ st, get_cpu_ids env cpu_mapping_start ts =
      some (ts.map fun t => c (t % (n : Int)).toNat, st) := by
  have hr : cpu_mapping_ready n c { s with inited := 1 } := ⟨rfl, hmax, hmap⟩
  cases ts with
  | nil => exact ⟨cpu_mapping_start, rfl⟩
  | cons t ts =>
    refine ⟨{ s with inited := 1 }, ?_⟩
    have h1 : get_cpu_id env cpu_mapping_start t =
        some (c (t % (n : Int)).toNat, { s with inited := 1 }) := by
      rw [get_cpu_id_uninit env cpu_mapping_start s t rfl hinit]
      exact get_cpu_id_ready env n c _ t hn1 hn hr (hts t (List.mem_cons_self _ _))
    have h2 := get_cpu_ids_ready env n c _ hn1 hn hr ts
      fun u hu => hts u (List.mem_cons_of_mem _ hu)
    simp only [get_cpu_ids, h1, h2, List.map_cons]

/-- C14: the mapping file. When the file holds `n` with `1 ≤ n ≤ 512`, then the
`n` integers `cs`, then anything, the calls of `get_cpu_id` from program start
for thread ids `t ≥ 0` all return, each with entry `t mod n` of `cs`. -/
theorem get_cpu_id_from_file (n : Nat) (cs rest : List Int) (nprocessors_onln : Int)
    (ts : List Int) (hn1 : 1 ≤ n) (hn : n ≤ 512) (hlen : cs.length = n)
    (hts : ∀ t ∈ ts, 0 ≤ t) :
    ∃ st, get_cpu_ids
        { mapping_file := some ((n : Int) :: (cs ++ rest)), nprocessors_onln := nprocessors_onln }
        cpu_mapping_start ts =
      some (ts.map fun t => cs.getD (t % (n : Int)).toNat 0, st) := by
  subst hlen
  obtain ⟨s, h1, _, h3, h4⟩ := read_mappings_spec rest cs 0
    { cpu_mapping_start with max_cpus := (cs.length : Int) } (by simpa [MAX_NODES] using hn)
  apply get_cpu_ids_start _ cs.length (fun j => cs.getD j 0) s hn1 hn _ h3 _ ts hts
  · simp only [init_mappings, init_mappings_from_file, Int.toNat_ofNat, h1, Option.map_some']
    rfl
  · intro j hj
    rw [h4 j]
    simp [hj]

/-- C14 for the file `3 7 5 6` and the thread ids 0 to 4. -/
theorem get_cpu_id_from_file_example :
    (1 ≤ 3 ∧ 3 ≤ 512 ∧ [(7 : Int), 5, 6].length = 3 ∧
      ∀ t ∈ [(0 : Int), 1, 2, 3, 4], 0 ≤ t) ∧
    ∃ st, get_cpu_ids
        { mapping_file := some (((3 : Nat) : Int) :: ([7, 5, 6] ++ [])), nprocessors_onln := 16 }
        cpu_mapping_start [0, 1, 2, 3, 4] =
      some ([(0 : Int), 1, 2, 3, 4].map fun t => [(7 : Int), 5, 6].getD (t % ((3 : Nat) : Int)).toNat 0,
        st) :=
  ⟨⟨by decide, by decide, rfl, by decide⟩,
    get_cpu_id_from_file 3 [7, 5, 6] [] 16 [0, 1, 2, 3, 4] (by decide) (by decide) rfl
      (by decide)⟩

/-- C15: round-robin. Without mapping file and with `N` processors online,
`1 ≤ N ≤ 512`, the calls of `get_cpu_id` from program start for thread ids
`t ≥ 0` all return, each with `t mod N`. -/
theorem get_cpu_id_round_robin (N : Nat) (ts : List Int) (hN1 : 1 ≤ N) (hN : N ≤ 512)
    (hts : ∀ t ∈ ts, 0 ≤ t) :
    ∃ st, get_cpu_ids { mapping_file := none, nprocessors_onln := (N : Int) }
        cpu_mapping_start ts =
      some (ts.map fun t => t % (N : Int), st) := by
  obtain ⟨s, h1, _, h3, h4⟩ := fill_round_robin_spec N 0
    { cpu_mapping_start with max_cpus := (N : Int) } (by simpa [MAX_NODES] using hN)
  obtain ⟨st, hst⟩ := get_cpu_ids_start
    { mapping_file := none, nprocessors_onln := (N : Int) } N (fun j => (j : Int)) s hN1 hN
    (by
      simp only [init_mappings, init_mappings_from_file, if_true, Int.toNat_ofNat]
      exact h1)
    h3 (by intro j hj; rw [h4 j]; simp [hj]) ts hts
  refine ⟨st, ?_⟩
  rw [hst]
  congr 2
  apply List.map_congr_left
  intro t ht
  have hpos : (0 : Int) < (N : Int) := by omega
  exact Int.toNat_of_nonneg (Int.emod_nonneg t (by omega))

/-- C15 for 4 processors and the thread ids 0 to 5. -/
theorem get_cpu_id_round_robin_example :
    (1 ≤ 4 ∧ 4 ≤ 512 ∧ ∀ t ∈ [(0 : Int), 1, 2, 3, 4, 5], 0 ≤ t) ∧
    ∃ st, get_cpu_ids { mapping_file := none, nprocessors_onln := ((4 : Nat) : Int) }
        cpu_mapping_start [0, 1, 2, 3, 4, 5] =
      some ([(0 : Int), 1, 2, 3, 4, 5].map fun t => t % ((4 : Nat) : Int), st) :=
  ⟨⟨by decide, by decide, by decide⟩,
    get_cpu_id_round_robin 4 [0, 1, 2, 3, 4, 5] (by decide) (by decide) (by decide)⟩

/-- C16 as stated fails: with the mapping file `8 0 1 2 3 8 9 10 11`,
`get_cpu_id(5)` is 9, not 8. -/
theorem get_cpu_id_five_is_nine :
    (get_cpu_id cpu_env_l5520 cpu_mapping_start 5).map Prod.fst = some 9 ∧
    (get_cpu_id cpu_env_l5520 cpu_mapping_start 5).map Prod.fst ≠ some 8 :=
  ⟨rfl, by decide⟩

/-- C16, amended: with the mapping file `8 0 1 2 3 8 9 10 11` the thread ids 0 to
7 are mapped to the listed CPUs in order; CPU 8 is the CPU of the fifth thread,
thread id 4, and thread id 5 runs on CPU 9. -/
theorem get_cpu_id_l5520 :
    (get_cpu_ids cpu_env_l5520 cpu_mapping_start [0, 1, 2, 3, 4, 5, 6, 7]).map Prod.fst =
      some [0, 1, 2, 3, 8, 9, 10, 11] ∧
    (get_cpu_id cpu_env_l5520 cpu_mapping_start 4).map Prod.fst = some 8 ∧
    (get_cpu_id cpu_env_l5520 cpu_mapping_start 5).map Prod.fst = some 9 :=
  ⟨rfl, rfl, rfl⟩

/-! ## Creation of a filter and `mod_m` -/

/-- C17 as stated fails in two ways. For `B = 0` (here in basic mode with
`m = 8`, arguments that `assert_args` lets pass) `bloom_filter_create` divides by
zero, whatever `posix_memalign` does and for every seed. For the valid arguments
with `m = 2 ^ 63`, when `posix_memalign` finds no `2 ^ 60` bytes, the filter that
is returned has the null pointer for its bitmap, not `m / 8` zero bytes, and
`add` and `contains` of the returned strategy have no result on it. -/
theorem bloom_filter_create_not_initialised :
    assert_args { variant := bloom_filter_variant_t.BASIC, m := 8, k := 1, B := 0 } =
      outcome_t.returns ∧
    (∀ posix_memalign seed, bloom_filter_create_strategy posix_memalign
      { variant := bloom_filter_variant_t.BASIC, m := 8, k := 1, B := 0 } seed = none) ∧
    valid_args args_m63 ∧ assert_args args_m63 = outcome_t.returns ∧
    args_m63.m / 8 = 2 ^ 60 ∧ memalign_limited (args_m63.m / 8) = ENOMEM ∧
    ∃ s, bloom_filter_create_strategy memalign_limited args_m63 0 = some s ∧
      s.filter.bitmap = null_region ∧ s.filter.bitmap.len = 0 ∧
      s.add s.filter 5 = none ∧ s.contains s.filter 5 = none :=
  ⟨rfl, fun _ _ => rfl, ⟨⟨63, rfl⟩, by decide, by decide, fun h => (by cases h)⟩, rfl,
    by decide, by decide, _, rfl, rfl, rfl, rfl, rfl⟩

/-- C17, amended: for arguments with `B ≠ 0` (so that `m / B` is defined)
`bloom_filter_create` returns a strategy whose filter has the variant, `m`, `k`
and `B` of the arguments, the given seed and `nblocks = m / B`; `add` and
`contains` of the strategy are `add_basic` and `contains_basic` for `BASIC`,
`add_blocked` and `contains_blocked` for `BLOCKED`. When `posix_memalign` returns
0 for the `m / 8` bytes, the bitmap consists of `m / 8` bytes that are all zero;
when it returns an error, the bitmap is the null pointer. -/
theorem bloom_filter_create_initialised (posix_memalign : Nat → Int)
    (args : bloom_filter_args_t) (seed : Nat) (hB : args.B ≠ 0) :
    ∃ s, bloom_filter_create_strategy posix_memalign args seed = some s ∧
      bloom_filter_create posix_memalign args seed = some s.filter ∧
      s.variant = args.variant ∧ s.filter.variant = args.variant ∧
      s.filter.m = args.m ∧ s.filter.k = args.k ∧ s.filter.B = args.B ∧
      s.filter.seed = seed ∧ s.filter.nblocks = args.m / args.B ∧
      (posix_memalign (args.m / 8) = 0 →
        s.filter.bitmap.len = args.m / 8 ∧ ∀ i, i < args.m / 8 → s.filter.bitmap.byte i = 0) ∧
      (posix_memalign (args.m / 8) ≠ 0 → s.filter.bitmap = null_region) ∧
      (args.variant = bloom_filter_variant_t.BASIC →
        s.add = add_basic ∧ s.contains = contains_basic) ∧
      (args.variant = bloom_filter_variant_t.BLOCKED →
        s.add = add_blocked ∧ s.contains = contains_blocked) := by
  unfold bloom_filter_create_strategy bloom_filter_create
  rw [if_neg hB]
  have hok : posix_memalign (args.m / 8) = 0 →
      (calloc_aligned posix_memalign (args.m / 8)).len = args.m / 8 ∧
      ∀ i, i < args.m / 8 → (calloc_aligned posix_memalign (args.m / 8)).byte i = 0 := by
    intro h
    rw [calloc_aligned_ok _ _ h]
    exact ⟨rfl, fun _ _ => rfl⟩
  have hnull := calloc_aligned_null posix_memalign (args.m / 8)
  cases hv : args.variant with
  | BASIC =>
    exact ⟨_, rfl, rfl, rfl, rfl, rfl, rfl, rfl, rfl, rfl, hok, hnull,
      fun _ => ⟨rfl, rfl⟩, fun h => (by cases h)⟩
  | BLOCKED =>
    exact ⟨_, rfl, rfl, rfl, rfl, rfl, rfl, rfl, rfl, rfl, hok, hnull,
      fun h => (by cases h), fun _ => ⟨rfl, rfl⟩⟩

/-- C17, amended, for the arguments of the blocked filter of 64 bits and the
seed 7: with an allocation that succeeds the bitmap has 8 bytes, all zero, and
the filter is `filter_m64`; with the limited allocator and `m = 2 ^ 63` the
bitmap is the null pointer. -/
theorem bloom_filter_create_initialised_example :
    args_m64.B ≠ 0 ∧ memalign_succeeds (args_m64.m / 8) = 0 ∧
    bloom_filter_create memalign_succeeds args_m64 7 = some filter_m64 ∧
    (∃ s, bloom_filter_create_strategy memalign_succeeds args_m64 7 = some s ∧
      bloom_filter_create memalign_succeeds args_m64 7 = some s.filter ∧
      s.variant = args_m64.variant ∧ s.filter.variant = args_m64.variant ∧
      s.filter.m = args_m64.m ∧ s.filter.k = args_m64.k ∧ s.filter.B = args_m64.B ∧
      s.filter.seed = 7 ∧ s.filter.nblocks = args_m64.m / args_m64.B ∧
      (memalign_succeeds (args_m64.m / 8) = 0 →
        s.filter.bitmap.len = args_m64.m / 8 ∧
        ∀ i, i < args_m64.m / 8 → s.filter.bitmap.byte i = 0) ∧
      (memalign_succeeds (args_m64.m / 8) ≠ 0 → s.filter.bitmap = null_region) ∧
      (args_m64.variant = bloom_filter_variant_t.BASIC →
        s.add = add_basic ∧ s.contains = contains_basic) ∧
      (args_m64.variant = bloom_filter_variant_t.BLOCKED →
        s.add = add_blocked ∧ s.contains = contains_blocked)) ∧
    args_m63.B ≠ 0 ∧ memalign_limited (args_m63.m / 8) ≠ 0 ∧
    ∃ s, bloom_filter_create_strategy memalign_limited args_m63 7 = some s ∧
      bloom_filter_create memalign_limited args_m63 7 = some s.filter ∧
      s.variant = args_m63.variant ∧ s.filter.variant = args_m63.variant ∧
      s.filter.m = args_m63.m ∧ s.filter.k = args_m63.k ∧ s.filter.B = args_m63.B ∧
      s.filter.seed = 7 ∧ s.filter.nblocks = args_m63.m / args_m63.B ∧
      (memalign_limited (args_m63.m / 8) = 0 →
        s.filter.bitmap.len = args_m63.m / 8 ∧
        ∀ i, i < args_m63.m / 8 → s.filter.bitmap.byte i = 0) ∧
      (memalign_limited (args_m63.m / 8) ≠ 0 → s.filter.bitmap = null_region) ∧
      (args_m63.variant = bloom_filter_variant_t.BASIC →
        s.add = add_basic ∧ s.contains = contains_basic) ∧
      (args_m63.variant = bloom_filter_variant_t.BLOCKED →
        s.add = add_blocked ∧ s.contains = contains_blocked) :=
  ⟨by decide, rfl, rfl, bloom_filter_create_initialised memalign_succeeds args_m64 7 (by decide),
    by decide, by decide,
    bloom_filter_create_initialised memalign_limited args_m63 7 (by decide)⟩

/-- C18: `mod_m` is the remainder. For a 32-bit `val` and a power of two `m` (a
`uint64_t`), `mod_m(val, m)` is `val mod m`, and it lies in `0 .. m - 1`. -/
theorem mod_m_is_remainder (val m : Nat) (hval : val < 2 ^ 32) (hm : is_pow2 m)
    (hm64 : m < 2 ^ 64) :
    mod_m val m = val % m ∧ mod_m val m < m := by
  obtain ⟨a, rfl⟩ := hm
  have ha := pow2_lt_exp a hm64
  have h1 : mod_m val (2 ^ a) = val % 2 ^ a := by
    rw [mod_m_pow2 val a ha]
    unfold u32
    apply Nat.mod_eq_of_lt
    have := Nat.mod_le val (2 ^ a)
    omega
  exact ⟨h1, by rw [h1]; exact Nat.mod_lt _ (Nat.two_pow_pos a)⟩

/-- C18 for `val = 1000` and `m = 64`. -/
theorem mod_m_is_remainder_example :
    (1000 < 2 ^ 32 ∧ is_pow2 64 ∧ 64 < 2 ^ 64) ∧
    mod_m 1000 64 = 1000 % 64 ∧ mod_m 1000 64 < 64 :=
  ⟨⟨by decide, ⟨6, rfl⟩, by decide⟩,
    mod_m_is_remainder 1000 64 (by decide) ⟨6, rfl⟩ (by decide)⟩

/-! ## The order of insertions -/

theorem byte_after_comp (T0 H0 T1 H1 : Prop) (b : Nat) (old mid new : Bool)
    (h0 : H0 → T0) (h1 : H1 → T1) (hm : mid = true ↔ byte_after T0 H0 b old)
    (hn : new = true ↔ byte_after T1 H1 b mid) :
    new = true ↔ byte_after (T0 ∨ T1) (H0 ∨ H1) b old := by
  unfold byte_after at hm hn ⊢
  rw [hn, hm]
  by_cases hT0 : T0 <;> by_cases hT1 : T1 <;> by_cases hH0 : H0 <;> by_cases hH1 : H1 <;>
    by_cases hb : b < 8 <;> cases old <;> simp_all

theorem byte_after_congr (T T1 H H1 : Prop) (b : Nat) (old : Bool) (hT : T ↔ T1)
    (hH : H ↔ H1) : byte_after T H b old ↔ byte_after T1 H1 b old := by
  unfold byte_after
  rw [hT, hH]

theorem atomic_fetch_or_testBit (mem mem1 : bytes_t) (addr s x b : Nat)
    (h : atomic_fetch_or mem addr (1 <<< s) = some mem1) :
    (mem1.byte x).testBit b = true ↔
      byte_after (x = addr) (x = addr ∧ s = b) b ((mem.byte x).testBit b) := by
  unfold atomic_fetch_or at h
  split at h
  · cases h
    unfold byte_after
    by_cases hx : x = addr
    · subst hx
      simp only [if_true, true_and, not_true_eq_false, false_and, or_false]
      unfold u8
      rw [Nat.testBit_mod_two_pow, Nat.testBit_or, Nat.one_shiftLeft, Nat.testBit_two_pow]
      simp
    · simp [hx]
  · cases h

theorem add_generic_loop_bytes (size off : Nat) :
    ∀ (n i h y : Nat) (mem mem1 : bytes_t),
      add_generic_loop size off n i h y mem = some mem1 →
      ∀ x b, (mem1.byte x).testBit b = true ↔
        byte_after (∃ p ∈ probe_loop size n i h y, off + p >>> 3 = x)
          (∃ p ∈ probe_loop size n i h y, off + p >>> 3 = x ∧ p &&& 7 = b) b
          ((mem.byte x).testBit b) := by
  intro n
  induction n with
  | zero =>
    intro i h y mem mem1 hm x b
    simp only [add_generic_loop, Option.some.injEq] at hm
    subst hm
    simp [probe_loop, byte_after]
  | succ n ih =>
    intro i h y mem mem1 hm x b
    simp only [add_generic_loop] at hm
    cases hf : atomic_fetch_or mem (off + h >>> 3) (1 <<< (h &&& 7)) with
    | none => rw [hf] at hm; cases hm
    | some mem2 =>
      rw [hf] at hm
      have h1 := atomic_fetch_or_testBit mem mem2 _ _ x b hf
      have h2 := ih _ _ _ mem2 mem1 hm x b
      have h3 := byte_after_comp _ _ _ _ b _ _ _ (fun hh => hh.1)
        (fun ⟨p, hp, hx, _⟩ => ⟨p, hp, hx⟩) h1 h2
      rw [h3]
      apply byte_after_congr
      · simp only [probe_loop, List.mem_cons, exists_eq_or_imp]
        constructor
        · rintro (hh | hh)
          · exact Or.inl hh.symm
          · exact Or.inr hh
        · rintro (hh | hh)
          · exact Or.inl hh.symm
          · exact Or.inr hh
      · simp only [probe_loop, List.mem_cons, exists_eq_or_imp]
        constructor
        · rintro (⟨hh, hb⟩ | hh)
          · exact Or.inl ⟨hh.symm, hb⟩
          · exact Or.inr hh
        · rintro (⟨hh, hb⟩ | hh)
          · exact Or.inl ⟨hh.symm, hb⟩
          · exact Or.inr hh

theorem strategy_add_eq (f : bloom_filter_t) (key : Nat) :
    strategy_add f key =
      (add_generic f key f.bitmap (probe_offset f key) (probe_size f)).map
        fun mem => { f with bitmap := mem } := by
  obtain ⟨v, bm, s, m, k, B, n⟩ := f
  cases v <;> rfl

theorem strategy_add_bytes (f f1 : bloom_filter_t) (key : Nat)
    (h : strategy_add f key = some f1) :
    ∀ x b, (f1.bitmap.byte x).testBit b = true ↔
      byte_after (touched_by f key x) (hit_by f key x b) b ((f.bitmap.byte x).testBit b) := by
  rw [strategy_add_eq] at h
  cases hg : add_generic f key f.bitmap (probe_offset f key) (probe_size f) with
  | none => rw [hg] at h; cases h
  | some mem1 =>
    rw [hg] at h
    cases h
    exact add_generic_loop_bytes _ _ _ _ _ _ f.bitmap mem1 hg

theorem touched_hit_congr (f g : bloom_filter_t) (key x b : Nat)
    (hvar : g.variant = f.variant) (hs : g.seed = f.seed) (hm : g.m = f.m)
    (hk : g.k = f.k) (hB : g.B = f.B) (hn : g.nblocks = f.nblocks) :
    (touched_by g key x ↔ touched_by f key x) ∧ (hit_by g key x b ↔ hit_by f key x b) := by
  have h1 : probe_size g = probe_size f := by unfold probe_size; rw [hvar, hm, hB]
  have h2 : probe_offset g key = probe_offset f key := by
    unfold probe_offset; rw [hvar, block_offset_congr f g key hs hB hn]
  have h3 : probes g key (probe_size g) = probes f key (probe_size f) := by
    unfold probes; rw [h1, hs, hk]
  unfold touched_by hit_by
  rw [h2, h3]
  exact ⟨Iff.rfl, Iff.rfl⟩

theorem add_relation_bytes (R : List tuple_t) :
    ∀ (f f1 : bloom_filter_t), add_relation f R = some f1 →
    ∀ x b, (f1.bitmap.byte x).testBit b = true ↔
      byte_after (∃ r ∈ R, touched_by f r.key x) (∃ r ∈ R, hit_by f r.key x b) b
        ((f.bitmap.byte x).testBit b) := by
  induction R with
  | nil =>
    intro f f1 h x b
    simp only [add_relation, Option.some.injEq] at h
    subst h
    simp [byte_after]
  | cons r R ih =>
    intro f f1 h x b
    simp only [add_relation] at h
    cases hs : strategy_add f r.key with
    | none => rw [hs] at h; cases h
    | some f2 =>
      rw [hs] at h
      obtain ⟨a1, a2, a3, a4, a5, a6, _, _⟩ := strategy_add_frame f f2 r.key hs
      have h1 := strategy_add_bytes f f2 r.key hs x b
      have h2 := ih f2 f1 h x b
      have h3 := byte_after_comp _ _ _ _ b _ _ _
        (fun ⟨p, hp, hx, _⟩ => (⟨p, hp, hx⟩ : touched_by f r.key x))
        (fun ⟨r1, hr1, p, hp, hx, _⟩ =>
          (⟨r1, hr1, p, hp, hx⟩ : ∃ r1 ∈ R, touched_by f2 r1.key x)) h1 h2
      rw [h3]
      apply byte_after_congr
      · simp only [List.mem_cons, exists_eq_or_imp]
        constructor
        · rintro (hh | ⟨r1, hr1, hh⟩)
          · exact Or.inl hh
          · exact Or.inr ⟨r1, hr1, ((touched_hit_congr f f2 r1.key x b a1 a2 a3 a4 a5 a6).1).1 hh⟩
        · rintro (hh | ⟨r1, hr1, hh⟩)
          · exact Or.inl hh
          · exact Or.inr ⟨r1, hr1, ((touched_hit_congr f f2 r1.key x b a1 a2 a3 a4 a5 a6).1).2 hh⟩
      · simp only [List.mem_cons, exists_eq_or_imp]
        constructor
        · rintro (hh | ⟨r1, hr1, hh⟩)
          · exact Or.inl hh
          · exact Or.inr ⟨r1, hr1, ((touched_hit_congr f f2 r1.key x b a1 a2 a3 a4 a5 a6).2).1 hh⟩
        · rintro (hh | ⟨r1, hr1, hh⟩)
          · exact Or.inl hh
          · exact Or.inr ⟨r1, hr1, ((touched_hit_congr f f2 r1.key x b a1 a2 a3 a4 a5 a6).2).2 hh⟩

theorem bloom_filter_ext (f g : bloom_filter_t) (hvar : f.variant = g.variant)
    (hs : f.seed = g.seed) (hm : f.m = g.m) (hk : f.k = g.k) (hB : f.B = g.B)
    (hn : f.nblocks = g.nblocks) (hl : f.bitmap.len = g.bitmap.len)
    (hb : ∀ x, f.bitmap.byte x = g.bitmap.byte x) : f = g := by
  obtain ⟨v1, ⟨l1, b1⟩, s1, m1, k1, B1, n1⟩ := f
  obtain ⟨v2, ⟨l2, b2⟩, s2, m2, k2, B2, n2⟩ := g
  simp only at hvar hs hm hk hB hn hl hb
  have hfun : b1 = b2 := funext hb
  subst hvar hs hm hk hB hn hl hfun
  rfl

theorem exists_key_iff (R : List tuple_t) (P : Nat → Prop) :
    (∃ r ∈ R, P r.key) ↔ ∃ key, (∃ r ∈ R, r.key = key) ∧ P key := by
  constructor
  · rintro ⟨r, hr, hp⟩
    exact ⟨r.key, ⟨r, hr, rfl⟩, hp⟩
  · rintro ⟨key, ⟨r, hr, rfl⟩, hp⟩
    exact ⟨r, hr, hp⟩

/-- Two relations with the same set of keys give the same filter. -/
theorem add_relation_same_keys (f fa fb : bloom_filter_t) (R1 R2 : List tuple_t)
    (hkeys : ∀ key, (∃ r ∈ R1, r.key = key) ↔ (∃ r ∈ R2, r.key = key))
    (h1 : add_relation f R1 = some fa) (h2 : add_relation f R2 = some fb) : fa = fb := by
  obtain ⟨a1, a2, a3, a4, a5, a6, a7, _⟩ := add_relation_frame R1 f fa h1
  obtain ⟨b1, b2, b3, b4, b5, b6, b7, _⟩ := add_relation_frame R2 f fb h2
  apply bloom_filter_ext fa fb (a1.trans b1.symm) (a2.trans b2.symm) (a3.trans b3.symm)
    (a4.trans b4.symm) (a5.trans b5.symm) (a6.trans b6.symm) (a7.trans b7.symm)
  intro x
  apply Nat.eq_of_testBit_eq
  intro b
  have e1 := add_relation_bytes R1 f fa h1 x b
  have e2 := add_relation_bytes R2 f fb h2 x b
  have hT : (∃ r ∈ R1, touched_by f r.key x) ↔ (∃ r ∈ R2, touched_by f r.key x) := by
    rw [exists_key_iff R1 (fun key => touched_by f key x),
      exists_key_iff R2 (fun key => touched_by f key x)]
    simp only [hkeys]
  have hH : (∃ r ∈ R1, hit_by f r.key x b) ↔ (∃ r ∈ R2, hit_by f r.key x b) := by
    rw [exists_key_iff R1 (fun key => hit_by f key x b),
      exists_key_iff R2 (fun key => hit_by f key x b)]
    simp only [hkeys]
  have e3 : (fa.bitmap.byte x).testBit b = true ↔ (fb.bitmap.byte x).testBit b = true := by
    rw [e1, e2]
    exact byte_after_congr _ _ _ _ b _ hT hH
  cases ha : (fa.bitmap.byte x).testBit b <;> cases hb : (fb.bitmap.byte x).testBit b <;>
    simp_all

theorem add_relation_pair (f f1 : bloom_filter_t) (r1 r2 : tuple_t) :
    add_relation f [r1, r2] = some f1 ↔
    ∃ fa, strategy_add f r1.key = some fa ∧ strategy_add fa r2.key = some f1 := by
  simp only [add_relation]
  cases h1 : strategy_add f r1.key with
  | none => simp
  | some fa =>
    cases h2 : strategy_add fa r2.key with
    | none => simp [h2]
    | some fb => simp [h2]

/-- C20: the order of insertions does not matter. In a valid filter of either
variant, `add` of `a` then `b` and `add` of `b` then `a` both return, with the
same filter (the same bitmap, byte for byte); and the insertions of two relations
with the same set of keys, in any order and multiplicity, both return, with the
same filter. -/
theorem add_order_irrelevant (f : bloom_filter_t) (R1 R2 : List tuple_t) (hv : valid f)
    (hkeys : ∀ key, (∃ r ∈ R1, r.key = key) ↔ (∃ r ∈ R2, r.key = key)) :
    (∀ a b, ∃ fa fb fab, strategy_add f a = some fa ∧ strategy_add fa b = some fab ∧
      strategy_add f b = some fb ∧ strategy_add fb a = some fab) ∧
    ∃ f1, add_relation f R1 = some f1 ∧ add_relation f R2 = some f1 := by
  constructor
  · intro a b
    obtain ⟨fab, h1⟩ := add_relation_total [⟨a, 0⟩, ⟨b, 0⟩] f hv
    obtain ⟨fba, h2⟩ := add_relation_total [⟨b, 0⟩, ⟨a, 0⟩] f hv
    have he : fab = fba := by
      apply add_relation_same_keys f fab fba _ _ _ h1 h2
      intro key
      simp only [List.mem_cons, List.mem_singleton, List.not_mem_nil, or_false,
        exists_eq_or_imp, exists_eq_left]
      tauto
    subst he
    obtain ⟨fa, h3, h4⟩ := (add_relation_pair f fab _ _).1 h1
    obtain ⟨fb, h5, h6⟩ := (add_relation_pair f fab _ _).1 h2
    exact ⟨fa, fb, fab, h3, h4, h5, h6⟩
  · obtain ⟨fa, h1⟩ := add_relation_total R1 f hv
    obtain ⟨fb, h2⟩ := add_relation_total R2 f hv
    have he := add_relation_same_keys f fa fb R1 R2 hkeys h1 h2
    subst he
    exact ⟨fa, h1, h2⟩

theorem relation_R_again_keys :
    ∀ key, (∃ r ∈ relation_R, r.key = key) ↔ (∃ r ∈ relation_R_again, r.key = key) := by
  intro key
  simp only [relation_R, relation_R_again, List.mem_cons, List.mem_singleton,
    List.not_mem_nil, or_false, exists_eq_or_imp, exists_eq_left]
  tauto

/-- C20 on the blocked filter of 64 bits: the keys 5, 9 and the keys 9, 5, 9. -/
theorem add_order_irrelevant_example :
    valid filter_m64 ∧
    (∀ key, (∃ r ∈ relation_R, r.key = key) ↔ (∃ r ∈ relation_R_again, r.key = key)) ∧
    (∀ a b, ∃ fa fb fab, strategy_add filter_m64 a = some fa ∧
      strategy_add fa b = some fab ∧ strategy_add filter_m64 b = some fb ∧
      strategy_add fb a = some fab) ∧
    ∃ f1, add_relation filter_m64 relation_R = some f1 ∧
      add_relation filter_m64 relation_R_again = some f1 :=
  ⟨filter_m64_valid, relation_R_again_keys,
    add_order_irrelevant filter_m64 relation_R relation_R_again filter_m64_valid
      relation_R_again_keys⟩

/-! ## The hash functions -/

/-- C26: `hash_Coffin` and `hash_DJB2` do not depend on the seed, with a signed
and with an unsigned `char`. -/
theorem coffin_djb2_ignore_seed (char_signed : Bool) (key s1 s2 : Nat) :
    hash_Coffin char_signed s1 key = hash_Coffin char_signed s2 key ∧
    hash_DJB2 char_signed s1 key = hash_DJB2 char_signed s2 key :=
  ⟨rfl, rfl⟩

/-- C27: with the signed `char` of x86, `hash_FNV` of the key 128 and the seed 0
is not the FNV reference: the byte 128 enters as `0xFFFFFF80`. -/
theorem hash_FNV_differs_from_reference :
    hash_FNV true 0 128 = 3592716693 ∧ fnv_reference 0 128 = 896953493 ∧
    hash_FNV true 0 128 ≠ fnv_reference 0 128 ∧
    hash_FNV false 0 128 = fnv_reference 0 128 :=
  ⟨by decide, by decide, by decide, by decide⟩

/-- C28: the 32-bit SpookyHash is the truncation of the 64-bit one, and
`hash_Spooky` is `hash_spooky32` with the arguments exchanged. -/
theorem spooky32_truncates_spooky64 (key seed : Nat) :
    hash_spooky32 key seed = hash_spooky64 key seed % 2 ^ 32 ∧
    hash_Spooky seed key = hash_spooky32 key seed :=
  ⟨rfl, rfl⟩

theorem key_byte_eq (key i : Nat) : key_byte key i = key / 2 ^ (i * 8) % 256 := by
  unfold key_byte
  rw [Nat.shiftRight_eq_div_pow]
  exact Nat.and_pow_two_sub_one_eq_mod _ 8

/-- With an unsigned `char`, `hash_FNV` is the FNV reference for every 32-bit seed. -/
theorem hash_FNV_unsigned_is_reference (seed key : Nat) (hs : seed < 2 ^ 32) :
    hash_FNV false seed key = fnv_reference seed key := by
  have h0 : u32 (seed ^^^ 2166136261) = seed ^^^ 2166136261 := by
    unfold u32
    exact Nat.mod_eq_of_lt (Nat.xor_lt_two_pow hs (by norm_num))
  unfold hash_FNV fnv_reference
  rw [h0]
  simp [sizeof_intkey_t, List.range_succ, char_to_u32, key_byte_eq, u32]

/-! ## Bounds of the bitmap accesses -/

/-- C22: the bitmap accesses stay in bounds. In a filter that satisfies the
preconditions, every byte offset `h >> 3` of a probe of `add_basic` and
`contains_basic` is below `m / 8`, and both calls return (an access outside of
the `m / 8` bytes has no result in the model); with the preconditions on `B`,
every byte offset `block_idx * (B / 8) + (h >> 3)` of `add_blocked` and
`contains_blocked` is below `m / 8`, and both calls return. -/
theorem accesses_in_bounds (f : bloom_filter_t) (key : Nat) (hv : valid_basic f) :
    ((∀ p ∈ probes f key (u32 f.m), p >>> 3 < f.m / 8) ∧
      (∃ f1, add_basic f key = some f1) ∧ ∃ b, contains_basic f key = some b) ∧
    (valid_blocked f →
      (∀ p ∈ probes f key (u32 f.B),
        mod_m (hash_crc f.seed key) f.nblocks * (f.B / 8) + p >>> 3 < f.m / 8) ∧
      (∃ f1, add_blocked f key = some f1) ∧ ∃ b, contains_blocked f key = some b) := by
  constructor
  · refine ⟨?_, add_basic_total f key hv, ?_⟩
    · intro p hp
      have h := valid_basic_in_bounds f hv key p hp
      rw [hv.len, Nat.zero_add] at h
      exact h
    · exact contains_generic_total f key f.bitmap 0 (u32 f.m) (valid_basic_in_bounds f hv key)
  · intro hb
    refine ⟨?_, add_blocked_total f key hb, ?_⟩
    · intro p hp
      have h := valid_blocked_in_bounds f hb key p hp
      rw [hv.len, (block_offset_eq f hb key).2] at h
      exact h
    · exact contains_generic_total f key f.bitmap _ (u32 f.B)
        (valid_blocked_in_bounds f hb key)

/-- C22 at the smallest configuration `m = 8`, `k = 1`, for the key 5. -/
theorem accesses_in_bounds_example :
    valid_basic filter_m8 ∧ valid_blocked filter_m8 ∧
    ((∀ p ∈ probes filter_m8 5 (u32 filter_m8.m), p >>> 3 < filter_m8.m / 8) ∧
      (∃ f1, add_basic filter_m8 5 = some f1) ∧ ∃ b, contains_basic filter_m8 5 = some b) ∧
    ((∀ p ∈ probes filter_m8 5 (u32 filter_m8.B),
        mod_m (hash_crc filter_m8.seed 5) filter_m8.nblocks * (filter_m8.B / 8) + p >>> 3 <
          filter_m8.m / 8) ∧
      (∃ f1, add_blocked filter_m8 5 = some f1) ∧ ∃ b, contains_blocked filter_m8 5 = some b) :=
  ⟨filter_m8_valid_basic, filter_m8_valid_blocked,
    (accesses_in_bounds filter_m8 5 filter_m8_valid_basic).1,
    (accesses_in_bounds filter_m8 5 filter_m8_valid_basic).2 filter_m8_valid_blocked⟩

/-- C23: arguments that `assert_args` lets pass are not safe to use. In basic
mode `B = 0` passes and `bloom_filter_create` divides by zero; `m = 4` passes,
the bitmap gets 0 bytes, and `add_basic` and `contains_basic` access byte 0
outside of it; the same holds for `m = 0`. None of this depends on what
`posix_memalign` returns. -/
theorem validation_not_sufficient :
    (assert_args { variant := bloom_filter_variant_t.BASIC, m := 8, k := 1, B := 0 } =
        outcome_t.returns ∧
      ∀ posix_memalign, bloom_filter_create posix_memalign
        { variant := bloom_filter_variant_t.BASIC, m := 8, k := 1, B := 0 } 0 = none) ∧
    (assert_args { variant := bloom_filter_variant_t.BASIC, m := 4, k := 8, B := 1024 } =
        outcome_t.returns ∧
      ∀ posix_memalign, ∃ f, bloom_filter_create posix_memalign
          { variant := bloom_filter_variant_t.BASIC, m := 4, k := 8, B := 1024 } 0 = some f ∧
        f.bitmap.len = 0 ∧ add_basic f 5 = none ∧ contains_basic f 5 = none) ∧
    (assert_args { variant := bloom_filter_variant_t.BASIC, m := 0, k := 8, B := 1024 } =
        outcome_t.returns ∧
      ∀ posix_memalign, ∃ f, bloom_filter_create posix_memalign
          { variant := bloom_filter_variant_t.BASIC, m := 0, k := 8, B := 1024 } 0 = some f ∧
        f.bitmap.len = 0 ∧ add_basic f 5 = none ∧ contains_basic f 5 = none) :=
  ⟨⟨rfl, fun _ => rfl⟩,
    ⟨rfl, fun pm => by
      rcases calloc_aligned_zero pm with h | h <;>
        exact ⟨_, rfl, by show (calloc_aligned pm 0).len = 0; rw [h]; rfl,
          by show Option.map _ (add_generic _ 5 (calloc_aligned pm 0) 0 _) = none; rw [h]; rfl,
          by show contains_generic _ 5 (calloc_aligned pm 0) 0 _ = none; rw [h]; rfl⟩⟩,
    ⟨rfl, fun pm => by
      rcases calloc_aligned_zero pm with h | h <;>
        exact ⟨_, rfl, by show (calloc_aligned pm 0).len = 0; rw [h]; rfl,
          by show Option.map _ (add_generic _ 5 (calloc_aligned pm 0) 0 _) = none; rw [h]; rfl,
          by show contains_generic _ 5 (calloc_aligned pm 0) 0 _ = none; rw [h]; rfl⟩⟩⟩

/-! ## One block, and the empty filter -/

theorem mod_m_one (v : Nat) : mod_m v 1 = 0 := by
  unfold mod_m u64 u32
  have h : (1 + 2 ^ 64 - 1) % 2 ^ 64 = 0 := by norm_num
  rw [h, Nat.and_zero]
  rfl

/-- C24: a blocked filter with a single block is the basic filter. In a valid
blocked filter with `B = m` there is one block, `add_blocked` returns what
`add_basic` returns (the same bitmap), and `contains_blocked` returns what
`contains_basic` returns. -/
theorem single_block_is_basic (f : bloom_filter_t) (key : Nat) (hv : valid_blocked f)
    (hB : f.B = f.m) :
    f.nblocks = 1 ∧ add_blocked f key = add_basic f key ∧
    contains_blocked f key = contains_basic f key := by
  obtain ⟨a, ha⟩ := hv.basic.m_pow2
  have hn : f.nblocks = 1 := by
    rw [hv.nblocks, hB]
    exact Nat.div_self (by rw [ha]; exact Nat.two_pow_pos a)
  have hoff : block_offset f key = 0 := by
    show u64 (mod_m (hash_crc f.seed key) f.nblocks * (f.B / 8)) = 0
    rw [hn, mod_m_one, Nat.zero_mul]
    rfl
  refine ⟨hn, ?_, ?_⟩
  · unfold add_blocked add_basic
    rw [hoff, hB]
  · unfold contains_blocked contains_basic
    rw [hoff, hB]

/-- C24 at the smallest configuration, one block of 8 bits, for the key 5. -/
theorem single_block_is_basic_example :
    valid_blocked filter_m8 ∧ filter_m8.B = filter_m8.m ∧
    filter_m8.nblocks = 1 ∧ add_blocked filter_m8 5 = add_basic filter_m8 5 ∧
    contains_blocked filter_m8 5 = contains_basic filter_m8 5 :=
  ⟨filter_m8_valid_blocked, rfl, single_block_is_basic filter_m8 5 filter_m8_valid_blocked rfl⟩

theorem strategy_contains_eq (f : bloom_filter_t) (key : Nat) :
    strategy_contains f key =
      contains_generic f key f.bitmap (probe_offset f key) (probe_size f) := by
  obtain ⟨v, bm, s, m, k, B, n⟩ := f
  cases v <;> rfl

theorem bit_set_zero_bytes (size j : Nat) : bit_set (zero_bytes size) j = false := by
  unfold bit_set zero_bytes
  simp

theorem create_bitmap (pm : Nat → Int) (args : bloom_filter_args_t) (seed : Nat)
    (f : bloom_filter_t) (hc : bloom_filter_create pm args seed = some f)
    (halloc : pm (args.m / 8) = 0) :
    f.bitmap = zero_bytes (args.m / 8) ∧ f.k = args.k := by
  unfold bloom_filter_create at hc
  split at hc
  · cases hc
  · simp only [Option.some.injEq] at hc
    rw [calloc_aligned_ok pm _ halloc] at hc
    subst hc
    exact ⟨rfl, rfl⟩

theorem probes_nil_iff (f : bloom_filter_t) (key size : Nat) :
    probes f key size = [] ↔ f.k = 0 := by
  unfold probes
  cases f.k with
  | zero => simp [probe_loop]
  | succ n => simp [probe_loop]

theorem strategy_add_k_zero (f : bloom_filter_t) (key : Nat) (hk : f.k = 0) :
    strategy_add f key = some f := by
  obtain ⟨v, bm, s, m, k, B, n⟩ := f
  simp only at hk
  subst hk
  cases v <;> rfl

/-- C25: the empty filter. On a filter that `bloom_filter_create` returned and
whose bitmap was allocated (`posix_memalign` returned 0, so that the bitmap is
`m / 8` zero bytes), for every key and either variant, `contains` is true iff
`k = 0`; with `k = 0` `add` returns the filter unchanged; and with `k ≥ 1` and
valid arguments `contains` returns false. -/
theorem empty_filter_contains (pm : Nat → Int) (args : bloom_filter_args_t) (seed key : Nat)
    (f : bloom_filter_t) (hc : bloom_filter_create pm args seed = some f)
    (halloc : pm (args.m / 8) = 0) :
    (strategy_contains f key = some true ↔ f.k = 0) ∧
    (f.k = 0 → strategy_add f key = some f) ∧
    (valid_args args → 1 ≤ f.k → strategy_contains f key = some false) := by
  obtain ⟨hbm, _⟩ := create_bitmap pm args seed f hc halloc
  have htrue : strategy_contains f key = some true ↔ f.k = 0 := by
    rw [strategy_contains_eq, contains_generic_true, ← probes_nil_iff f key (probe_size f)]
    constructor
    · intro h
      cases hp : probes f key (probe_size f) with
      | nil => rfl
      | cons p ps =>
        have h1 := (h p (by rw [hp]; exact List.mem_cons_self _ _)).2
        rw [hbm, bit_set_zero_bytes] at h1
        cases h1
    · intro h p hp
      rw [h] at hp
      cases hp
  refine ⟨htrue, ?_, ?_⟩
  · exact strategy_add_k_zero f key
  · intro ha hk
    have hv := create_valid pm args seed f hc ha halloc
    have hb : ∀ p ∈ probes f key (probe_size f),
        probe_offset f key + p >>> 3 < f.bitmap.len := by
      unfold valid at hv
      unfold probe_offset probe_size
      cases hvar : f.variant with
      | BASIC => rw [hvar] at hv; exact valid_basic_in_bounds f hv key
      | BLOCKED => rw [hvar] at hv; exact valid_blocked_in_bounds f hv key
    obtain ⟨b, hcb⟩ := contains_generic_total f key f.bitmap _ _ hb
    rw [strategy_contains_eq, hcb]
    cases b with
    | false => rfl
    | true =>
      rw [← strategy_contains_eq] at hcb
      have := htrue.1 hcb
      omega

/-- C25 on the filter created from the arguments of the blocked filter of 64
bits (`k = 3`), for the key 5. -/
theorem empty_filter_contains_example :
    bloom_filter_create memalign_succeeds args_m64 7 = some filter_m64 ∧
    memalign_succeeds (args_m64.m / 8) = 0 ∧
    (strategy_contains filter_m64 5 = some true ↔ filter_m64.k = 0) ∧
    (filter_m64.k = 0 → strategy_add filter_m64 5 = some filter_m64) ∧
    (valid_args args_m64 → 1 ≤ filter_m64.k → strategy_contains filter_m64 5 = some false) :=
  ⟨rfl, rfl, empty_filter_contains memalign_succeeds args_m64 7 5 filter_m64 rfl rfl⟩

/-! ## The closed form of the probe sequence -/

theorem probe_loop_eq_map (size h0 y0 : Nat) :
    ∀ (n i : Nat),
      probe_loop size n i (probe_state size h0 y0 i).1 (probe_state size h0 y0 i).2 =
      (List.range n).map fun t => (probe_state size h0 y0 (i + t)).1 := by
  intro n
  induction n with
  | zero => intro i; rfl
  | succ n ih =>
    intro i
    have hstep := ih (i + 1)
    simp only [probe_state] at hstep
    simp only [probe_loop, hstep, List.range_succ_eq_map, List.map_cons, List.map_map,
      Nat.add_zero]
    congr 1
    apply List.map_congr_left
    intro t _
    simp only [Function.comp_apply]
    rw [show i + 1 + t = i + (t + 1) by omega]

theorem probes_eq_map (f : bloom_filter_t) (key size : Nat) :
    probes f key size =
      (List.range f.k).map fun i =>
        (probe_state size (mod_m (hash_crapwow f.seed key) size)
          (mod_m (u32 (key + f.seed)) size) i).1 := by
  have h := probe_loop_eq_map size (mod_m (hash_crapwow f.seed key) size)
    (mod_m (u32 (key + f.seed)) size) f.k 0
  simp only [Nat.zero_add] at h
  exact h

theorem triangle_step (i : Nat) : (i + 1) * (i + 2) / 2 = i * (i + 1) / 2 + (i + 1) := by
  have h1 : 2 ∣ i * (i + 1) := (Nat.even_mul_succ_self i).two_dvd
  obtain ⟨t, ht⟩ := h1
  have h2 : (i + 1) * (i + 2) = 2 * (t + (i + 1)) := by
    have : (i + 1) * (i + 2) = i * (i + 1) + 2 * (i + 1) := by ring
    rw [this, ht]; ring
  rw [h2, ht, Nat.mul_div_cancel_left _ (by norm_num), Nat.mul_div_cancel_left _ (by norm_num)]

theorem cube_eq (i : Nat) : ∃ s, i ^ 3 = 6 * s + i := by
  induction i with
  | zero => exact ⟨0, by norm_num⟩
  | succ i ih =>
    obtain ⟨s, hs⟩ := ih
    obtain ⟨t, ht⟩ := (Nat.even_mul_succ_self i).two_dvd
    refine ⟨s + t, ?_⟩
    have e1 : (i + 1) ^ 3 = i ^ 3 + 3 * (i * (i + 1)) + 1 := by ring
    rw [e1, hs, ht]
    ring

theorem tetra_step (i : Nat) :
    ((i + 1) ^ 3 - (i + 1)) / 6 = (i ^ 3 - i) / 6 + i * (i + 1) / 2 := by
  obtain ⟨s, hs⟩ := cube_eq i
  obtain ⟨t, ht⟩ := (Nat.even_mul_succ_self i).two_dvd
  have e1 : (i + 1) ^ 3 = 6 * (s + t) + (i + 1) := by
    have e2 : (i + 1) ^ 3 = i ^ 3 + 3 * (i * (i + 1)) + 1 := by ring
    rw [e2, hs, ht]
    ring
  rw [e1, hs, ht, Nat.add_sub_cancel, Nat.add_sub_cancel,
    Nat.mul_div_cancel_left _ (by norm_num), Nat.mul_div_cancel_left _ (by norm_num),
    Nat.mul_div_cancel_left _ (by norm_num)]

/-- The recurrence of the specification in closed form, as congruences. -/
theorem spec_probe_state_closed (m p0 y0 : Nat) :
    ∀ i, (spec_probe_state m p0 y0 i).1 ≡ p0 + i * y0 + (i ^ 3 - i) / 6 [MOD m] ∧
      (spec_probe_state m p0 y0 i).2 ≡ y0 + i * (i + 1) / 2 [MOD m] := by
  intro i
  induction i with
  | zero =>
    simp only [spec_probe_state]
    constructor
    · norm_num
      exact Nat.ModEq.refl _
    · norm_num
      exact Nat.ModEq.refl _
  | succ i ih =>
    obtain ⟨hp, hy⟩ := ih
    simp only [spec_probe_state]
    constructor
    · have h1 : ((spec_probe_state m p0 y0 i).1 + (spec_probe_state m p0 y0 i).2) % m ≡
          (spec_probe_state m p0 y0 i).1 + (spec_probe_state m p0 y0 i).2 [MOD m] :=
        Nat.mod_modEq _ _
      have h2 := Nat.ModEq.add hp hy
      have h3 : p0 + i * y0 + (i ^ 3 - i) / 6 + (y0 + i * (i + 1) / 2) =
          p0 + (i + 1) * y0 + ((i + 1) ^ 3 - (i + 1)) / 6 := by
        rw [tetra_step]; ring
      rw [h3] at h2
      exact h1.trans h2
    · have h1 : ((spec_probe_state m p0 y0 i).2 + i + 1) % m ≡
          (spec_probe_state m p0 y0 i).2 + i + 1 [MOD m] := Nat.mod_modEq _ _
      have h2 : (spec_probe_state m p0 y0 i).2 + i + 1 ≡
          y0 + i * (i + 1) / 2 + (i + 1) [MOD m] := by
        have := Nat.ModEq.add_right (i + 1) hy
        rw [← Nat.add_assoc] at this
        exact this
      have h3 : y0 + i * (i + 1) / 2 + (i + 1) = y0 + (i + 1) * (i + 1 + 1) / 2 := by
        rw [triangle_step]; ring
      rw [h3] at h2
      exact h1.trans h2

theorem spec_probe_state_lt (m p0 y0 : Nat) (hm : 0 < m) (hp : p0 < m) :
    ∀ i, (spec_probe_state m p0 y0 i).1 < m := by
  intro i
  cases i with
  | zero => exact hp
  | succ i => simp only [spec_probe_state]; exact Nat.mod_lt _ hm

/-- C21: the closed form of the probe sequence. For a size `2 ^ a` up to `2 ^ 32`
(passed as `uint32_t`) and `i < k`, the probe index `i` of `add_generic` and
`contains_generic` is `p_0 + i * y_0 + (i ^ 3 - i) / 6` modulo the size, with
`p_0 = hash_crapwow(seed, key) mod size` and `y_0 = (key + seed) mod size`. -/
theorem probe_sequence_closed_form (f : bloom_filter_t) (key a i : Nat) (ha : a ≤ 32)
    (hi : i < f.k) :
    (probes f key (u32 (2 ^ a)))[i]? =
      some (probe_closed_form (2 ^ a) (hash_crapwow f.seed key % 2 ^ a)
        ((key + f.seed) % 2 ^ a) i) := by
  rw [probes_eq_map, List.getElem?_map, List.getElem?_range hi]
  simp only [Option.map_some', probe_state_eq_spec a _ _ ha]
  congr 1
  unfold probe_closed_form
  have hpos : 0 < 2 ^ a := Nat.two_pow_pos a
  have h1 := (spec_probe_state_closed (2 ^ a) (hash_crapwow f.seed key % 2 ^ a)
    ((key + f.seed) % 2 ^ a) i).1
  have h2 := spec_probe_state_lt (2 ^ a) (hash_crapwow f.seed key % 2 ^ a)
    ((key + f.seed) % 2 ^ a) hpos (Nat.mod_lt _ hpos) i
  rw [← Nat.mod_eq_of_lt h2]
  exact h1

/-- C21 on the blocked filter of 64 bits (`k = 3`): the third probe of the key 5
in a block of 16 bits. -/
theorem probe_sequence_closed_form_example :
    (4 ≤ 32 ∧ 2 < filter_m64.k) ∧
    (probes filter_m64 5 (u32 (2 ^ 4)))[2]? =
      some (probe_closed_form (2 ^ 4) (hash_crapwow filter_m64.seed 5 % 2 ^ 4)
        ((5 + filter_m64.seed) % 2 ^ 4) 2) :=
  ⟨⟨by decide, by decide⟩, probe_sequence_closed_form filter_m64 5 4 2 (by decide) (by decide)⟩

/-! ## The key generator -/

theorem u32_to_int_small (x : Nat) (h : x < 2 ^ 31) : u32_to_int (u32 x) = (x : Int) := by
  unfold u32_to_int u32
  split_ifs <;> omega

theorem key_pattern_value (min : Int) (c : Nat) (h1 : -2 ^ 31 ≤ min) (h2 : min + c < 2 ^ 31) :
    u32_to_int (u32 (int_to_u32 min + c)) = min + c := by
  unfold u32_to_int u32 int_to_u32
  split_ifs <;> omega

/-- The loop of the generator. With `mo` options, when `n - inserted` tuples are
still needed and at least as many options are left, the loop ends with
`inserted = n`, and the first `n` tuples hold the options `c j` that it chose,
in increasing order; the tuples from `n` on are untouched. -/
theorem random_unique_gen_loop_spec (rnd : Nat → Int) (n : Nat) (min : Int) (mo : Nat)
    (hrnd : ∀ j, 0 ≤ rnd j) (hmo : mo < 2 ^ 31) (tuples : Nat → tuple_t) :
    ∀ (fuel i inserted : Nat) (arr : Nat → tuple_t) (c : Nat → Nat),
      fuel + i = mo → inserted ≤ n → n + i ≤ mo + inserted →
      (∀ j, j < inserted → c j < i ∧
        arr j = { key := u32 (int_to_u32 min + c j), payload := u32 (int_to_u32 min + c j) }) →
      (∀ j j1, j < j1 → j1 < inserted → c j < c j1) →
      (∀ j, n ≤ j → arr j = tuples j) →
      ∃ c1 : Nat → Nat,
        (random_unique_gen_loop rnd n min mo fuel i inserted arr).1 = n ∧
        (∀ j, j < n → c1 j < mo ∧
          (random_unique_gen_loop rnd n min mo fuel i inserted arr).2 j =
            { key := u32 (int_to_u32 min + c1 j), payload := u32 (int_to_u32 min + c1 j) }) ∧
        (∀ j j1, j < j1 → j1 < n → c1 j < c1 j1) ∧
        (∀ j, n ≤ j →
          (random_unique_gen_loop rnd n min mo fuel i inserted arr).2 j = tuples j) := by
  intro fuel
  induction fuel with
  | zero =>
    intro i inserted arr c hf hins hopt harr hmono hrest
    have hi : i = mo := by omega
    have hn : inserted = n := by omega
    subst hn
    refine ⟨c, rfl, ?_, hmono, hrest⟩
    intro j hj
    exact ⟨by have := (harr j hj).1; omega, (harr j hj).2⟩
  | succ fuel ih =>
    intro i inserted arr c hf hins hopt harr hmono hrest
    have hi : i < mo := by omega
    simp only [random_unique_gen_loop]
    by_cases hlt : inserted < n
    · have hcond : i < mo ∧ inserted < n := ⟨hi, hlt⟩
      rw [if_pos hcond]
      have hrm : u32_to_int (u32 (mo - i)) = ((mo - i : Nat) : Int) :=
        u32_to_int_small _ (by omega)
      have hrn : u32_to_int (u32 (n - inserted)) = ((n - inserted : Nat) : Int) :=
        u32_to_int_small _ (by omega)
      have hrmpos : (0 : Int) < ((mo - i : Nat) : Int) := by omega
      have htm : Int.tmod (rnd i) ((mo - i : Nat) : Int) = rnd i % ((mo - i : Nat) : Int) :=
        Int.tmod_eq_emod (hrnd i) (by omega)
      have hmodlt : rnd i % ((mo - i : Nat) : Int) < ((mo - i : Nat) : Int) :=
        Int.emod_lt_of_pos _ hrmpos
      rw [hrm, hrn, htm]
      by_cases hins1 : rnd i % ((mo - i : Nat) : Int) < ((n - inserted : Nat) : Int)
      · rw [if_pos hins1]
        apply ih (i + 1) (inserted + 1) _ (fun j => if j = inserted then i else c j)
          (by omega) (by omega) (by omega)
        · intro j hj
          by_cases hje : j = inserted
          · subst hje
            simp [store_tuple]
          · have hj1 : j < inserted := by omega
            have := harr j hj1
            simp only [store_tuple, hje, if_false]
            exact ⟨by omega, this.2⟩
        · intro j j1 hjj hj1
          by_cases h1 : j1 = inserted
          · have hj : j < inserted := by omega
            have hjne : j ≠ inserted := by omega
            simp only [h1, hjne, if_true, if_false]
            exact (harr j hj).1
          · have hj1' : j1 < inserted := by omega
            have hjne : j ≠ inserted := by omega
            simp only [h1, hjne, if_false]
            exact hmono j j1 hjj hj1'
        · intro j hj
          have hjne : j ≠ inserted := by omega
          simp only [store_tuple, hjne, if_false]
          exact hrest j hj
      · rw [if_neg hins1]
        apply ih (i + 1) inserted arr c (by omega) hins (by omega)
        · intro j hj
          have := harr j hj
          exact ⟨by omega, this.2⟩
        · exact hmono
        · exact hrest
    · have hcond : ¬ (i < mo ∧ inserted < n) := fun h => hlt h.2
      rw [if_neg hcond]
      have hn : inserted = n := by omega
      subst hn
      refine ⟨c, rfl, ?_, hmono, hrest⟩
      intro j hj
      exact ⟨by have := (harr j hj).1; omega, (harr j hj).2⟩

/-- The generator fills its relation: under the preconditions, and when
`max - min` fits `intkey_t`, the call returns, the first `n` tuples have keys in
`[min, max)` in strictly increasing order and payloads equal to the keys, and no
other tuple is written. -/
theorem random_unique_gen_range_spec (rnd : Nat → Int) (n : Nat) (tuples : Nat → tuple_t)
    (min max : Int) (hrnd : ∀ j, 0 ≤ rnd j) (hmin : -2 ^ 31 ≤ min) (hmax : max < 2 ^ 31)
    (hle : min ≤ max) (hn : (n : Int) ≤ max - min) (hfit : max - min < 2 ^ 31) :
    ∃ out, random_unique_gen_range rnd n tuples min max = some out ∧
      (∀ j, j < n → min ≤ signed_key (out j) ∧ signed_key (out j) < max ∧
        (out j).payload = (out j).key) ∧
      (∀ j j1, j < j1 → j1 < n → signed_key (out j) < signed_key (out j1)) ∧
      (∀ j, n ≤ j → out j = tuples j) := by
  have hrange : -2 ^ 31 ≤ max - min ∧ max - min < 2 ^ 31 := ⟨by omega, hfit⟩
  obtain ⟨mo, hmoeq⟩ : ∃ mo : Nat, (mo : Int) = max - min :=
    ⟨(max - min).toNat, Int.toNat_of_nonneg (by omega)⟩
  have hmo : int_to_u32 (max - min) = mo := by
    unfold int_to_u32
    rw [← hmoeq]
    omega
  obtain ⟨c1, _, h2, h3, h4⟩ := random_unique_gen_loop_spec rnd n min mo hrnd
    (by omega) tuples mo 0 0 tuples (fun _ => 0) (by omega) (by omega)
    (by omega) (fun j hj => absurd hj (Nat.not_lt_zero j))
    (fun j j1 _ hj1 => absurd hj1 (Nat.not_lt_zero j1)) (fun _ _ => rfl)
  refine ⟨_, by unfold random_unique_gen_range; rw [if_pos hrange, hmo], ?_, ?_, h4⟩
  · intro j hj
    obtain ⟨hc, he⟩ := h2 j hj
    rw [he]
    have hv := key_pattern_value min (c1 j) hmin (by omega)
    unfold signed_key
    simp only
    rw [hv]
    exact ⟨by omega, by omega, trivial⟩
  · intro j j1 hjj hj1
    obtain ⟨hc, he⟩ := h2 j (by omega)
    obtain ⟨hc1, he1⟩ := h2 j1 hj1
    rw [he, he1]
    have hv := key_pattern_value min (c1 j) hmin (by omega)
    have hv1 := key_pattern_value min (c1 j1) hmin (by omega)
    unfold signed_key
    simp only
    rw [hv, hv1]
    have := h3 j j1 hjj hj1
    omega

theorem example_rand_nonneg : ∀ j, 0 ≤ example_rand j := by
  intro j
  unfold example_rand
  exact Int.natCast_nonneg _

/-- C29 as stated fails when `max - min` does not fit `intkey_t`: for
`min = INT32_MIN`, `max = INT32_MAX` and `n = 2 ^ 31` the preconditions of the
claim hold, and the subtraction `max - min` has no defined result. -/
theorem random_unique_gen_range_overflows :
    (-2 ^ 31 : Int) ≤ 2 ^ 31 - 1 ∧ (((2 ^ 31 : Nat) : Int) ≤ (2 ^ 31 - 1) - (-2 ^ 31)) ∧
    (∀ j, 0 ≤ example_rand j) ∧
    random_unique_gen_range example_rand (2 ^ 31) zero_tuples (-2 ^ 31) (2 ^ 31 - 1) = none :=
  ⟨by decide, by decide, example_rand_nonneg, rfl⟩

/-- C29, amended: the generator produces exactly the requested unique keys when
`max - min` fits `intkey_t`. For non-negative values of `rand()`, 32-bit
`min ≤ max` with `n ≤ max - min < 2 ^ 31`, the call returns, the `n` tuples
have keys in `[min, max)` in strictly increasing order and payloads equal to the
keys, and nothing else is written. Consequently, for a threshold with
`0 ≤ threshold < INT32_MAX`, a relation of at most `threshold` tuples
generated over `[0, threshold)` and one of at most `INT32_MAX - threshold - 1`
tuples generated over `[threshold + 1, INT32_MAX)` have no key in common. -/
theorem random_unique_gen_range_unique (rnd : Nat → Int) (n : Nat) (tuples : Nat → tuple_t)
    (min max : Int) (hrnd : ∀ j, 0 ≤ rnd j) (hmin : -2 ^ 31 ≤ min) (hmax : max < 2 ^ 31)
    (hle : min ≤ max) (hn : (n : Int) ≤ max - min) (hfit : max - min < 2 ^ 31) :
    (∃ out, random_unique_gen_range rnd n tuples min max = some out ∧
      (∀ j, j < n → min ≤ signed_key (out j) ∧ signed_key (out j) < max ∧
        (out j).payload = (out j).key) ∧
      (∀ j j1, j < j1 → j1 < n → signed_key (out j) < signed_key (out j1)) ∧
      (∀ j, n ≤ j → out j = tuples j)) ∧
    (∀ (rndS : Nat → Int) (nR nS : Nat) (tuplesR tuplesS : Nat → tuple_t) (threshold : Int),
      (∀ j, 0 ≤ rndS j) → 0 ≤ threshold → threshold + 1 ≤ 2 ^ 31 - 1 →
      (nR : Int) ≤ threshold → (nS : Int) ≤ 2 ^ 31 - 1 - (threshold + 1) →
      ∃ outR outS,
        random_unique_gen_range rnd nR tuplesR 0 threshold = some outR ∧
        random_unique_gen_range rndS nS tuplesS (threshold + 1) (2 ^ 31 - 1) = some outS ∧
        ∀ j j1, j < nR → j1 < nS → (outR j).key ≠ (outS j1).key) := by
  refine ⟨random_unique_gen_range_spec rnd n tuples min max hrnd hmin hmax hle hn hfit, ?_⟩
  intro rndS nR nS tuplesR tuplesS threshold hrndS h0 h1 hnR hnS
  obtain ⟨outR, hR, hRk, _, _⟩ := random_unique_gen_range_spec rnd nR tuplesR 0 threshold hrnd
    (by omega) (by omega) h0 (by omega) (by omega)
  obtain ⟨outS, hS, hSk, _, _⟩ := random_unique_gen_range_spec rndS nS tuplesS (threshold + 1)
    (2 ^ 31 - 1) hrndS (by omega) (by omega) h1 (by omega) (by omega)
  refine ⟨outR, outS, hR, hS, ?_⟩
  intro j j1 hj hj1 heq
  have a1 := (hRk j hj).2.1
  have a2 := (hSk j1 hj1).1
  unfold signed_key at a1 a2
  rw [heq] at a1
  omega

/-- C29, amended, for three keys out of `[10, 20)`: the generator writes the
keys 11, 12 and 19. -/
theorem random_unique_gen_range_unique_example :
    ((∀ j, 0 ≤ example_rand j) ∧ (-2 ^ 31 : Int) ≤ 10 ∧ (20 : Int) < 2 ^ 31 ∧
      (10 : Int) ≤ 20 ∧ ((3 : Nat) : Int) ≤ 20 - 10 ∧ (20 : Int) - 10 < 2 ^ 31) ∧
    ((random_unique_gen_range example_rand 3 zero_tuples 10 20).map
      fun out => (List.range 4).map fun j => (out j).key) = some [11, 12, 19, 0] ∧
    (∃ out, random_unique_gen_range example_rand 3 zero_tuples 10 20 = some out ∧
      (∀ j, j < 3 → 10 ≤ signed_key (out j) ∧ signed_key (out j) < 20 ∧
        (out j).payload = (out j).key) ∧
      (∀ j j1, j < j1 → j1 < 3 → signed_key (out j) < signed_key (out j1)) ∧
      (∀ j, 3 ≤ j → out j = zero_tuples j)) :=
  ⟨⟨example_rand_nonneg, by decide, by decide, by decide, by decide, by decide⟩, by decide,
    (random_unique_gen_range_unique example_rand 3 zero_tuples 10 20 example_rand_nonneg
      (by decide) (by decide) (by decide) (by decide) (by decide)).1⟩

end HwBloomRadixJoin
